import Mathlib

/-!
# Verification of the minipath triangle-BVH renderer

This file is a shallow embedding, in Lean 4, of the core data structures and
algorithms of the minipath renderer:

* the compact `NodeLink` encoding (`src/scene/triangle_bvh/mod.rs`),
* the 16-bit quantized geometry (`src/scene/triangle_bvh/compressed_geometry.rs`),
* the BVH builder (`src/scene/triangle_bvh/building.rs`),
* the stack-based ray/BVH traversal (`src/scene/triangle_bvh/ray_bvh_intersection.rs`),
* the spiral tile iterator (`src/screen_block.rs`),
* the tile-dispatch counter protocol (`src/renderer/machinery.rs`).

Modelling conventions:

* Rust `u32` values are modelled as `Nat` with explicit `% 2 ^ 32` where the
  source arithmetic could wrap.
* `f32` scalar arithmetic is modelled over `ℚ` (exact arithmetic).  Where the
  source relies on IEEE-754 special values (division by zero producing
  infinities, `inf * 0 = NaN`, comparisons with NaN being false), we use the
  type `FloatV` below, which adjoins signed infinities and NaN to `ℚ` and
  mirrors those special-value rules exactly; finite arithmetic is exact
  (rounding error is not modelled).
* Panicking code paths (`assert!`, out-of-range indexing) are modelled with
  `Option`, `none` denoting a panic.
-/

namespace Minipath

/-! ## NodeLink encoding (`src/scene/triangle_bvh/mod.rs`)

`CompressedNodeLink8` stores 8 node links as one `u32` per lane.
`COUNT_BITS = 3`, `COUNT_MASK = 7`, `NULL_VALUE = (u32::MAX >> 3) << 3`.
-/

def COUNT_BITS : ℕ := 3

def COUNT_MASK : ℕ := (1 <<< COUNT_BITS) - 1

def NULL_VALUE : ℕ := ((2 ^ 32 - 1) >>> COUNT_BITS) <<< COUNT_BITS

/-- `NodeLink::MAX_INDEX = (u32::MAX >> COUNT_BITS) - 1`. -/
def MAX_INDEX : ℕ := (2 ^ 32 - 1) >>> COUNT_BITS - 1

/-- `NodeLink` from `mod.rs`: a link is null, an inner-node arena index, or a
leaf holding a range `first..last` of triangle-pack indices
(`TrianglePackIdxRange`). -/
inductive NodeLink where
  | null : NodeLink
  | inner (index : ℕ) : NodeLink
  | leaf (first last : ℕ) : NodeLink
  deriving DecidableEq, Repr

/-- The `u32` word written by `CompressedNodeLink8::replace` for a given link.
`Inner` stores `index << COUNT_BITS`; `Leaf` stores
`(first << COUNT_BITS) | count` with `count = last - first`.
The shifts are `u32` shifts, hence the `% 2 ^ 32`. -/
def NodeLink.encode : NodeLink → ℕ
  | .null => NULL_VALUE
  | .inner index => (index <<< COUNT_BITS) % 2 ^ 32
  | .leaf first last => ((first <<< COUNT_BITS) % 2 ^ 32) ||| (last - first)

/-- `CompressedNodeLink8::extract` decoding one lane's `u32` word. -/
def decodeNodeLink (value : ℕ) : NodeLink :=
  if value = NULL_VALUE then .null
  else
    let count := value &&& COUNT_MASK
    let index := value >>> COUNT_BITS
    if count = 0 then .inner index
    else .leaf index (index + count)

/-- `CompressedNodeLink8`: 8 lanes of encoded `u32` node links. -/
def CompressedNodeLink8 : Type := Fin 8 → ℕ

/-- `CompressedNodeLink8::default()`: all lanes `NULL_VALUE`. -/
def CompressedNodeLink8.default : CompressedNodeLink8 := fun _ => NULL_VALUE

/-- `CompressedNodeLink8::replace(i, value)`. -/
def CompressedNodeLink8.replace (links : CompressedNodeLink8) (i : Fin 8)
    (value : NodeLink) : CompressedNodeLink8 :=
  Function.update links i value.encode

/-- `CompressedNodeLink8::extract(i)`. -/
def CompressedNodeLink8.extract (links : CompressedNodeLink8) (i : Fin 8) : NodeLink :=
  decodeNodeLink (links i)

/-- Well-formedness of a link, as enforced by `NodeLink::new_leaf` /
`new_inner` and the index types: indices lie in `[0, MAX_INDEX]`, a leaf's
count `last - first` lies in `[MIN_COUNT, MAX_COUNT] = [1, 7]`. -/
def NodeLink.Wf : NodeLink → Prop
  | .null => True
  | .inner index => index ≤ MAX_INDEX
  | .leaf first last => first ≤ MAX_INDEX ∧ first + 1 ≤ last ∧ last ≤ first + 7

lemma shiftLeft_three_or_small (a b : ℕ) (hb : b < 8) :
    (a <<< 3) ||| b = a * 8 + b := by
  rw [Nat.shiftLeft_eq]
  have h := Nat.mul_add_lt_is_or (i := 3) (b := b) (a := a) hb
  calc a * 2 ^ 3 ||| b = 2 ^ 3 * a ||| b := by rw [Nat.mul_comm]
    _ = 2 ^ 3 * a + b := (h).symm
    _ = a * 8 + b := by ring

lemma NULL_VALUE_eq : NULL_VALUE = (2 ^ 29 - 1) * 8 := by
  decide

lemma MAX_INDEX_eq : MAX_INDEX = 2 ^ 29 - 2 := by
  decide

lemma COUNT_MASK_eq : COUNT_MASK = 7 := by
  decide

lemma COUNT_BITS_eq : COUNT_BITS = 3 := rfl

lemma land_seven (n : ℕ) : n &&& 7 = n % 8 := by
  have h := Nat.and_pow_two_sub_one_eq_mod n 3
  simpa using h

lemma shiftRight_three (n : ℕ) : n >>> 3 = n / 8 := by
  have h := Nat.shiftRight_eq_div_pow n 3
  simpa using h

/-- **C5.** For every lane `i` and every well-formed `NodeLink` (null, inner
with index in `[0, MAX_INDEX]`, or leaf with first-pack index in
`[0, MAX_INDEX]` and pack count in `[1, 7]`), writing the link into a
`CompressedNodeLink8` lane with `replace(i, link)` and reading it back with
`extract(i)` yields the original link; in particular the all-ones sentinel
`0xFFFF_FFF8` decodes to `Null`. -/
theorem nodeLink_replace_extract_roundTrip (links : CompressedNodeLink8) (i : Fin 8)
    (link : NodeLink) (hwf : link.Wf) :
    (links.replace i link).extract i = link ∧ decodeNodeLink 0xFFFFFFF8 = NodeLink.null := by
  refine ⟨?_, by decide⟩
  have hupd : (links.replace i link) i = link.encode := by
    simp [CompressedNodeLink8.replace]
  unfold CompressedNodeLink8.extract
  rw [hupd]
  cases link with
  | null => simp [NodeLink.encode, decodeNodeLink]
  | inner index =>
    have hidx : index ≤ 2 ^ 29 - 2 := by rw [← MAX_INDEX_eq]; exact hwf
    have henc : NodeLink.encode (.inner index) = index * 8 := by
      show (index <<< 3) % 2 ^ 32 = index * 8
      rw [Nat.shiftLeft_eq]
      have : index * 2 ^ 3 < 2 ^ 32 := by omega
      rw [Nat.mod_eq_of_lt this]
      ring
    rw [henc]
    unfold decodeNodeLink
    rw [if_neg (by rw [NULL_VALUE_eq]; omega)]
    simp only [COUNT_MASK_eq, COUNT_BITS_eq, land_seven, shiftRight_three]
    rw [if_pos (by omega)]
    congr 1
    omega
  | leaf first last =>
    obtain ⟨hfirst, hcount1, hcount7⟩ := hwf
    rw [MAX_INDEX_eq] at hfirst
    have henc : NodeLink.encode (.leaf first last) = first * 8 + (last - first) := by
      show ((first <<< 3) % 2 ^ 32) ||| (last - first) = first * 8 + (last - first)
      have hlt : first <<< 3 < 2 ^ 32 := by rw [Nat.shiftLeft_eq]; omega
      rw [Nat.mod_eq_of_lt hlt]
      exact shiftLeft_three_or_small first (last - first) (by omega)
    rw [henc]
    unfold decodeNodeLink
    rw [if_neg (by rw [NULL_VALUE_eq]; omega)]
    simp only [COUNT_MASK_eq, COUNT_BITS_eq, land_seven, shiftRight_three]
    rw [if_neg (by omega)]
    have h1 : (first * 8 + (last - first)) / 8 = first := by omega
    have h2 : (first * 8 + (last - first)) % 8 = last - first := by omega
    rw [h1, h2]
    congr 1
    omega

/-- Witness for C5: round trip at lane 3 on a concrete in-range leaf link. -/
theorem nodeLink_replace_extract_roundTrip_witness :
    (CompressedNodeLink8.default.replace 3 (NodeLink.leaf 10 15)).extract 3 =
      NodeLink.leaf 10 15 ∧ decodeNodeLink 0xFFFFFFF8 = NodeLink.null :=
  nodeLink_replace_extract_roundTrip CompressedNodeLink8.default 3
    (NodeLink.leaf 10 15) (by constructor <;> [decide; omega])

/-! ## Scalar world geometry over `ℚ`

One SIMD lane of the `f32x8` packs.  `WorldPoint` / `WorldVector` become
`Vec3`; `WorldBox` becomes `Aabb`; `WorldBoxSized` becomes `AabbSized`.
-/

structure Vec3 where
  x : ℚ
  y : ℚ
  z : ℚ
  deriving DecidableEq, Repr

namespace Vec3

def add (a b : Vec3) : Vec3 := ⟨a.x + b.x, a.y + b.y, a.z + b.z⟩

def sub (a b : Vec3) : Vec3 := ⟨a.x - b.x, a.y - b.y, a.z - b.z⟩

def smul (c : ℚ) (a : Vec3) : Vec3 := ⟨c * a.x, c * a.y, c * a.z⟩

/-- Componentwise division (`component_div`). -/
def cdiv (a b : Vec3) : Vec3 := ⟨a.x / b.x, a.y / b.y, a.z / b.z⟩

/-- Componentwise product. -/
def cmul (a b : Vec3) : Vec3 := ⟨a.x * b.x, a.y * b.y, a.z * b.z⟩

def dot (a b : Vec3) : ℚ := a.x * b.x + a.y * b.y + a.z * b.z

def cross (a b : Vec3) : Vec3 :=
  ⟨a.y * b.z - a.z * b.y, a.z * b.x - a.x * b.z, a.x * b.y - a.y * b.x⟩

/-- Componentwise minimum (`inf`). -/
def cmin (a b : Vec3) : Vec3 := ⟨min a.x b.x, min a.y b.y, min a.z b.z⟩

/-- Componentwise maximum (`sup`). -/
def cmax (a b : Vec3) : Vec3 := ⟨max a.x b.x, max a.y b.y, max a.z b.z⟩

def zero : Vec3 := ⟨0, 0, 0⟩

/-- Componentwise `≤`. -/
def le (a b : Vec3) : Prop := a.x ≤ b.x ∧ a.y ≤ b.y ∧ a.z ≤ b.z

/-- Componentwise `<` (strictly positive size tests). -/
def lt (a b : Vec3) : Prop := a.x < b.x ∧ a.y < b.y ∧ a.z < b.z

instance (a b : Vec3) : Decidable (le a b) := by unfold le; infer_instance

instance (a b : Vec3) : Decidable (lt a b) := by unfold lt; infer_instance

end Vec3

/-- `AABB<WorldPoint>` (one lane). -/
structure Aabb where
  min : Vec3
  max : Vec3
  deriving DecidableEq, Repr

/-- `AABBSized` (one lane): `min` corner plus `size = max - min`. -/
structure AabbSized where
  min : Vec3
  size : Vec3
  deriving DecidableEq, Repr

/-- `From<&AABB> for AABBSized`. -/
def Aabb.toSized (b : Aabb) : AabbSized := ⟨b.min, b.max.sub b.min⟩

/-- `From<&AABBSized> for AABB`. -/
def AabbSized.toAabb (b : AabbSized) : Aabb := ⟨b.min, b.min.add b.size⟩

/-- `AABB::extend_point`. -/
def Aabb.extendPoint (b : Aabb) (p : Vec3) : Aabb :=
  ⟨b.min.cmin p, b.max.cmax p⟩

/-- `AABB::extend_points`. -/
def Aabb.extendPoints (b : Aabb) (ps : List Vec3) : Aabb :=
  ps.foldl Aabb.extendPoint b

/-- `AABB::from_points`; `none` for an empty list. -/
def Aabb.fromPoints : List Vec3 → Option Aabb
  | [] => none
  | p :: ps => some (Aabb.extendPoints ⟨p, p⟩ ps)

/-- `AABB::union`. -/
def Aabb.union (a b : Aabb) : Aabb := ⟨a.min.cmin b.min, a.max.cmax b.max⟩

/-- `AABB::surface_area`: `2 (sx (sy + sz) + sy sz)`. -/
def Aabb.surfaceArea (b : Aabb) : ℚ :=
  let size := b.max.sub b.min
  2 * (size.x * (size.y + size.z) + size.y * size.z)

/-- A point lies inside a box (componentwise). -/
def Aabb.containsPoint (b : Aabb) (p : Vec3) : Prop :=
  b.min.le p ∧ p.le b.max

/-- `Triangle<Point>`: three vertices. -/
structure Tri (α : Type) where
  p0 : α
  p1 : α
  p2 : α
  deriving DecidableEq, Repr

def Tri.map {α β : Type} (f : α → β) (t : Tri α) : Tri β :=
  ⟨f t.p0, f t.p1, f t.p2⟩

def Tri.toList {α : Type} (t : Tri α) : List α := [t.p0, t.p1, t.p2]

/-! ## Compressed geometry (`src/scene/triangle_bvh/compressed_geometry.rs`)

All definitions are the per-lane (scalar) meaning of the 8-wide SIMD code:
each lane of the pack is processed independently, with a per-lane mask bit.
`f32` arithmetic is exact `ℚ` arithmetic here; `f32x8::round` is modelled by
`Int.round` (the source rounds ties to even, which differs from `Int.round`
only on exact ties and is irrelevant to the claims below).
-/

/-- `UnitInterval8::compress_internal`, one lane.  The source blends masked-out
lanes to `0.0` before rounding, clamps to `[0, u16::MAX]` with
`fast_min`/`fast_max`, then truncates to an integer. -/
def compressUnitInterval (v : ℚ) (rounding : ℚ → ℤ) (mask : Bool) : ℕ :=
  (Max.max 0 (Min.min 65535 (if mask then rounding (v * 65535) else 0))).toNat

/-- `UnitInterval8::decompress`, one lane: `u * (1 / u16::MAX)`. -/
def decompressUnitInterval (u : ℕ) : ℚ := (u : ℚ) * (1 / 65535)

/-- One lane of `RelativePoint8`: three quantized `u16` coordinates. -/
structure RelativePoint where
  x : ℕ
  y : ℕ
  z : ℕ
  deriving DecidableEq, Repr

/-- `RelativePoint8::compress_internal`, one lane: quantize the coordinates of
`p` relative to the enclosing sized box. -/
def RelativePoint.compressInternal (p : Vec3) (enclosingBox : AabbSized)
    (rounding : ℚ → ℤ) (mask : Bool) : RelativePoint :=
  let relative := (p.sub enclosingBox.min).cdiv enclosingBox.size
  ⟨compressUnitInterval relative.x rounding mask,
   compressUnitInterval relative.y rounding mask,
   compressUnitInterval relative.z rounding mask⟩

/-- `RelativePoint8::compress`, one lane (round to nearest). -/
def RelativePoint.compress (p : Vec3) (enclosingBox : AabbSized) (mask : Bool) :
    RelativePoint :=
  RelativePoint.compressInternal p enclosingBox (fun q => round q) mask

/-- `RelativePoint8::decompress`, one lane:
`enclosing_box.min + relative * enclosing_box.size` (FMA form). -/
def RelativePoint.decompress (rp : RelativePoint) (enclosingBox : AabbSized) : Vec3 :=
  let relative : Vec3 := ⟨decompressUnitInterval rp.x, decompressUnitInterval rp.y,
    decompressUnitInterval rp.z⟩
  ⟨enclosingBox.size.x * relative.x + enclosingBox.min.x,
   enclosingBox.size.y * relative.y + enclosingBox.min.y,
   enclosingBox.size.z * relative.z + enclosingBox.min.z⟩

/-- `RelativePoint8::is_zero`, one lane. -/
def RelativePoint.isZero (rp : RelativePoint) : Bool :=
  rp.x = 0 && rp.y = 0 && rp.z = 0

/-- One lane of `RelativeBox8 = AABB<RelativePoint8>`. -/
structure RelativeBox where
  min : RelativePoint
  max : RelativePoint
  deriving DecidableEq, Repr

/-- `RelativeBox8::compress_round_out`, one lane: `floor` for the minimum
corner, `ceil` for the maximum corner. -/
def RelativeBox.compressRoundOut (b : Aabb) (enclosingBox : AabbSized)
    (mask : Bool) : RelativeBox :=
  ⟨RelativePoint.compressInternal b.min enclosingBox Int.floor mask,
   RelativePoint.compressInternal b.max enclosingBox Int.ceil mask⟩

/-- `RelativeBox8::decompress`, one lane. -/
def RelativeBox.decompress (rb : RelativeBox) (enclosingBox : AabbSized) : Aabb :=
  ⟨rb.min.decompress enclosingBox, rb.max.decompress enclosingBox⟩

/-- One lane of `RelativeTriangle8 = Triangle<RelativePoint8>`. -/
def RelativeTriangle : Type := Tri RelativePoint

/-- `RelativeTriangle8::compress`, one lane. -/
def RelativeTriangle.compress (t : Tri Vec3) (enclosingBox : AabbSized)
    (mask : Bool) : RelativeTriangle :=
  t.map (fun p => RelativePoint.compress p enclosingBox mask)

/-- `RelativeTriangle8::decompress`, one lane. -/
def RelativeTriangle.decompress (t : RelativeTriangle) (enclosingBox : AabbSized) :
    Tri Vec3 :=
  Tri.map (fun p => RelativePoint.decompress p enclosingBox) t

/-! ### Conservative inflation of `compress_round_out` (C3) -/

lemma compress_floor_le (x m s : ℚ) (hs : 0 < s) (h1 : m ≤ x) (h2 : x ≤ m + s) :
    s * decompressUnitInterval (compressUnitInterval ((x - m) / s) Int.floor true) + m ≤ x := by
  set r : ℚ := (x - m) / s with hr
  have hr0 : 0 ≤ r := div_nonneg (by linarith) hs.le
  have hr1 : r ≤ 1 := by
    rw [hr, div_le_one hs]; linarith
  have hv0 : (0 : ℤ) ≤ ⌊r * 65535⌋ := Int.floor_nonneg.mpr (by positivity)
  have hv65535 : ⌊r * 65535⌋ ≤ 65535 := by
    have : r * 65535 ≤ 65535 := by nlinarith
    calc ⌊r * 65535⌋ ≤ ⌊(65535 : ℚ)⌋ := Int.floor_le_floor this
      _ = 65535 := by norm_num
  have hclamp : (Max.max 0 (Min.min 65535 ⌊r * 65535⌋)) = ⌊r * 65535⌋ := by
    rw [min_eq_right hv65535, max_eq_right hv0]
  unfold compressUnitInterval decompressUnitInterval
  rw [if_pos rfl, hclamp]
  have hcast : ((⌊r * 65535⌋.toNat : ℕ) : ℚ) = ((⌊r * 65535⌋ : ℤ) : ℚ) := by
    exact_mod_cast Int.toNat_of_nonneg hv0
  rw [hcast]
  have hfle : ((⌊r * 65535⌋ : ℤ) : ℚ) ≤ r * 65535 := Int.floor_le _
  have hdiv : ((⌊r * 65535⌋ : ℤ) : ℚ) * (1 / 65535) ≤ r := by
    rw [mul_one_div, div_le_iff₀ (by norm_num : (0 : ℚ) < 65535)]
    exact hfle
  have : s * (((⌊r * 65535⌋ : ℤ) : ℚ) * (1 / 65535)) ≤ s * r :=
    mul_le_mul_of_nonneg_left hdiv hs.le
  have hsr : s * r = x - m := by
    rw [hr]; field_simp
  linarith

lemma compress_ceil_ge (x m s : ℚ) (hs : 0 < s) (h1 : m ≤ x) (h2 : x ≤ m + s) :
    x ≤ s * decompressUnitInterval (compressUnitInterval ((x - m) / s) Int.ceil true) + m := by
  set r : ℚ := (x - m) / s with hr
  have hr0 : 0 ≤ r := div_nonneg (by linarith) hs.le
  have hr1 : r ≤ 1 := by
    rw [hr, div_le_one hs]; linarith
  have hv0 : (0 : ℤ) ≤ ⌈r * 65535⌉ := Int.ceil_nonneg (by positivity)
  have hv65535 : ⌈r * 65535⌉ ≤ 65535 := by
    have h : r * 65535 ≤ 65535 := by nlinarith
    exact Int.ceil_le.mpr (by exact_mod_cast h)
  have hclamp : (Max.max 0 (Min.min 65535 ⌈r * 65535⌉)) = ⌈r * 65535⌉ := by
    rw [min_eq_right hv65535, max_eq_right hv0]
  unfold compressUnitInterval decompressUnitInterval
  rw [if_pos rfl, hclamp]
  have hcast : ((⌈r * 65535⌉.toNat : ℕ) : ℚ) = ((⌈r * 65535⌉ : ℤ) : ℚ) := by
    exact_mod_cast Int.toNat_of_nonneg hv0
  rw [hcast]
  have hfle : r * 65535 ≤ ((⌈r * 65535⌉ : ℤ) : ℚ) := Int.le_ceil _
  have hdiv : r ≤ ((⌈r * 65535⌉ : ℤ) : ℚ) * (1 / 65535) := by
    rw [mul_one_div, le_div_iff₀ (by norm_num : (0 : ℚ) < 65535)]
    exact hfle
  have : s * r ≤ s * (((⌈r * 65535⌉ : ℤ) : ℚ) * (1 / 65535)) :=
    mul_le_mul_of_nonneg_left hdiv hs.le
  have hsr : s * r = x - m := by
    rw [hr]; field_simp
  linarith

/-- **C3.** For a masked-in lane and any scalar box `b` contained in the
enclosing sized box `E` with strictly positive size, decompressing
`compress_round_out(b, E)` yields a box that contains `b`: the `floor`-quantized
minimum can only move down and the `ceil`-quantized maximum can only move up,
so the round trip only inflates the box. -/
theorem compressRoundOut_decompress_contains (b : Aabb) (E : AabbSized)
    (hsize : Vec3.zero.lt E.size)
    (hminE : E.min.le b.min) (hbb : b.min.le b.max)
    (hmaxE : b.max.le (E.min.add E.size)) :
    ((RelativeBox.compressRoundOut b E true).decompress E).min.le b.min ∧
      b.max.le ((RelativeBox.compressRoundOut b E true).decompress E).max ∧
      ∀ p : Vec3, b.containsPoint p →
        ((RelativeBox.compressRoundOut b E true).decompress E).containsPoint p := by
  obtain ⟨hsx, hsy, hsz⟩ := hsize
  obtain ⟨he1, he2, he3⟩ := hminE
  obtain ⟨hb1, hb2, hb3⟩ := hbb
  obtain ⟨hm1, hm2, hm3⟩ := hmaxE
  simp only [Vec3.zero] at hsx hsy hsz
  simp only [Vec3.add] at hm1 hm2 hm3
  have hmin : ((RelativeBox.compressRoundOut b E true).decompress E).min.le b.min := by
    refine ⟨?_, ?_, ?_⟩
    · exact compress_floor_le b.min.x E.min.x E.size.x hsx he1 (by linarith)
    · exact compress_floor_le b.min.y E.min.y E.size.y hsy he2 (by linarith)
    · exact compress_floor_le b.min.z E.min.z E.size.z hsz he3 (by linarith)
  have hmax : b.max.le ((RelativeBox.compressRoundOut b E true).decompress E).max := by
    refine ⟨?_, ?_, ?_⟩
    · exact compress_ceil_ge b.max.x E.min.x E.size.x hsx (by linarith) hm1
    · exact compress_ceil_ge b.max.y E.min.y E.size.y hsy (by linarith) hm2
    · exact compress_ceil_ge b.max.z E.min.z E.size.z hsz (by linarith) hm3
  refine ⟨hmin, hmax, ?_⟩
  rintro p ⟨⟨hp1, hp2, hp3⟩, ⟨hq1, hq2, hq3⟩⟩
  obtain ⟨hn1, hn2, hn3⟩ := hmin
  obtain ⟨hx1, hx2, hx3⟩ := hmax
  exact ⟨⟨by linarith, by linarith, by linarith⟩, ⟨by linarith, by linarith, by linarith⟩⟩

/-- Witness for C3 at a concrete box inside a concrete enclosing box. -/
theorem compressRoundOut_decompress_contains_witness :
    (((RelativeBox.compressRoundOut ⟨⟨1/3, 1/2, 1⟩, ⟨1/2, 2/3, 2⟩⟩
        ⟨⟨0, 0, 0⟩, ⟨1, 1, 3⟩⟩ true).decompress ⟨⟨0, 0, 0⟩, ⟨1, 1, 3⟩⟩).min.le
        ⟨1/3, 1/2, 1⟩) ∧
      (Vec3.le ⟨1/2, 2/3, 2⟩
        ((RelativeBox.compressRoundOut ⟨⟨1/3, 1/2, 1⟩, ⟨1/2, 2/3, 2⟩⟩
          ⟨⟨0, 0, 0⟩, ⟨1, 1, 3⟩⟩ true).decompress ⟨⟨0, 0, 0⟩, ⟨1, 1, 3⟩⟩).max) := by
  have h := compressRoundOut_decompress_contains ⟨⟨1/3, 1/2, 1⟩, ⟨1/2, 2/3, 2⟩⟩
    ⟨⟨0, 0, 0⟩, ⟨1, 1, 3⟩⟩
    (by refine ⟨?_, ?_, ?_⟩ <;> norm_num [Vec3.zero])
    (by refine ⟨?_, ?_, ?_⟩ <;> norm_num)
    (by refine ⟨?_, ?_, ?_⟩ <;> norm_num)
    (by refine ⟨?_, ?_, ?_⟩ <;> norm_num [Vec3.add])
  exact ⟨h.1, h.2.1⟩

/-! ## `f32` values with IEEE special values: `FloatV`

`ℚ` plus signed infinities and NaN.  Finite arithmetic is exact; the special
values follow IEEE-754: any operation on NaN gives NaN, `∞ * 0` and `∞ - ∞`
give NaN, and every comparison involving NaN is false.  Zero is unsigned here;
the only place the source can produce a signed zero feeding a division is the
`det` of a degenerate triangle, where the sign of the resulting infinity is
irrelevant (every later product is `∞ * 0 = NaN` either way); `recipFin`
below picks `+∞`. -/
inductive FloatV where
  | nan : FloatV
  | inf (pos : Bool) : FloatV
  | fin (q : ℚ) : FloatV
  deriving DecidableEq, Repr

namespace FloatV

def add : FloatV → FloatV → FloatV
  | nan, _ => nan
  | _, nan => nan
  | inf p, inf q => if p = q then inf p else nan
  | inf p, fin _ => inf p
  | fin _, inf q => inf q
  | fin a, fin b => fin (a + b)

def mul : FloatV → FloatV → FloatV
  | nan, _ => nan
  | _, nan => nan
  | inf p, inf q => inf (p = q)
  | inf p, fin b => if b = 0 then nan else inf (p = (0 < b))
  | fin a, inf q => if a = 0 then nan else inf (q = (0 < a))
  | fin a, fin b => fin (a * b)

/-- `1.0 / det` for a finite `det` (`f32` division, possibly infinite). -/
def recipFin (q : ℚ) : FloatV :=
  if q = 0 then inf true else fin q⁻¹

/-- IEEE `<=` as a boolean: false whenever either side is NaN. -/
def leB : FloatV → FloatV → Bool
  | nan, _ => false
  | _, nan => false
  | inf p, inf q => !p || q
  | inf p, fin _ => !p
  | fin _, inf q => q
  | fin a, fin b => a ≤ b

/-- IEEE `<` as a boolean: false whenever either side is NaN. -/
def ltB : FloatV → FloatV → Bool
  | nan, _ => false
  | _, nan => false
  | inf p, inf q => !p && q
  | inf p, fin _ => !p
  | fin _, inf q => q
  | fin a, fin b => a < b

def isNan : FloatV → Bool
  | nan => true
  | _ => false

end FloatV

/-- `f32::MAX` (the initial `best.t` of `intersect_recursive`): `2^128 - 2^104`
exactly. -/
def f32Max : ℚ := 2 ^ 128 - 2 ^ 104

/-! ## Rays and Möller-Trumbore triangle intersection

`Ray` (`src/geometry/mod.rs`) stores origin, direction and the componentwise
inverse direction in which zero components are replaced by `+∞`.  The
direction of a constructed ray is normalized in the source; no claim below
needs unit length, so `direction` is an arbitrary finite vector here. -/
structure Ray where
  origin : Vec3
  direction : Vec3

/-- The precomputed `inv_direction`:
`direction.map(|x| if x == 0.0 { f32::INFINITY } else { 1.0 / x })`. -/
def Ray.invDirection (r : Ray) : FloatV × FloatV × FloatV :=
  (if r.direction.x = 0 then .inf true else .fin r.direction.x⁻¹,
   if r.direction.y = 0 then .inf true else .fin r.direction.y⁻¹,
   if r.direction.z = 0 then .inf true else .fin r.direction.z⁻¹)

/-- Result of `Triangle::<WorldPoint8>::intersect` for one lane: validity mask,
distance `t`, and barycentric `(u, v)`. -/
structure MtResult where
  mask : Bool
  t : FloatV
  u : FloatV
  v : FloatV

/-- `Triangle::<WorldPoint8>::intersect`
(`src/geometry/ray_triangle_intersection.rs`), one lane.  `fma_dot` is an
exact dot product here.  `inv_det = 1.0 / det` may be infinite; the mask is
`u >= 0 && v >= 0 && u + v <= 1` with IEEE comparison semantics (NaN
compares false). -/
def mtIntersect (tri : Tri Vec3) (ray : Ray) : MtResult :=
  let e1 := tri.p1.sub tri.p0
  let e2 := tri.p2.sub tri.p0
  let rayCrossE2 := ray.direction.cross e2
  let det := e1.dot rayCrossE2
  let invDet := FloatV.recipFin det
  let s := ray.origin.sub tri.p0
  let u := invDet.mul (.fin (s.dot rayCrossE2))
  let sCrossE1 := s.cross e1
  let v := invDet.mul (.fin (ray.direction.dot sCrossE1))
  let t := invDet.mul (.fin (e2.dot sCrossE1))
  let mask := FloatV.leB (.fin 0) u && FloatV.leB (.fin 0) v &&
    FloatV.leB (u.add v) (.fin 1)
  ⟨mask, t, u, v⟩

/-! ## Leaf construction (`TriangleBvh::build_leaf`, geometry part)

`simd_windows` packs the triangle list into groups of 8 lanes; lanes beyond
the end of the list keep `Triangle::default()` (all origin points) and a
false mask bit, and `RelativeTriangle8::compress` turns masked-out lanes into
the all-zero relative point. -/

/-- Number of triangle packs of a leaf: `triangles.len().div_ceil(8)`. -/
def leafPacketCount (n : ℕ) : ℕ := (n + 7) / 8

/-- Lane `lane` of pack `p` of the compressed leaf geometry. -/
def buildLeafPackLane (tris : List (Tri Vec3)) (enclosingBox : AabbSized)
    (p : ℕ) (lane : Fin 8) : RelativeTriangle :=
  let i := p * 8 + lane.val
  if h : i < tris.length
  then RelativeTriangle.compress (tris.get ⟨i, h⟩) enclosingBox true
  else RelativeTriangle.compress ⟨Vec3.zero, Vec3.zero, Vec3.zero⟩ enclosingBox false

lemma compress_masked_out_is_zero (p : Vec3) (E : AabbSized) :
    (RelativePoint.compress p E false).isZero = true := by
  simp [RelativePoint.compress, RelativePoint.compressInternal, compressUnitInterval,
    RelativePoint.isZero]

lemma decompress_zero_point (E : AabbSized) :
    RelativePoint.decompress ⟨0, 0, 0⟩ E = E.min := by
  simp [RelativePoint.decompress, decompressUnitInterval]

lemma mtIntersect_degenerate (p : Vec3) (ray : Ray) :
    (mtIntersect ⟨p, p, p⟩ ray).mask = false := by
  have hsub : p.sub p = Vec3.zero := by
    simp [Vec3.sub, Vec3.zero]
  have hcross : ray.direction.cross Vec3.zero = Vec3.zero := by
    simp [Vec3.cross, Vec3.zero]
  have hdot : ∀ v : Vec3, v.dot Vec3.zero = 0 := by
    intro v; simp [Vec3.dot, Vec3.zero]
  unfold mtIntersect
  simp only [hsub, hcross, hdot]
  simp [FloatV.recipFin, FloatV.mul, FloatV.leB]

/-- **C4.** For a leaf built from `n` triangles with `n` not a multiple of 8,
every padding lane of the last triangle pack (lane index `≥ n mod 8`)
compresses to the all-zero relative point in all three vertices (`is_zero`
holds for each vertex), and no ray produces a valid Möller-Trumbore
intersection with the padding lane's decompressed (degenerate) triangle. -/
theorem buildLeaf_padding_lanes (tris : List (Tri Vec3)) (enclosingBox : AabbSized)
    (lane : Fin 8) (ray : Ray) (hmod : tris.length % 8 ≠ 0)
    (hpad : tris.length ≤ (leafPacketCount tris.length - 1) * 8 + lane.val) :
    (buildLeafPackLane tris enclosingBox (leafPacketCount tris.length - 1) lane).p0.isZero ∧
    (buildLeafPackLane tris enclosingBox (leafPacketCount tris.length - 1) lane).p1.isZero ∧
    (buildLeafPackLane tris enclosingBox (leafPacketCount tris.length - 1) lane).p2.isZero ∧
    (mtIntersect
      ((buildLeafPackLane tris enclosingBox (leafPacketCount tris.length - 1) lane).decompress
        enclosingBox) ray).mask = false := by
  have hoob : ¬ ((leafPacketCount tris.length - 1) * 8 + lane.val < tris.length) := by
    omega
  have hlane : buildLeafPackLane tris enclosingBox (leafPacketCount tris.length - 1) lane =
      RelativeTriangle.compress ⟨Vec3.zero, Vec3.zero, Vec3.zero⟩ enclosingBox false := by
    unfold buildLeafPackLane
    rw [dif_neg hoob]
  rw [hlane]
  have hzero : RelativePoint.compress Vec3.zero enclosingBox false = ⟨0, 0, 0⟩ := by
    simp [RelativePoint.compress, RelativePoint.compressInternal, compressUnitInterval]
  have htri : RelativeTriangle.compress ⟨Vec3.zero, Vec3.zero, Vec3.zero⟩ enclosingBox false =
      (⟨⟨0, 0, 0⟩, ⟨0, 0, 0⟩, ⟨0, 0, 0⟩⟩ : Tri RelativePoint) := by
    simp [RelativeTriangle.compress, Tri.map, hzero]
  rw [htri]
  refine ⟨by simp [RelativePoint.isZero], by simp [RelativePoint.isZero],
    by simp [RelativePoint.isZero], ?_⟩
  have hdec : RelativeTriangle.decompress
      (⟨⟨0, 0, 0⟩, ⟨0, 0, 0⟩, ⟨0, 0, 0⟩⟩ : Tri RelativePoint) enclosingBox =
      ⟨enclosingBox.min, enclosingBox.min, enclosingBox.min⟩ := by
    simp [RelativeTriangle.decompress, Tri.map, decompress_zero_point]
  rw [hdec]
  exact mtIntersect_degenerate enclosingBox.min ray

/-- Witness for C4: one triangle (so `n = 1`, 7 padding lanes), lane 1 of the
single pack, and a concrete ray aimed at the enclosing box. -/
theorem buildLeaf_padding_lanes_witness :
    (buildLeafPackLane [⟨⟨0, 0, 0⟩, ⟨1, 0, 0⟩, ⟨0, 1, 0⟩⟩] ⟨⟨0, 0, 0⟩, ⟨1, 1, 1⟩⟩
      (leafPacketCount 1 - 1) 1).p0.isZero ∧
    (buildLeafPackLane [⟨⟨0, 0, 0⟩, ⟨1, 0, 0⟩, ⟨0, 1, 0⟩⟩] ⟨⟨0, 0, 0⟩, ⟨1, 1, 1⟩⟩
      (leafPacketCount 1 - 1) 1).p1.isZero ∧
    (buildLeafPackLane [⟨⟨0, 0, 0⟩, ⟨1, 0, 0⟩, ⟨0, 1, 0⟩⟩] ⟨⟨0, 0, 0⟩, ⟨1, 1, 1⟩⟩
      (leafPacketCount 1 - 1) 1).p2.isZero ∧
    (mtIntersect
      ((buildLeafPackLane [⟨⟨0, 0, 0⟩, ⟨1, 0, 0⟩, ⟨0, 1, 0⟩⟩] ⟨⟨0, 0, 0⟩, ⟨1, 1, 1⟩⟩
        (leafPacketCount 1 - 1) 1).decompress ⟨⟨0, 0, 0⟩, ⟨1, 1, 1⟩⟩)
      ⟨⟨0, 0, -1⟩, ⟨0, 0, 1⟩⟩).mask = false :=
  buildLeaf_padding_lanes [⟨⟨0, 0, 0⟩, ⟨1, 0, 0⟩, ⟨0, 1, 0⟩⟩] ⟨⟨0, 0, 0⟩, ⟨1, 1, 1⟩⟩
    1 ⟨⟨0, 0, -1⟩, ⟨0, 0, 1⟩⟩ (by decide) (by decide)

/-! ## SAH group merging (`split_triangles` in `building.rs`, C7)

`SplittingBin` carries a bounding box, a triangle count and a disjoint-set
parent.  `sah` follows the source: `leaf_cost` is `0.75 * packet_count` when
`packet_count <= MAX_COUNT = 7` and `f32::INFINITY` otherwise (modelled as
`none`); `tree_cost` is `depth + 0.75 * ceil(packet_count / 8^depth)` with
`depth = floor(log_8 packet_count)` (exact: `Nat.log 8`; groups always carry
`count >= 1`, so `packet_count >= 1`). -/

structure SplittingBin where
  boundingBox : Aabb
  count : ℕ
  parent : ℕ
  deriving DecidableEq, Repr

instance : Inhabited SplittingBin :=
  ⟨⟨⟨Vec3.zero, Vec3.zero⟩, 0, 0⟩⟩

/-- `packet_count = count.div_ceil(LEAF_NODE_PACKET_SIZE)`. -/
def sahPacketCount (count : ℕ) : ℕ := (count + 7) / 8

/-- `leaf_cost`: `none` models `f32::INFINITY`. -/
def sahLeafCost (packetCount : ℕ) : Option ℚ :=
  if packetCount ≤ 7 then some ((3 / 4 : ℚ) * packetCount) else none

/-- `tree_cost = C_INNER * depth + C_LEAF_PACKET * (pc / 8^depth).ceil()`. -/
def sahTreeCost (packetCount : ℕ) : ℚ :=
  let depth := Nat.log 8 packetCount
  (depth : ℚ) + (3 / 4 : ℚ) * (((packetCount + 8 ^ depth - 1) / 8 ^ depth : ℕ) : ℚ)

/-- `leaf_cost.min(tree_cost)` (the tree cost is always finite). -/
def sahMinCost (packetCount : ℕ) : ℚ :=
  match sahLeafCost packetCount with
  | none => sahTreeCost packetCount
  | some l => min l (sahTreeCost packetCount)

/-- `SplittingBin::sah`. -/
def SplittingBin.sah (b : SplittingBin) : ℚ :=
  b.boundingBox.surfaceArea * sahMinCost (sahPacketCount b.count)

/-- `SplittingBin::merge`. -/
def SplittingBin.merge (a b : SplittingBin) : SplittingBin :=
  ⟨a.boundingBox.union b.boundingBox, a.count + b.count, a.parent⟩

/-- The SAH improvement of merging `g1` and `g2`:
`g1.sah() + g2.sah() - merged.sah()`. -/
def sahImprovement (g1 g2 : SplittingBin) : ℚ :=
  g1.sah + g2.sah - (g1.merge g2).sah

/-- `find_best_bin_merge`: scan all pairs `i1 < i2` in order, keep the pair
with the strictly largest improvement.  The initial best improvement is
`f32::NEG_INFINITY`, modelled as `none` (any real improvement beats it). -/
def findBestBinMerge (groups : List SplittingBin) : ℕ × ℕ × Option ℚ :=
  let pairs := (List.range groups.length).flatMap fun i1 =>
    ((List.range groups.length).filter (fun i2 => i1 < i2)).map fun i2 => (i1, i2)
  pairs.foldl
    (fun st pr =>
      let imp := sahImprovement (groups.getD pr.1 default) (groups.getD pr.2 default)
      match st.2.2 with
      | none => (pr.1, pr.2, some imp)
      | some b => if b < imp then (pr.1, pr.2, some imp) else st)
    (0, 0, none)

/-- `Vec::swap_remove(i)`: replace element `i` with the last element and pop. -/
def swapRemove (l : List SplittingBin) (i : ℕ) : List SplittingBin :=
  (l.set i (l.getD (l.length - 1) default)).dropLast

/-- `sah_improvement < 0.0` on the fold result; `none` is `NEG_INFINITY`,
which is `< 0` (it only arises when there is no pair at all). -/
def impLtZero : Option ℚ → Bool
  | none => true
  | some q => q < 0

/-- One iteration of the merging loop of `split_triangles`:
`none` when the loop exits (either `groups.len() <= 2`, or the best merge is
disadvantageous and at most `INNER_NODE_CHILDREN = 8` groups remain);
otherwise the updated `(bins, groups)` after one merge. -/
def mergeStep (bins : List SplittingBin) (groups : List SplittingBin) :
    Option (List SplittingBin × List SplittingBin) :=
  if groups.length ≤ 2 then none
  else
    let best := findBestBinMerge groups
    if impLtZero best.2.2 ∧ groups.length ≤ 8 then none
    else
      let g1 := groups.getD best.1 default
      let g2 := groups.getD best.2.1 default
      let bins' := bins.set g2.parent { bins.getD g2.parent default with parent := g1.parent }
      let merged := g1.merge g2
      some (bins', swapRemove (groups.set best.1 merged) best.2.1)

/-- The whole merging loop (fuel-driven; every step shrinks `groups` by one,
so `groups.length` fuel always suffices). -/
def mergeLoop : ℕ → List SplittingBin → List SplittingBin →
    List SplittingBin × List SplittingBin
  | 0, bins, groups => (bins, groups)
  | fuel + 1, bins, groups =>
    match mergeStep bins groups with
    | none => (bins, groups)
    | some (bins', groups') => mergeLoop fuel bins' groups'

/-- **C7 (amended).** The merging loop performs an iteration exactly when more
than 2 groups remain and either more than 8 groups remain or the best pairwise
SAH improvement is *non-negative*: the source breaks only on
`sah_improvement < 0.0 && groups.len() <= 8`, so with at most 8 groups a merge
with improvement exactly `0` is still performed. -/
theorem mergeStep_guard (bins groups : List SplittingBin) :
    (mergeStep bins groups).isSome = true ↔
      (2 < groups.length ∧
        (8 < groups.length ∨ impLtZero (findBestBinMerge groups).2.2 = false)) := by
  by_cases h1 : groups.length ≤ 2
  · have hnone : mergeStep bins groups = none := by
      simp only [mergeStep]
      rw [if_pos h1]
    rw [hnone]
    simp only [Option.isSome_none, Bool.false_eq_true, false_iff]
    intro h
    exact absurd h.1 (by omega)
  · by_cases h2 : impLtZero (findBestBinMerge groups).2.2 = true ∧ groups.length ≤ 8
    · have hnone : mergeStep bins groups = none := by
        simp only [mergeStep]
        rw [if_neg h1, if_pos h2]
      rw [hnone]
      simp only [Option.isSome_none, Bool.false_eq_true, false_iff]
      rintro ⟨-, h3 | h3⟩
      · exact absurd h2.2 (by omega)
      · rw [h2.1] at h3
        cases h3
    · have hsome : (mergeStep bins groups).isSome = true := by
        simp only [mergeStep]
        rw [if_neg h1, if_neg h2]
        rfl
      rw [hsome]
      simp only [true_iff]
      refine ⟨by omega, ?_⟩
      by_cases h8 : 8 < groups.length
      · exact Or.inl h8
      · right
        rcases Bool.eq_false_or_eq_true (impLtZero (findBestBinMerge groups).2.2) with hb | hb
        · exact absurd ⟨hb, by omega⟩ h2
        · exact hb

lemma sah_zero_of_flat (b : SplittingBin) (h : b.boundingBox.surfaceArea = 0) :
    b.sah = 0 := by
  unfold SplittingBin.sah
  rw [h, zero_mul]

/-- Group with a degenerate (collinear, zero-surface-area) box on the x axis. -/
def bin0 : SplittingBin := ⟨⟨⟨0, 0, 0⟩, ⟨1, 0, 0⟩⟩, 1, 0⟩

def bin1 : SplittingBin := ⟨⟨⟨2, 0, 0⟩, ⟨3, 0, 0⟩⟩, 1, 1⟩

def bin2 : SplittingBin := ⟨⟨⟨4, 0, 0⟩, ⟨5, 0, 0⟩⟩, 1, 2⟩

/-- Three groups whose boxes are collinear segments: every SAH value is `0`,
so the best merge improvement is exactly `0`, not strictly positive. -/
def zeroImpGroups : List SplittingBin := [bin0, bin1, bin2]

lemma e01 : sahImprovement bin0 bin1 = 0 := by
  unfold sahImprovement
  rw [sah_zero_of_flat bin0 (by norm_num [bin0, Aabb.surfaceArea, Vec3.sub]),
    sah_zero_of_flat bin1 (by norm_num [bin1, Aabb.surfaceArea, Vec3.sub]),
    sah_zero_of_flat (bin0.merge bin1) (by norm_num [bin0, bin1, SplittingBin.merge,
      Aabb.union, Aabb.surfaceArea, Vec3.sub, Vec3.cmin, Vec3.cmax])]
  ring

lemma e02 : sahImprovement bin0 bin2 = 0 := by
  unfold sahImprovement
  rw [sah_zero_of_flat bin0 (by norm_num [bin0, Aabb.surfaceArea, Vec3.sub]),
    sah_zero_of_flat bin2 (by norm_num [bin2, Aabb.surfaceArea, Vec3.sub]),
    sah_zero_of_flat (bin0.merge bin2) (by norm_num [bin0, bin2, SplittingBin.merge,
      Aabb.union, Aabb.surfaceArea, Vec3.sub, Vec3.cmin, Vec3.cmax])]
  ring

lemma e12 : sahImprovement bin1 bin2 = 0 := by
  unfold sahImprovement
  rw [sah_zero_of_flat bin1 (by norm_num [bin1, Aabb.surfaceArea, Vec3.sub]),
    sah_zero_of_flat bin2 (by norm_num [bin2, Aabb.surfaceArea, Vec3.sub]),
    sah_zero_of_flat (bin1.merge bin2) (by norm_num [bin1, bin2, SplittingBin.merge,
      Aabb.union, Aabb.surfaceArea, Vec3.sub, Vec3.cmin, Vec3.cmax])]
  ring

lemma zeroImpGroups_best : (findBestBinMerge zeroImpGroups).2.2 = some 0 := by
  have hg0 : zeroImpGroups.getD 0 default = bin0 := rfl
  have hg1 : zeroImpGroups.getD 1 default = bin1 := rfl
  have hg2 : zeroImpGroups.getD 2 default = bin2 := rfl
  simp only [findBestBinMerge]
  have hlen : zeroImpGroups.length = 3 := rfl
  rw [hlen]
  simp only [List.range_succ, List.range_zero, List.nil_append, List.cons_append,
    List.filter_cons, List.filter_nil, List.flatMap_cons, List.flatMap_nil, List.map_cons,
    List.map_nil, List.append_nil, List.foldl_cons, List.foldl_nil]
  norm_num [hg0, hg1, hg2, e01, e02, e12]
  simp only [show zeroImpGroups[0]?.getD default = bin0 from rfl,
    show zeroImpGroups[1]?.getD default = bin1 from rfl,
    show zeroImpGroups[2]?.getD default = bin2 from rfl, e01, e02, e12]
  norm_num

/-- **C7 counterexample.** With 3 groups (`<= 8`) whose best merge improvement
is exactly `0` (not strictly positive), the loop still performs a merge, so
"with at most 8 groups no merge is performed whose SAH improvement is not
strictly positive" fails on the code: the source only stops when the
improvement is strictly *negative*. -/
theorem mergeStep_zero_improvement_merges :
    (findBestBinMerge zeroImpGroups).2.2 = some 0 ∧
      zeroImpGroups.length = 3 ∧
      (mergeStep zeroImpGroups zeroImpGroups).isSome = true := by
  refine ⟨zeroImpGroups_best, rfl, ?_⟩
  rw [mergeStep_guard]
  refine ⟨by norm_num [zeroImpGroups], Or.inr ?_⟩
  rw [zeroImpGroups_best]
  norm_num [impLtZero]

/-! ## Tile dispatch counter (`src/renderer/machinery.rs`, C9)

The render loop's only shared mutable scheduling state is the atomic
`next_tile_index`.  `get_next_tile` performs `fetch_add(1)` and returns the
old value together with `tile_ordering.get(id)`; a worker exits right after
its first fetch that returns an out-of-range id (`>= total`).  Because the
fetches are atomic, any concurrent execution is an interleaving of single
fetch steps, modelled by the transition relation below; `abort` (which stores
`total` into the counter) is excluded, as in the claim. -/

/-- `RenderState::get_next_tile`: the returned tile id and the new counter
value.  The returned tile is in range iff `id < total`. -/
def getNextTileId (nextTileIndex : ℕ) : ℕ × ℕ :=
  (nextTileIndex, nextTileIndex + 1)

/-- `RenderProgress::progress().finished`:
`next_tile_index.load().saturating_sub(worker_count)`. -/
def progressFinished (nextTileIndex workerCount : ℕ) : ℕ :=
  nextTileIndex - workerCount

/-- Scheduler state: the `next_tile_index` counter and, per worker, whether
that worker has exited its loop. -/
structure SchedState (k : ℕ) where
  counter : ℕ
  exited : Fin k → Bool

/-- One atomic `fetch_add` by a not-yet-exited worker `w`: the counter
increments, and `w` exits iff the returned id is out of range
(`tile_ordering.get(id) = None`, i.e. `total <= id`). -/
inductive SchedStep (total k : ℕ) : SchedState k → SchedState k → Prop
  | fetch (s : SchedState k) (w : Fin k) (hw : s.exited w = false) :
      SchedStep total k s
        ⟨(getNextTileId s.counter).2,
         Function.update s.exited w (decide (total ≤ (getNextTileId s.counter).1))⟩

/-- All states reachable from the initial state (counter `0`, no worker
exited) by interleaved worker fetches. -/
def SchedReachable (total k : ℕ) : SchedState k → Prop :=
  Relation.ReflTransGen (SchedStep total k) ⟨0, fun _ => false⟩

/-- Counter invariant: the number of exited workers is `counter - total`
(truncated): ids `0 .. total-1` are in-range fetches, and every id `>= total`
handed out exits exactly one worker. -/
lemma schedReachable_card (total k : ℕ) (s : SchedState k)
    (h : SchedReachable total k s) :
    (Finset.univ.filter (fun w : Fin k => s.exited w = true)).card = s.counter - total := by
  induction h with
  | refl => simp
  | @tail b c hreach hstep ih =>
    cases hstep with
    | fetch w hw =>
      by_cases hc : total ≤ b.counter
      · have hb : (decide (total ≤ (getNextTileId b.counter).1)) = true := by
          simp [getNextTileId, hc]
        have hfilter :
            (Finset.univ.filter (fun v : Fin k =>
              Function.update b.exited w (decide (total ≤ (getNextTileId b.counter).1)) v
                = true)) =
            insert w (Finset.univ.filter (fun v : Fin k => b.exited v = true)) := by
          rw [hb]
          ext v
          by_cases hv : v = w
          · subst hv
            simp [Function.update_same]
          · simp [Function.update_noteq hv, hv]
        have hwnotin : w ∉ (Finset.univ.filter (fun v : Fin k => b.exited v = true)) := by
          simp [hw]
        show (Finset.univ.filter _).card = (getNextTileId b.counter).2 - total
        rw [hfilter, Finset.card_insert_of_not_mem hwnotin, ih]
        simp only [getNextTileId]
        omega
      · have hb : (decide (total ≤ (getNextTileId b.counter).1)) = false := by
          simp [getNextTileId]
          omega
        have hfilter :
            (Finset.univ.filter (fun v : Fin k =>
              Function.update b.exited w (decide (total ≤ (getNextTileId b.counter).1)) v
                = true)) =
            (Finset.univ.filter (fun v : Fin k => b.exited v = true)) := by
          rw [hb]
          ext v
          by_cases hv : v = w
          · subst hv
            simp [Function.update_same, hw]
          · simp [Function.update_noteq hv]
        show (Finset.univ.filter _).card = (getNextTileId b.counter).2 - total
        rw [hfilter, ih]
        simp only [getNextTileId]
        omega

/-- **C9.** For every render with at least one worker that runs to completion
without `abort`: once every worker has exited, the counter equals
`total + worker_count` (each worker performed exactly one failed fetch), so
`progress().finished = next_tile_index.saturating_sub(worker_count) = total`. -/
theorem progress_after_all_workers_exit (total k : ℕ) (hk : 1 ≤ k)
    (s : SchedState k) (hreach : SchedReachable total k s)
    (hdone : ∀ w : Fin k, s.exited w = true) :
    s.counter = total + k ∧ progressFinished s.counter k = total := by
  have hcard := schedReachable_card total k s hreach
  have hall : (Finset.univ.filter (fun w : Fin k => s.exited w = true)) = Finset.univ := by
    ext w
    simp [hdone w]
  rw [hall] at hcard
  simp only [Finset.card_univ, Fintype.card_fin] at hcard
  have hcounter : s.counter = total + k := by omega
  exact ⟨hcounter, by simp [progressFinished, hcounter]⟩

/-- Witness for C9: one worker, zero tiles; the single possible fetch makes
the worker exit, and the final progress is `0 = total`. -/
theorem progress_after_all_workers_exit_witness :
    (⟨1, fun _ => true⟩ : SchedState 1).counter = 0 + 1 ∧
      progressFinished (⟨1, fun _ => true⟩ : SchedState 1).counter 1 = 0 := by
  have hstep : SchedStep 0 1 ⟨0, fun _ => false⟩ ⟨1, fun _ => true⟩ := by
    have h := @SchedStep.fetch 0 1 ⟨0, fun _ => false⟩ 0 rfl
    have heq : (⟨(getNextTileId 0).2,
        Function.update (fun _ : Fin 1 => false) 0 (decide (0 ≤ (getNextTileId 0).1))⟩ :
          SchedState 1) = ⟨1, fun _ => true⟩ := by
      simp only [getNextTileId]
      congr 1
      funext v
      have hv : v = 0 := Subsingleton.elim v 0
      subst hv
      simp
    rw [heq] at h
    exact h
  exact progress_after_all_workers_exit 0 1 le_rfl ⟨1, fun _ => true⟩
    (Relation.ReflTransGen.single hstep) (fun w => rfl)

/-! ## Ray/box slab intersection (`src/geometry/ray_box_intersection.rs`) -/

/-- Modelled from the spec: `fast_min` (`crate::util::simba`) is referenced by
`ray_box_intersection.rs` but its definition is not part of this source
snapshot; per the spec it is the NaN-ignoring lanewise minimum ("Per-axis
`(min,max)` using NaN-ignoring `fast_min/max`"). -/
def FloatV.fastMin (a b : FloatV) : FloatV :=
  match a, b with
  | .nan, b => b
  | a, .nan => a
  | a, b => if FloatV.leB a b then a else b

/-- Modelled from the spec: `fast_max`, the NaN-ignoring lanewise maximum
(see `fastMin`). -/
def FloatV.fastMax (a b : FloatV) : FloatV :=
  match a, b with
  | .nan, b => b
  | a, .nan => a
  | a, b => if FloatV.leB b a then a else b

/-- `(q : f32) * (f : f32)` where the right factor may be infinite. -/
def mulQF (q : ℚ) (f : FloatV) : FloatV := FloatV.mul (.fin q) f

/-- NaN-blend used on `to_box_min`/`to_box_max`:
`select(neg_or_pos_infinity, x.is_nan(), x)`. -/
def nanBlend (x : FloatV) (replacement : FloatV) : FloatV :=
  if x.isNan then replacement else x

/-- `WorldBox8::intersect` (one lane): slab test returning `(min_t, max_t)`;
the ray intersects iff `min_t <= max_t`.  NaNs arising from
`0 * inf` (ray origin on a slab plane it is parallel to) are replaced by
`-inf` for the near plane and `+inf` for the far plane. -/
def slabIntersect (box : Aabb) (ray : Ray) : FloatV × FloatV :=
  let inv := ray.invDirection
  let toMinX := nanBlend (mulQF (box.min.x - ray.origin.x) inv.1) (.inf false)
  let toMinY := nanBlend (mulQF (box.min.y - ray.origin.y) inv.2.1) (.inf false)
  let toMinZ := nanBlend (mulQF (box.min.z - ray.origin.z) inv.2.2) (.inf false)
  let toMaxX := nanBlend (mulQF (box.max.x - ray.origin.x) inv.1) (.inf true)
  let toMaxY := nanBlend (mulQF (box.max.y - ray.origin.y) inv.2.1) (.inf true)
  let toMaxZ := nanBlend (mulQF (box.max.z - ray.origin.z) inv.2.2) (.inf true)
  let cMinX := FloatV.fastMin toMinX toMaxX
  let cMinY := FloatV.fastMin toMinY toMaxY
  let cMinZ := FloatV.fastMin toMinZ toMaxZ
  let cMaxX := FloatV.fastMax toMinX toMaxX
  let cMaxY := FloatV.fastMax toMinY toMaxY
  let cMaxZ := FloatV.fastMax toMinZ toMaxZ
  (FloatV.fastMax cMinX (FloatV.fastMax cMinY cMinZ),
   FloatV.fastMin cMaxX (FloatV.fastMin cMaxY cMaxZ))

/-! ## BVH data model and traversal
(`src/scene/triangle_bvh/mod.rs`, `ray_bvh_intersection.rs`)

Arenas are lists; an inner node stores 8 per-lane compressed child boxes and
8 child links (stored encoded as `CompressedNodeLink8` in the source; the
decoded view is used here, justified by the `extract`/`replace` round trip of
C5). -/

/-- `InnerNode`: per-lane child bounds plus 8 child links. -/
structure InnerNodeE where
  childBounds : Fin 8 → RelativeBox
  childLinks : Fin 8 → NodeLink

instance : Inhabited InnerNodeE :=
  ⟨⟨fun _ => ⟨⟨0, 0, 0⟩, ⟨0, 0, 0⟩⟩, fun _ => NodeLink.null⟩⟩

/-- `TriangleShadingData`. -/
structure ShadingData where
  vertexIndices : Tri ℕ
  flatShading : Bool
  material : ℕ

instance : Inhabited ShadingData :=
  ⟨⟨⟨0, 0, 0⟩, false, 0⟩⟩

/-- `VertexShadingData`. -/
structure VertexShading where
  normal : Vec3
  textureCoords : ℚ × ℚ

/-- `TriangleBvh`. -/
structure TriangleBvh where
  boundingBox : Aabb
  root : NodeLink
  innerNodes : List InnerNodeE
  triangleGeometry : List (Fin 8 → RelativeTriangle)
  triangleShadingData : List ShadingData
  vertexData : List VertexShading

/-- `TriangleIdx::default()`: the `usize::MAX` sentinel marking "no hit". -/
def triangleIdxSentinel : ℕ := 2 ^ 64 - 1

/-- `LeafHitRecord`. -/
structure LeafHit where
  t : FloatV
  u : FloatV
  v : FloatV
  geometricNormal : Vec3
  triangleIndex : ℕ

/-- `LeafHitRecord::default()` with a given starting `t`. -/
def LeafHit.start (t : FloatV) : LeafHit :=
  ⟨t, .fin 0, .fin 0, Vec3.zero, triangleIdxSentinel⟩

/-- The all-zero triangle pack (out-of-range `triangle_geometry` access is a
build-time bug; arbitrary default for the total model). -/
def defaultPack : Fin 8 → RelativeTriangle :=
  fun _ => ⟨⟨0, 0, 0⟩, ⟨0, 0, 0⟩, ⟨0, 0, 0⟩⟩

/-- One lane step of the `bit_iter` loop in `intersect_leaf`: test lane `i` of
pack `j` and update the best hit. -/
def leafLaneStep (bvh : TriangleBvh) (enclosingBox : AabbSized) (ray : Ray)
    (maxT : FloatV) (j : ℕ) (best : LeafHit) (i : Fin 8) : LeafHit :=
  let tri := (bvh.triangleGeometry.getD j defaultPack i).decompress enclosingBox
  let res := mtIntersect tri ray
  let valid := res.mask && FloatV.leB (.fin 0) res.t && FloatV.leB res.t maxT
  if valid && FloatV.ltB res.t best.t then
    ⟨res.t, res.u, res.v,
      (tri.p1.sub tri.p0).cross (tri.p2.sub tri.p0), j * 8 + i.val⟩
  else best

/-- `TriangleBvh::intersect_leaf`: scan the packs `first..last`, all 8 lanes
each (ascending lane order, as `bit_iter` yields ascending bit positions),
keeping the closest valid hit with `0 <= t <= max_t`. -/
def intersectLeaf (bvh : TriangleBvh) (first last : ℕ) (enclosingBox : AabbSized)
    (ray : Ray) (maxT : FloatV) : LeafHit :=
  (List.range' first (last - first)).foldl
    (fun best j => (List.finRange 8).foldl (leafLaneStep bvh enclosingBox ray maxT j) best)
    (LeafHit.start (.inf true))

/-- Per-lane result of `InnerNode::intersect_inner`: clamped entry distance,
the decompressed (sized) child box, and the hit mask `t1 <= t2`. -/
def innerLane (node : InnerNodeE) (ray : Ray) (enclosingBox : AabbSized)
    (maxT : FloatV) (i : Fin 8) : FloatV × AabbSized × Bool :=
  let box := (node.childBounds i).decompress enclosingBox
  let st := slabIntersect box ray
  let t1 := FloatV.fastMax st.1 (.fin 0)
  let t2 := FloatV.fastMin st.2 maxT
  (t1, box.toSized, FloatV.leB t1 t2)

/-- A pending stack entry: inner-node index, its sized enclosing box, and the
entry distance `t1` used for pruning. -/
abbrev StackEntry : Type := ℕ × AabbSized × FloatV

/-- The loop body of `intersect_recursive`, fuel-driven.  The head of the
list is the top of the stack (the end of the `Vec`).  Newly pushed inner
children are sorted by descending `t1` in the `Vec` — equivalently the block
closest to the top holds the smallest `t1` — so they are prepended here in
ascending `t1` order. -/
def intersectRecLoop (bvh : TriangleBvh) (ray : Ray) :
    ℕ → LeafHit → List StackEntry → Option (LeafHit × List StackEntry)
  | 0, _, _ => none
  | _ + 1, best, [] => some (best, [])
  | fuel + 1, best, (nodeIndex, encBox, nodeT1) :: rest =>
    if FloatV.ltB best.t nodeT1 then
      intersectRecLoop bvh ray fuel best rest
    else
      let node := bvh.innerNodes.getD nodeIndex default
      let lanes := fun i => innerLane node ray encBox best.t i
      let best' := (List.finRange 8).foldl
        (fun b i =>
          match node.childLinks i with
          | .leaf first last =>
            if (lanes i).2.2 then
              let hit := intersectLeaf bvh first last (lanes i).2.1 ray b.t
              if FloatV.ltB hit.t b.t then hit else b
            else b
          | _ => b)
        best
      let newEntries := (List.finRange 8).filterMap
        (fun i =>
          match node.childLinks i with
          | .inner index =>
            if (lanes i).2.2 then some ((index, (lanes i).2.1, (lanes i).1) : StackEntry)
            else none
          | _ => none)
      let sorted := newEntries.mergeSort (fun a b => FloatV.leB a.2.2 b.2.2)
      intersectRecLoop bvh ray fuel best' (sorted ++ rest)

/-- `TriangleBvh::intersect_recursive`: seed the stack with
`(root, box, -inf)` and run the loop; `best.t` starts at `f32::MAX`. -/
def intersectRecursive (bvh : TriangleBvh) (rootIndex : ℕ) (enclosingBox : AabbSized)
    (ray : Ray) (stack : List StackEntry) (fuel : ℕ) :
    Option (LeafHit × List StackEntry) :=
  intersectRecLoop bvh ray fuel (LeafHit.start (.fin f32Max))
    ((rootIndex, enclosingBox, FloatV.inf false) :: stack)

/-- `HitRecord`, with the normal kept unnormalized (the source's
`Unit::new_normalize` takes a square root, which has no exact `ℚ` meaning;
no claim below concerns the normal's length). -/
structure HitRecord where
  t : FloatV
  point : Vec3
  normalUnnormalized : Vec3
  material : ℕ
  textureCoords : ℚ × ℚ

/-- `Ray::point_at` (finite distance). -/
def Ray.pointAt (r : Ray) (t : ℚ) : Vec3 :=
  r.origin.add (Vec3.smul t r.direction)

/-- The finite value of a `FloatV` (`0` for specials; only used where the
value is known finite). -/
def FloatV.finPart : FloatV → ℚ
  | .fin q => q
  | _ => 0

/-- Interpolation `(1 - u - v) a + u b + v c` (`BarycentricCoordinates`). -/
def interpolateTri (u v : ℚ) (a b c : Vec3) : Vec3 :=
  (Vec3.smul (1 - u - v) a).add ((Vec3.smul u b).add (Vec3.smul v c))

/-- `<TriangleBvh as Object>::intersect`.  The `debug_assert!` that the
caller's stack cache is empty is modelled as a guard (`none` = assertion
failure).  The final hit record is assembled from the shading arenas. -/
def intersectBvh (bvh : TriangleBvh) (ray : Ray) (stack : List StackEntry)
    (fuel : ℕ) : Option (Option HitRecord × List StackEntry) :=
  if !stack.isEmpty then none
  else
    let sizedBox := bvh.boundingBox.toSized
    let run : Option (LeafHit × List StackEntry) :=
      match bvh.root with
      | .null => some (LeafHit.start (.fin f32Max), stack)
      | .inner index => intersectRecursive bvh index sizedBox ray stack fuel
      | .leaf first last =>
        some (intersectLeaf bvh first last sizedBox ray (.fin f32Max), stack)
    match run with
    | none => none
    | some (best, stackOut) =>
      if best.triangleIndex = triangleIdxSentinel then some (none, stackOut)
      else
        let shading := bvh.triangleShadingData.getD best.triangleIndex default
        let verts := shading.vertexIndices.map
          (fun i => bvh.vertexData.getD i ⟨Vec3.zero, (0, 0)⟩)
        let u := best.u.finPart
        let v := best.v.finPart
        let normal :=
          if shading.flatShading then best.geometricNormal
          else interpolateTri u v verts.p0.normal verts.p1.normal verts.p2.normal
        let tex := interpolateTri u v
          ⟨verts.p0.textureCoords.1, verts.p0.textureCoords.2, 0⟩
          ⟨verts.p1.textureCoords.1, verts.p1.textureCoords.2, 0⟩
          ⟨verts.p2.textureCoords.1, verts.p2.textureCoords.2, 0⟩
        some (some ⟨best.t, ray.pointAt best.t.finPart, normal, shading.material,
          (tex.x, tex.y)⟩, stackOut)

lemma intersectRecLoop_stack_empty (bvh : TriangleBvh) (ray : Ray) :
    ∀ (fuel : ℕ) (best : LeafHit) (stack : List StackEntry)
      (res : LeafHit × List StackEntry),
      intersectRecLoop bvh ray fuel best stack = some res → res.2 = [] := by
  intro fuel
  induction fuel with
  | zero =>
    intro best stack res h
    simp [intersectRecLoop] at h
  | succ n ih =>
    intro best stack res h
    cases stack with
    | nil =>
      simp only [intersectRecLoop, Option.some.injEq] at h
      rw [← h]
    | cons e rest =>
      obtain ⟨ni, eb, t1⟩ := e
      simp only [intersectRecLoop] at h
      split at h
      · exact ih best rest res h
      · exact ih _ _ res h

/-- **C10.** `intersect` requires the caller-supplied stack cache to be empty
on entry (the `debug_assert!` guard), and whenever it returns it leaves the
stack empty again, so the same cache can be reused for the next ray without
clearing: the traversal loop only returns after popping the stack down to
`[]`, and the null/leaf root paths never push. -/
theorem intersectBvh_stack_contract (bvh : TriangleBvh) (ray : Ray) (fuel : ℕ) :
    (∀ stack : List StackEntry, stack ≠ [] → intersectBvh bvh ray stack fuel = none) ∧
    (∀ res : Option HitRecord × List StackEntry,
      intersectBvh bvh ray [] fuel = some res → res.2 = []) := by
  constructor
  · intro stack hne
    unfold intersectBvh
    rw [if_pos]
    cases stack with
    | nil => exact absurd rfl hne
    | cons a l => simp
  · intro res h
    unfold intersectBvh at h
    rw [if_neg (by simp)] at h
    cases hroot : bvh.root with
    | null =>
      rw [hroot] at h
      simp only [Option.some.injEq] at h
      split at h <;> simp only [Option.some.injEq] at h <;> rw [← h]
    | leaf first last =>
      rw [hroot] at h
      simp only [Option.some.injEq] at h
      split at h <;> simp only [Option.some.injEq] at h <;> rw [← h]
    | inner index =>
      rw [hroot] at h
      dsimp only at h
      cases hrun : intersectRecursive bvh index bvh.boundingBox.toSized ray [] fuel with
      | none => rw [hrun] at h; cases h
      | some out =>
        have hempty : out.2 = [] :=
          intersectRecLoop_stack_empty bvh ray fuel _ _ out hrun
        rw [hrun] at h
        obtain ⟨bestOut, stackOut⟩ := out
        simp only at h
        split at h <;> simp only [Option.some.injEq] at h <;>
          (rw [← h]; exact hempty)

/-- A trivial BVH with a null root, used by witnesses. -/
def nullRootBvh : TriangleBvh :=
  ⟨⟨⟨0, 0, 0⟩, ⟨1, 1, 1⟩⟩, NodeLink.null, [], [], [], []⟩

/-- Witness for C10: on a concrete BVH and ray, a non-empty entry stack is
rejected, and the empty-stack call returns with an empty stack. -/
theorem intersectBvh_stack_contract_witness :
    intersectBvh nullRootBvh ⟨⟨0, 0, -1⟩, ⟨0, 0, 1⟩⟩
        [(0, ⟨⟨0, 0, 0⟩, ⟨1, 1, 1⟩⟩, FloatV.fin 0)] 5 = none ∧
      (intersectBvh nullRootBvh ⟨⟨0, 0, -1⟩, ⟨0, 0, 1⟩⟩ [] 5).map Prod.snd = some [] := by
  have h := intersectBvh_stack_contract nullRootBvh ⟨⟨0, 0, -1⟩, ⟨0, 0, 1⟩⟩ 5
  refine ⟨h.1 _ (by simp), ?_⟩
  have hval : intersectBvh nullRootBvh ⟨⟨0, 0, -1⟩, ⟨0, 0, 1⟩⟩ [] 5 =
      some (none, []) := by rfl
  have := h.2 (none, []) hval
  rw [hval]
  rfl

/-- `intersect` on any BVH whose root link is `Null` returns `None` for every
ray: the initial best hit keeps the `TriangleIdx` sentinel. -/
theorem intersectBvh_nullRoot_none (bvh : TriangleBvh) (ray : Ray) (fuel : ℕ)
    (hroot : bvh.root = NodeLink.null) :
    intersectBvh bvh ray [] fuel = some (none, []) := by
  unfold intersectBvh
  rw [if_neg (by simp), hroot]
  simp [LeafHit.start]

/-! ## BVH construction (`src/scene/triangle_bvh/building.rs`)

`BinGrid` computes its bin size as `(volume / bin_count).cbrt()`, an
irrational real; the grid is therefore abstracted as an arbitrary
`binIndex` assignment (every theorem below holds for every grid, hence in
particular for the source's cube-root grid).  The union-find path compression
performed inside the sort key closure is not modelled: it never changes any
root, only shortens chains, so the sort and chunk keys are unaffected. -/

/-- `VertexData` (`building.rs`). -/
structure VertexData where
  pos : Vec3
  tex : ℚ × ℚ
  normal : Vec3

instance : Inhabited VertexData :=
  ⟨⟨Vec3.zero, (0, 0), Vec3.zero⟩⟩

/-- `triangle.map(|i| vertices[*i].pos)`. -/
def triPositions (vertices : List VertexData) (t : Tri ℕ) : Tri Vec3 :=
  t.map (fun i => (vertices.getD i default).pos)

/-- `vertices_iter`: all vertex positions of the indexed triangles. -/
def verticesIter (triangles : List (Tri ℕ)) (vertices : List VertexData) : List Vec3 :=
  triangles.flatMap (fun t => t.toList.map (fun i => (vertices.getD i default).pos))

/-- `Triangle::centroid`: the coordinate sum divided by 3. -/
def Tri.centroid (t : Tri Vec3) : Vec3 :=
  Vec3.smul (1 / 3) ((t.p0.add t.p1).add t.p2)

/-- Abstraction of `BinGrid` (see the section comment). -/
structure BinGridM where
  binCount : ℕ
  binIndex : Vec3 → ℕ

/-- A bin during accumulation.  `AABB::default()` (the `(+inf, -inf)` empty
box) is modelled as `none`; extending it with the first points yields the
tight box of those points, exactly as with the infinite sentinel corners. -/
structure BinAcc where
  boundingBox : Option Aabb
  count : ℕ
  parent : ℕ

instance : Inhabited BinAcc :=
  ⟨⟨none, 0, 0⟩⟩

/-- `bin.bounding_box.extend_points(triangle.iter())` on a possibly still
default box. -/
def extendOptionBox : Option Aabb → List Vec3 → Option Aabb
  | none, ps => Aabb.fromPoints ps
  | some b, ps => some (b.extendPoints ps)

/-- Bin one triangle: extend the box of bin `bin_index(centroid)` with the
triangle's vertices and bump its count. -/
def binOneTriangle (grid : BinGridM) (vertices : List VertexData)
    (bins : List BinAcc) (t : Tri ℕ) : List BinAcc :=
  let tpos := triPositions vertices t
  let i := grid.binIndex tpos.centroid
  let bin := bins.getD i default
  bins.set i ⟨extendOptionBox bin.boundingBox tpos.toList, bin.count + 1, bin.parent⟩

/-- The accumulated bins: one bin per grid cell (`parent` initialized to the
bin's own index), filled from all triangle centroids. -/
def accumulateBins (grid : BinGridM) (vertices : List VertexData)
    (tris : List (Tri ℕ)) : List BinAcc :=
  tris.foldl (binOneTriangle grid vertices)
    ((List.range grid.binCount).map (fun i => ⟨none, 0, i⟩))

/-- View a `BinAcc` as the `SplittingBin` used by the merge loop (a still
default box is arbitrary — it only occurs for `count = 0` bins, which never
become groups and whose boxes are never read). -/
def BinAcc.toSplittingBin (b : BinAcc) : SplittingBin :=
  ⟨b.boundingBox.getD ⟨Vec3.zero, Vec3.zero⟩, b.count, b.parent⟩

/-- Root lookup in the disjoint-set `bins` array (fuel-driven; the parents
built by the merge loop are acyclic, and path compression — which never
changes roots — is omitted). -/
def ufRoot (bins : List SplittingBin) : ℕ → ℕ → ℕ
  | 0, i => i
  | fuel + 1, i =>
    let p := (bins.getD i default).parent
    if p = i then i else ufRoot bins fuel p

/-- Group adjacent elements with equal keys (`Itertools::chunk_by`). -/
def chunkBy (key : α → ℕ) : List α → List (List α)
  | [] => []
  | [a] => [[a]]
  | a :: b :: rest =>
    match chunkBy key (b :: rest) with
    | [] => [[a]]
    | g :: gs => if key a = key b then (a :: g) :: gs else [a] :: g :: gs

/-- Tight bounding box of a chunk of triangles:
`from_points(first.iter())` folded with `extend_points` over the rest. -/
def chunkBox (vertices : List VertexData) : List (Tri ℕ) → Aabb
  | [] => ⟨Vec3.zero, Vec3.zero⟩
  | t :: rest =>
    rest.foldl (fun b t' => b.extendPoints (triPositions vertices t').toList)
      ((Aabb.fromPoints (triPositions vertices t).toList).getD ⟨Vec3.zero, Vec3.zero⟩)

/-- The `scan` turning chunk lengths into `(offset, offset + count, box)`
ranges. -/
def scanRanges : ℕ → List (ℕ × Aabb) → List (ℕ × ℕ × Aabb)
  | _, [] => []
  | off, (cnt, box) :: rest => (off, off + cnt, box) :: scanRanges (off + cnt) rest

/-- `split_triangles`: bin by centroid, merge groups greedily by SAH, sort the
triangles by their group root (`sort_unstable_by_key`; `mergeSort` realizes
one admissible order of that unstable sort), chunk by root, and return the
reordered triangles together with `(range, tight box)` per chunk. -/
def splitTriangles (grid : BinGridM) (tris : List (Tri ℕ))
    (vertices : List VertexData) : List (Tri ℕ) × List (ℕ × ℕ × Aabb) :=
  let bins0 := accumulateBins grid vertices tris
  let binsS := bins0.map BinAcc.toSplittingBin
  let groups0 := binsS.filter (fun b => 0 < b.count)
  let merged := mergeLoop groups0.length binsS groups0
  let binsF := merged.1
  let key := fun t : Tri ℕ =>
    ufRoot binsF binsF.length (grid.binIndex (triPositions vertices t).centroid)
  let sorted := tris.mergeSort (fun a b => key a ≤ key b)
  let chunks := chunkBy key sorted
  (sorted, scanRanges 0 (chunks.map (fun c => (c.length, chunkBox vertices c))))

/-- `triangles[range]`. -/
def rangeSlice (l : List (Tri ℕ)) (lo hi : ℕ) : List (Tri ℕ) :=
  (l.drop lo).take (hi - lo)

/-- `vertices[*i].normal.norm_squared() == 0.0` for some vertex of the
triangle. -/
def flatShadingOf (vertices : List VertexData) (t : Tri ℕ) : Bool :=
  t.toList.any (fun i =>
    ((vertices.getD i default).normal.dot (vertices.getD i default).normal) = 0)

/-- `TriangleBvh::build_leaf`.  `none` models a panic: the
`assert!(!triangles.is_empty())`, the `NodeLink::new_leaf` count assertion
(`1 <= packet_count <= 7`), and — hoisted from
`RelativePoint8::compress_internal` — the debug assertion that the enclosing
box has strictly positive size. -/
def buildLeaf (st : TriangleBvh) (tris : List (Tri ℕ)) (vertices : List VertexData)
    (enclosingBox : Aabb) : Option (TriangleBvh × NodeLink) :=
  let E := enclosingBox.toSized
  if tris.isEmpty then none
  else if ¬ Vec3.zero.lt E.size then none
  else
    let packetCount := leafPacketCount tris.length
    if packetCount < 1 ∨ 7 < packetCount then none
    else
      let first := st.triangleGeometry.length
      let padding := packetCount * 8 - tris.length
      let link := NodeLink.leaf first (first + packetCount)
      let trisPos := tris.map (triPositions vertices)
      let packs := (List.range packetCount).map (fun p => buildLeafPackLane trisPos E p)
      let shading := tris.map (fun t =>
        (⟨t, flatShadingOf vertices t, 0⟩ : ShadingData))
      let shadingPad := (List.range padding).map (fun _ => (default : ShadingData))
      some ({ st with
        triangleGeometry := st.triangleGeometry ++ packs,
        triangleShadingData := st.triangleShadingData ++ shading ++ shadingPad }, link)

/-- Lane `i` of the conservatively compressed child-box pack of an inner
node: masked-in for lanes holding a split range, masked-out otherwise (the
source compresses the `WorldBox8::default()` lanes with a false mask). -/
def innerCompressedLane (ranges : List (ℕ × ℕ × Aabb)) (E : AabbSized) (i : Fin 8) :
    RelativeBox :=
  match ranges.get? i.val with
  | some r => RelativeBox.compressRoundOut r.2.2 E true
  | none => RelativeBox.compressRoundOut ⟨Vec3.zero, Vec3.zero⟩ E false

/-- The decompressed (traversal-time) child box of lane `i`. -/
def innerDecompressedLane (ranges : List (ℕ × ℕ × Aabb)) (E : AabbSized) (i : Fin 8) :
    Aabb :=
  (innerCompressedLane ranges E i).decompress E

/-- The inner node written over the placeholder: compressed child bounds plus
the child links collected in lane order. -/
def innerNodeOf (ranges : List (ℕ × ℕ × Aabb)) (E : AabbSized)
    (links : List NodeLink) : InnerNodeE :=
  ⟨innerCompressedLane ranges E, fun i => links.getD i.val NodeLink.null⟩

mutual

/-- `TriangleBvh::build_recursive` (with explicit fuel: the source recursion
has no a-priori bound).  At most `LEAF_NODE_MAX_TRIANGLES = 56` triangles
build a leaf; otherwise an inner node: split, push a placeholder, compress
the child boxes conservatively against the enclosing box, recurse on each
child with the *decompressed* box, and overwrite the placeholder.
`none` models a panic (`ArrayVec` overflow / `exactly_one` on the child-box
packs, or a nested panic). -/
def buildRecursive (grid : BinGridM) (vertices : List VertexData) :
    ℕ → TriangleBvh → List (Tri ℕ) → Aabb → Option (TriangleBvh × NodeLink)
  | 0, _, _, _ => none
  | fuel + 1, st, tris, enclosingBox =>
    if tris.length ≤ 56 then buildLeaf st tris vertices enclosingBox
    else
      let split := splitTriangles grid tris vertices
      let sorted := split.1
      let ranges := split.2
      let nodeIndex := st.innerNodes.length
      let st1 := { st with innerNodes := st.innerNodes ++ [default] }
      let E := enclosingBox.toSized
      if ¬ Vec3.zero.lt E.size then none
      else if ranges.length < 1 ∨ 8 < ranges.length then none
      else
        match buildChildren grid vertices fuel st1 sorted ranges
          (innerDecompressedLane ranges E) (List.finRange 8) with
        | none => none
        | some (st2, links) =>
          some ({ st2 with
            innerNodes := st2.innerNodes.set nodeIndex (innerNodeOf ranges E links) },
            NodeLink.inner nodeIndex)

/-- The `array::from_fn` building the 8 child links in lane order, threading
the arena state; lanes beyond the split get `NULL`. -/
def buildChildren (grid : BinGridM) (vertices : List VertexData) (fuel : ℕ)
    (st : TriangleBvh) (sorted : List (Tri ℕ)) (ranges : List (ℕ × ℕ × Aabb))
    (boxes : Fin 8 → Aabb) :
    List (Fin 8) → Option (TriangleBvh × List NodeLink)
  | [] => some (st, [])
  | i :: rest =>
    match ranges.get? i.val with
    | none =>
      match buildChildren grid vertices fuel st sorted ranges boxes rest with
      | none => none
      | some (st', links) => some (st', NodeLink.null :: links)
    | some r =>
      match buildRecursive grid vertices fuel st (rangeSlice sorted r.1 r.2.1) (boxes i) with
      | none => none
      | some (st', link) =>
        match buildChildren grid vertices fuel st' sorted ranges boxes rest with
        | none => none
        | some (st'', links) => some (st'', link :: links)

end

/-- `TriangleBvh::build`.  An empty triangle list makes
`WorldBox::from_points` return `None`; the source then proceeds with the
default `(+inf, -inf)` box and immediately hits `build_leaf`'s
`assert!(!triangles.is_empty())` — a panic, modelled as `none`. -/
def buildTriangleBvh (grid : BinGridM) (triangles : List (Tri ℕ))
    (vertices : List VertexData) (fuel : ℕ) : Option TriangleBvh :=
  match Aabb.fromPoints (verticesIter triangles vertices) with
  | none => none
  | some boundingBox =>
    let st0 : TriangleBvh := ⟨boundingBox, NodeLink.null, [], [], [], []⟩
    match buildRecursive grid vertices fuel st0 triangles boundingBox with
    | none => none
    | some (st, root) =>
      some { st with
        root := root,
        vertexData := vertices.map (fun v => ⟨v.normal, v.tex⟩) }

/-- A concrete one-bin grid for witnesses. -/
def trivialGrid : BinGridM := ⟨1, fun _ => 0⟩

/-- **C6 counterexample.** Building a BVH from an empty triangle list does
*not* succeed: `build_recursive` reaches `build_leaf`, whose
`assert!(!triangles.is_empty())` panics (modelled as `none`) — here with a
non-empty vertex list and ample fuel. -/
theorem buildTriangleBvh_empty_fails :
    buildTriangleBvh trivialGrid [] [⟨⟨0, 0, 0⟩, (0, 0), ⟨0, 0, 1⟩⟩] 5 = none := rfl

/-- **C6 (amended).** Building from an empty triangle list panics for every
grid, vertex list and fuel (never yields a BVH); and `intersect` on any BVH
whose root link is `Null` returns `None` for every ray (with the stack left
empty). -/
theorem buildEmpty_panics_and_nullRoot_intersect_none :
    (∀ (grid : BinGridM) (vertices : List VertexData) (fuel : ℕ),
      buildTriangleBvh grid [] vertices fuel = none) ∧
    (∀ (bvh : TriangleBvh) (ray : Ray) (fuel : ℕ), bvh.root = NodeLink.null →
      intersectBvh bvh ray [] fuel = some (none, [])) := by
  constructor
  · intro grid vertices fuel
    simp [buildTriangleBvh, verticesIter, Aabb.fromPoints]
  · intro bvh ray fuel hroot
    exact intersectBvh_nullRoot_none bvh ray fuel hroot

/-- Witness for the amended C6 at a concrete BVH and ray. -/
theorem buildEmpty_panics_and_nullRoot_intersect_none_witness :
    buildTriangleBvh trivialGrid [] [] 3 = none ∧
      intersectBvh nullRootBvh ⟨⟨5, 5, -1⟩, ⟨0, 0, 1⟩⟩ [] 3 = some (none, []) :=
  ⟨buildEmpty_panics_and_nullRoot_intersect_none.1 trivialGrid [] 3,
   buildEmpty_panics_and_nullRoot_intersect_none.2 nullRootBvh ⟨⟨5, 5, -1⟩, ⟨0, 0, 1⟩⟩ 3 rfl⟩

/-! ## Box order lemmas (for the build invariant C2) -/

lemma Vec3.le_refl (a : Vec3) : a.le a :=
  ⟨le_rfl, le_rfl, le_rfl⟩

lemma Vec3.le_trans {a b c : Vec3} (h1 : a.le b) (h2 : b.le c) : a.le c :=
  ⟨h1.1.trans h2.1, h1.2.1.trans h2.2.1, h1.2.2.trans h2.2.2⟩

lemma Vec3.cmin_le_left (a b : Vec3) : (a.cmin b).le a :=
  ⟨min_le_left _ _, min_le_left _ _, min_le_left _ _⟩

lemma Vec3.cmin_le_right (a b : Vec3) : (a.cmin b).le b :=
  ⟨min_le_right _ _, min_le_right _ _, min_le_right _ _⟩

lemma Vec3.le_cmax_left (a b : Vec3) : a.le (a.cmax b) :=
  ⟨le_max_left _ _, le_max_left _ _, le_max_left _ _⟩

lemma Vec3.le_cmax_right (a b : Vec3) : b.le (a.cmax b) :=
  ⟨le_max_right _ _, le_max_right _ _, le_max_right _ _⟩

lemma Vec3.le_cmin {a b c : Vec3} (h1 : a.le b) (h2 : a.le c) : a.le (b.cmin c) :=
  ⟨le_min h1.1 h2.1, le_min h1.2.1 h2.2.1, le_min h1.2.2 h2.2.2⟩

lemma Vec3.cmax_le {a b c : Vec3} (h1 : a.le c) (h2 : b.le c) : (a.cmax b).le c :=
  ⟨max_le h1.1 h2.1, max_le h1.2.1 h2.2.1, max_le h1.2.2 h2.2.2⟩

lemma Aabb.extendPoint_containsPoint_self (b : Aabb) (p : Vec3) :
    (b.extendPoint p).containsPoint p :=
  ⟨Vec3.cmin_le_right _ _, Vec3.le_cmax_right _ _⟩

lemma Aabb.extendPoint_mono {b : Aabb} {q : Vec3} (h : b.containsPoint q) (p : Vec3) :
    (b.extendPoint p).containsPoint q :=
  ⟨Vec3.le_trans (Vec3.cmin_le_left _ _) h.1, Vec3.le_trans h.2 (Vec3.le_cmax_left _ _)⟩

lemma Aabb.extendPoints_mono {b : Aabb} {q : Vec3} (h : b.containsPoint q)
    (ps : List Vec3) : (b.extendPoints ps).containsPoint q := by
  induction ps generalizing b with
  | nil => exact h
  | cons p rest ih => exact ih (b.extendPoint_mono h p)

lemma Aabb.extendPoints_containsPoint (b : Aabb) (ps : List Vec3) :
    ∀ p ∈ ps, (b.extendPoints ps).containsPoint p := by
  induction ps generalizing b with
  | nil => intro p hp; cases hp
  | cons q rest ih =>
    intro p hp
    cases hp with
    | head => exact Aabb.extendPoints_mono (b.extendPoint_containsPoint_self q) rest
    | tail _ hmem => exact ih (b.extendPoint q) p hmem

/-- Extending stays within any box that contains the start box and the
points. -/
lemma Aabb.extendPoint_within {outer b : Aabb} {p : Vec3}
    (hb : outer.min.le b.min ∧ b.max.le outer.max) (hp : outer.containsPoint p) :
    outer.min.le (b.extendPoint p).min ∧ (b.extendPoint p).max.le outer.max :=
  ⟨Vec3.le_cmin hb.1 hp.1, Vec3.cmax_le hb.2 hp.2⟩

lemma Aabb.extendPoints_within {outer : Aabb} {ps : List Vec3}
    (hps : ∀ p ∈ ps, outer.containsPoint p) :
    ∀ b : Aabb, outer.min.le b.min → b.max.le outer.max →
      outer.min.le (b.extendPoints ps).min ∧ (b.extendPoints ps).max.le outer.max := by
  induction ps with
  | nil => intro b h1 h2; exact ⟨h1, h2⟩
  | cons p rest ih =>
    intro b h1 h2
    have hp := hps p (List.mem_cons_self p rest)
    have hstep := Aabb.extendPoint_within ⟨h1, h2⟩ hp
    exact ih (fun q hq => hps q (List.mem_cons_of_mem p hq)) _ hstep.1 hstep.2

/-- Extending preserves box validity (`min <= max`). -/
lemma Aabb.extendPoint_valid {b : Aabb} (h : b.min.le b.max) (p : Vec3) :
    (b.extendPoint p).min.le (b.extendPoint p).max :=
  Vec3.le_trans (Vec3.cmin_le_left _ _) (Vec3.le_trans h (Vec3.le_cmax_left _ _))

lemma Aabb.extendPoints_valid {b : Aabb} (h : b.min.le b.max) (ps : List Vec3) :
    (b.extendPoints ps).min.le (b.extendPoints ps).max := by
  induction ps generalizing b with
  | nil => exact h
  | cons p rest ih => exact ih (Aabb.extendPoint_valid h p)

/-- The per-triangle extend fold of `chunkBox`. -/
def foldExtend (vertices : List VertexData) (l : List (Tri ℕ)) (b : Aabb) : Aabb :=
  l.foldl (fun b t' => b.extendPoints (triPositions vertices t').toList) b

lemma foldExtend_mono {vertices : List VertexData} {p : Vec3} (l : List (Tri ℕ))
    (b : Aabb) (hb : b.containsPoint p) : (foldExtend vertices l b).containsPoint p := by
  induction l generalizing b with
  | nil => exact hb
  | cons u us ih => exact ih _ (Aabb.extendPoints_mono hb _)

lemma foldExtend_mem {vertices : List VertexData} {t : Tri ℕ} {p : Vec3}
    (l : List (Tri ℕ)) (b : Aabb) (ht : t ∈ l)
    (hp : p ∈ (triPositions vertices t).toList) :
    (foldExtend vertices l b).containsPoint p := by
  induction l generalizing b with
  | nil => cases ht
  | cons u us ih =>
    cases ht with
    | head =>
      exact foldExtend_mono us _ (Aabb.extendPoints_containsPoint b _ p hp)
    | tail _ hmem => exact ih _ hmem

lemma foldExtend_within {vertices : List VertexData} {outer : Aabb} (l : List (Tri ℕ))
    (hl : ∀ t ∈ l, ∀ p ∈ (triPositions vertices t).toList, outer.containsPoint p) :
    ∀ b : Aabb, outer.min.le b.min → b.max.le outer.max → b.min.le b.max →
      outer.min.le (foldExtend vertices l b).min ∧
      (foldExtend vertices l b).max.le outer.max ∧
      (foldExtend vertices l b).min.le (foldExtend vertices l b).max := by
  induction l with
  | nil => intro b h1 h2 h3; exact ⟨h1, h2, h3⟩
  | cons u us ih =>
    intro b h1 h2 h3
    have hu := hl u (by simp)
    have hstep := @Aabb.extendPoints_within outer
      ((triPositions vertices u).toList) hu b h1 h2
    exact ih (fun t ht => hl t (List.mem_cons_of_mem u ht)) _ hstep.1 hstep.2
      (Aabb.extendPoints_valid h3 _)

lemma chunkBox_cons_eq (vertices : List VertexData) (t0 : Tri ℕ) (rest : List (Tri ℕ)) :
    chunkBox vertices (t0 :: rest) = foldExtend vertices rest
      (Aabb.extendPoints ⟨(triPositions vertices t0).p0, (triPositions vertices t0).p0⟩
        [(triPositions vertices t0).p1, (triPositions vertices t0).p2]) := by
  simp [chunkBox, foldExtend, Aabb.fromPoints, Tri.toList, Aabb.extendPoints]

/-- `chunkBox` contains every vertex of every triangle of the chunk. -/
lemma chunkBox_containsPoint (vertices : List VertexData) (c : List (Tri ℕ)) :
    ∀ t ∈ c, ∀ p ∈ (triPositions vertices t).toList, (chunkBox vertices c).containsPoint p := by
  cases c with
  | nil => intro t ht; cases ht
  | cons t0 rest =>
    intro t ht p hp
    rw [chunkBox_cons_eq]
    cases ht with
    | head =>
      refine foldExtend_mono rest _ ?_
      simp only [Tri.toList, List.mem_cons, List.not_mem_nil, or_false] at hp
      rcases hp with h | h | h
      · rw [h]
        exact Aabb.extendPoints_mono ⟨Vec3.le_refl _, Vec3.le_refl _⟩ _
      · rw [h]
        exact Aabb.extendPoints_containsPoint _ _ _ (by simp)
      · rw [h]
        exact Aabb.extendPoints_containsPoint _ _ _ (by simp)
    | tail _ hmem => exact foldExtend_mem rest _ hmem hp

/-- `chunkBox` of a non-empty chunk whose vertices all lie in `outer` stays
within `outer` and is a valid box. -/
lemma chunkBox_within (vertices : List VertexData) (c : List (Tri ℕ)) (outer : Aabb)
    (hne : c ≠ [])
    (hin : ∀ t ∈ c, ∀ p ∈ (triPositions vertices t).toList, outer.containsPoint p) :
    outer.min.le (chunkBox vertices c).min ∧ (chunkBox vertices c).max.le outer.max ∧
      (chunkBox vertices c).min.le (chunkBox vertices c).max := by
  cases c with
  | nil => exact absurd rfl hne
  | cons t0 rest =>
    rw [chunkBox_cons_eq]
    have hp0 := hin t0 (by simp) (triPositions vertices t0).p0 (by simp [Tri.toList])
    have hp1 := hin t0 (by simp) (triPositions vertices t0).p1 (by simp [Tri.toList])
    have hp2 := hin t0 (by simp) (triPositions vertices t0).p2 (by simp [Tri.toList])
    have hbase := @Aabb.extendPoints_within outer
      [(triPositions vertices t0).p1, (triPositions vertices t0).p2]
      (by intro p hp
          simp only [List.mem_cons, List.not_mem_nil, or_false] at hp
          rcases hp with h | h
          · rw [h]; exact hp1
          · rw [h]; exact hp2)
      ⟨(triPositions vertices t0).p0, (triPositions vertices t0).p0⟩ hp0.1 hp0.2
    have hbasevalid := Aabb.extendPoints_valid (b :=
      ⟨(triPositions vertices t0).p0, (triPositions vertices t0).p0⟩) (Vec3.le_refl _)
      [(triPositions vertices t0).p1, (triPositions vertices t0).p2]
    exact foldExtend_within rest (fun t ht => hin t (List.mem_cons_of_mem t0 ht)) _
      hbase.1 hbase.2 hbasevalid

/-! ## Chunk/range bookkeeping lemmas -/

lemma chunkBy_flatten (key : α → ℕ) : ∀ l : List α, (chunkBy key l).flatten = l := by
  intro l
  induction l with
  | nil => rfl
  | cons a rest ih =>
    cases rest with
    | nil => rfl
    | cons b rest' =>
      rw [chunkBy]
      cases hc : chunkBy key (b :: rest') with
      | nil =>
        rw [hc] at ih
        simp at ih
      | cons g gs =>
        rw [hc] at ih
        dsimp only
        by_cases hk : key a = key b
        · rw [if_pos hk]
          simp only [List.flatten_cons] at ih ⊢
          simp [ih]
        · rw [if_neg hk]
          simp only [List.flatten_cons] at ih ⊢
          simp [ih]

lemma chunkBy_ne_nil (key : α → ℕ) : ∀ l : List α, ∀ c ∈ chunkBy key l, c ≠ [] := by
  intro l
  induction l with
  | nil => intro c hc; cases hc
  | cons a rest ih =>
    cases rest with
    | nil =>
      intro c hc
      simp only [chunkBy, List.mem_singleton] at hc
      rw [hc]
      simp
    | cons b rest' =>
      intro c hc
      rw [chunkBy] at hc
      cases hg : chunkBy key (b :: rest') with
      | nil =>
        rw [hg] at hc
        simp only [List.mem_singleton] at hc
        rw [hc]
        simp
      | cons g gs =>
        rw [hg] at hc
        dsimp only at hc
        by_cases hk : key a = key b
        · rw [if_pos hk] at hc
          cases hc with
          | head => simp
          | tail _ hmem => exact ih c (by rw [hg]; exact List.mem_cons_of_mem g hmem)
        · rw [if_neg hk] at hc
          cases hc with
          | head => simp
          | tail _ hmem => exact ih c (by rw [hg]; exact hmem)

lemma scanRanges_slice (boxf : List (Tri ℕ) → Aabb) :
    ∀ (cs : List (List (Tri ℕ))) (pre : List (Tri ℕ)) (j : ℕ) (r : ℕ × ℕ × Aabb),
      (scanRanges pre.length (cs.map (fun c => (c.length, boxf c)))).get? j = some r →
      rangeSlice (pre ++ cs.flatten) r.1 r.2.1 = cs.getD j [] ∧
        r.2.2 = boxf (cs.getD j []) := by
  intro cs
  induction cs with
  | nil =>
    intro pre j r h
    simp [scanRanges] at h
  | cons c cs ih =>
    intro pre j r h
    simp only [List.map_cons, scanRanges] at h
    cases j with
    | zero =>
      simp only [List.get?_cons_zero, Option.some.injEq] at h
      subst h
      refine ⟨?_, rfl⟩
      show rangeSlice (pre ++ (c :: cs).flatten) pre.length (pre.length + c.length) = c
      unfold rangeSlice
      rw [List.flatten_cons]
      have h1 : pre.length + c.length - pre.length = c.length := by omega
      rw [h1, List.drop_left, List.take_left]
    | succ j' =>
      simp only [List.get?_cons_succ] at h
      have hih := ih (pre ++ c) j' r (by rw [List.length_append]; exact h)
      rw [List.flatten_cons, ← List.append_assoc]
      simpa using hih

/-! ## The build containment invariant (C2)

`SubtreeContained bvh link frame tris` says: the subtree hanging off `link`,
whose quantization frame is `frame`, holds exactly the input triangles `tris`
(by world-space positions), every one of them inside `frame`; at every inner
node, each non-null child lane's `RelativeBox8`, decompressed in that node's
frame, contains every triangle reachable through that child, and the child
subtree is framed by exactly that decompressed box (the builder recurses with
it); leaf geometry decompresses into the leaf's frame. -/
inductive SubtreeContained (bvh : TriangleBvh) : NodeLink → Aabb → List (Tri Vec3) → Prop
  | leaf (first last : ℕ) (frame : Aabb) (tris : List (Tri Vec3))
      (harena : last ≤ bvh.triangleGeometry.length)
      (hin : ∀ t ∈ tris, ∀ p ∈ Tri.toList t, frame.containsPoint p)
      (hgeom : ∀ j, first ≤ j → j < last → ∀ (lane : Fin 8) (p : Vec3),
        p ∈ Tri.toList (RelativeTriangle.decompress
          (bvh.triangleGeometry.getD j defaultPack lane) frame.toSized) →
        frame.containsPoint p) :
      SubtreeContained bvh (NodeLink.leaf first last) frame tris
  | inner (index : ℕ) (frame : Aabb) (tris : List (Tri Vec3))
      (subTris : Fin 8 → List (Tri Vec3))
      (harena : index < bvh.innerNodes.length)
      (hnull : ∀ i : Fin 8,
        (bvh.innerNodes.getD index default).childLinks i = NodeLink.null → subTris i = [])
      (hlaneIn : ∀ i : Fin 8,
        (bvh.innerNodes.getD index default).childLinks i ≠ NodeLink.null →
        ∀ t ∈ subTris i, ∀ p ∈ Tri.toList t,
          (((bvh.innerNodes.getD index default).childBounds i).decompress
            frame.toSized).containsPoint p)
      (hlaneSub : ∀ i : Fin 8,
        (bvh.innerNodes.getD index default).childLinks i ≠ NodeLink.null →
        SubtreeContained bvh ((bvh.innerNodes.getD index default).childLinks i)
          (((bvh.innerNodes.getD index default).childBounds i).decompress frame.toSized)
          (subTris i))
      (hcover : ∀ t ∈ tris, ∃ i : Fin 8, t ∈ subTris i) :
      SubtreeContained bvh (NodeLink.inner index) frame tris

/-- The builder only appends to the arenas (and fills placeholder inner nodes
at indices that did not exist before): existing entries are stable. -/
def ArenaPrefix (st st' : TriangleBvh) : Prop :=
  st.innerNodes.length ≤ st'.innerNodes.length ∧
  (∀ k, k < st.innerNodes.length →
    st'.innerNodes.getD k default = st.innerNodes.getD k default) ∧
  st.triangleGeometry.length ≤ st'.triangleGeometry.length ∧
  (∀ k, k < st.triangleGeometry.length →
    st'.triangleGeometry.getD k defaultPack = st.triangleGeometry.getD k defaultPack)

lemma ArenaPrefix.refl (st : TriangleBvh) : ArenaPrefix st st :=
  ⟨le_rfl, fun _ _ => rfl, le_rfl, fun _ _ => rfl⟩

lemma ArenaPrefix.trans {a b c : TriangleBvh} (h1 : ArenaPrefix a b) (h2 : ArenaPrefix b c) :
    ArenaPrefix a c := by
  refine ⟨h1.1.trans h2.1, ?_, h1.2.2.1.trans h2.2.2.1, ?_⟩
  · intro k hk
    rw [h2.2.1 k (lt_of_lt_of_le hk h1.1), h1.2.1 k hk]
  · intro k hk
    rw [h2.2.2.2 k (lt_of_lt_of_le hk h1.2.2.1), h1.2.2.2 k hk]

/-- A containment derivation survives arena extension. -/
lemma SubtreeContained.mono {st st' : TriangleBvh} {link : NodeLink} {frame : Aabb}
    {tris : List (Tri Vec3)} (h : SubtreeContained st link frame tris)
    (hext : ArenaPrefix st st') : SubtreeContained st' link frame tris := by
  induction h with
  | leaf first last frame tris harena hin hgeom =>
    refine SubtreeContained.leaf first last frame tris (harena.trans hext.2.2.1) hin ?_
    intro j h1 h2 lane p hp
    rw [hext.2.2.2 j (lt_of_lt_of_le h2 harena)] at hp
    exact hgeom j h1 h2 lane p hp
  | inner index frame tris subTris harena hnull hlaneIn hlaneSub hcover ih =>
    have hidx := hext.2.1 index harena
    refine SubtreeContained.inner index frame tris subTris ?_ ?_ ?_ ?_ hcover
    · exact lt_of_lt_of_le harena hext.1
    · intro i hi
      rw [hidx] at hi
      exact hnull i hi
    · intro i hi
      rw [hidx] at hi ⊢
      exact hlaneIn i hi
    · intro i hi
      rw [hidx] at hi ⊢
      exact ih i hi

/-- Conservative inflation of `compress_round_out`, corner form (helper shared
by the build invariant). -/
lemma compressRoundOut_corners (b : Aabb) (E : AabbSized)
    (hsize : Vec3.zero.lt E.size)
    (hminE : E.min.le b.min) (hbb : b.min.le b.max)
    (hmaxE : b.max.le (E.min.add E.size)) :
    ((RelativeBox.compressRoundOut b E true).decompress E).min.le b.min ∧
      b.max.le ((RelativeBox.compressRoundOut b E true).decompress E).max := by
  obtain ⟨hsx, hsy, hsz⟩ := hsize
  obtain ⟨he1, he2, he3⟩ := hminE
  obtain ⟨hb1, hb2, hb3⟩ := hbb
  obtain ⟨hm1, hm2, hm3⟩ := hmaxE
  simp only [Vec3.zero] at hsx hsy hsz
  simp only [Vec3.add] at hm1 hm2 hm3
  constructor
  · exact ⟨compress_floor_le b.min.x E.min.x E.size.x hsx he1 (by linarith),
      compress_floor_le b.min.y E.min.y E.size.y hsy he2 (by linarith),
      compress_floor_le b.min.z E.min.z E.size.z hsz he3 (by linarith)⟩
  · exact ⟨compress_ceil_ge b.max.x E.min.x E.size.x hsx (by linarith) hm1,
      compress_ceil_ge b.max.y E.min.y E.size.y hsy (by linarith) hm2,
      compress_ceil_ge b.max.z E.min.z E.size.z hsz (by linarith) hm3⟩

lemma compressUnitInterval_le (v : ℚ) (rounding : ℚ → ℤ) (mask : Bool) :
    compressUnitInterval v rounding mask ≤ 65535 := by
  unfold compressUnitInterval
  omega

lemma decompress_coord_bounds (m M : ℚ) (h : m ≤ M) (u : ℕ) (hu : u ≤ 65535) :
    m ≤ (M - m) * decompressUnitInterval u + m ∧
      (M - m) * decompressUnitInterval u + m ≤ M := by
  unfold decompressUnitInterval
  have h0 : (0 : ℚ) ≤ (u : ℚ) * (1 / 65535) := by positivity
  have h1 : (u : ℚ) * (1 / 65535) ≤ 1 := by
    rw [mul_one_div, div_le_one (by norm_num : (0 : ℚ) < 65535)]
    exact_mod_cast hu
  constructor
  · nlinarith
  · nlinarith

/-- Any decompressed quantized point lies inside its (valid) frame. -/
lemma decompress_in_frame (frame : Aabb) (hvalid : frame.min.le frame.max)
    (rp : RelativePoint) (hx : rp.x ≤ 65535) (hy : rp.y ≤ 65535) (hz : rp.z ≤ 65535) :
    frame.containsPoint (rp.decompress frame.toSized) := by
  obtain ⟨h1, h2, h3⟩ := hvalid
  have hbx := decompress_coord_bounds frame.min.x frame.max.x h1 rp.x hx
  have hby := decompress_coord_bounds frame.min.y frame.max.y h2 rp.y hy
  have hbz := decompress_coord_bounds frame.min.z frame.max.z h3 rp.z hz
  unfold RelativePoint.decompress Aabb.toSized
  constructor
  · exact ⟨by simpa [Vec3.sub] using hbx.1, by simpa [Vec3.sub] using hby.1,
      by simpa [Vec3.sub] using hbz.1⟩
  · exact ⟨by simpa [Vec3.sub] using hbx.2, by simpa [Vec3.sub] using hby.2,
      by simpa [Vec3.sub] using hbz.2⟩

lemma compress_coord_le (p : Vec3) (E : AabbSized) (mask : Bool) :
    (RelativePoint.compress p E mask).x ≤ 65535 ∧
      (RelativePoint.compress p E mask).y ≤ 65535 ∧
      (RelativePoint.compress p E mask).z ≤ 65535 :=
  ⟨compressUnitInterval_le _ _ _, compressUnitInterval_le _ _ _,
    compressUnitInterval_le _ _ _⟩

/-- Every lane of every leaf pack decompresses into the (valid) frame. -/
lemma buildLeafPackLane_decompress_in_frame (trisPos : List (Tri Vec3)) (frame : Aabb)
    (hvalid : frame.min.le frame.max) (p : ℕ) (lane : Fin 8) (q : Vec3)
    (hq : q ∈ Tri.toList (RelativeTriangle.decompress
      (buildLeafPackLane trisPos frame.toSized p lane) frame.toSized)) :
    frame.containsPoint q := by
  have hpt : ∀ rp : RelativePoint, rp.x ≤ 65535 → rp.y ≤ 65535 → rp.z ≤ 65535 →
      q = rp.decompress frame.toSized → frame.containsPoint q := by
    intro rp h1 h2 h3 hq'
    rw [hq']
    exact decompress_in_frame frame hvalid rp h1 h2 h3
  unfold buildLeafPackLane at hq
  dsimp only at hq
  split at hq <;>
  · simp only [RelativeTriangle.decompress, RelativeTriangle.compress, Tri.map,
      Tri.toList, List.mem_cons, List.not_mem_nil, or_false] at hq
    rcases hq with h | h | h <;>
      exact hpt _ (compress_coord_le _ _ _).1 (compress_coord_le _ _ _).2.1
        (compress_coord_le _ _ _).2.2 h

lemma getD_range_map {β : Type} (f : ℕ → β) (n k : ℕ) (hk : k < n) (d : β) :
    ((List.range n).map f).getD k d = f k := by
  rw [List.getD_eq_getElem?_getD, List.getElem?_map, List.getElem?_range hk]
  rfl

lemma getD_append_right {β : Type} (l l' : List β) (k : ℕ) (hk : l.length ≤ k) (d : β) :
    (l ++ l').getD k d = l'.getD (k - l.length) d := by
  rw [List.getD_eq_getElem?_getD, List.getD_eq_getElem?_getD,
    List.getElem?_append_right hk]

lemma size_pos_imp_valid {box : Aabb} (h : Vec3.zero.lt box.toSized.size) :
    box.min.le box.max := by
  obtain ⟨h1, h2, h3⟩ := h
  simp only [Vec3.zero, Aabb.toSized, Vec3.sub] at h1 h2 h3
  exact ⟨by linarith, by linarith, by linarith⟩

/-- `build_leaf` result decomposed. -/
lemma buildLeaf_spec (st : TriangleBvh) (tris : List (Tri ℕ))
    (verts : List VertexData) (box : Aabb) (st' : TriangleBvh) (link : NodeLink)
    (h : buildLeaf st tris verts box = some (st', link)) :
    tris ≠ [] ∧ Vec3.zero.lt box.toSized.size ∧
      1 ≤ leafPacketCount tris.length ∧ leafPacketCount tris.length ≤ 7 ∧
      link = NodeLink.leaf st.triangleGeometry.length
        (st.triangleGeometry.length + leafPacketCount tris.length) ∧
      st'.innerNodes = st.innerNodes ∧
      st'.triangleGeometry = st.triangleGeometry ++
        (List.range (leafPacketCount tris.length)).map
          (fun p => buildLeafPackLane (tris.map (triPositions verts)) box.toSized p) := by
  unfold buildLeaf at h
  dsimp only at h
  split_ifs at h with h1 h2 h3
  simp only [Option.some.injEq, Prod.mk.injEq] at h
  refine ⟨by simpa using h1, h2, by omega, by omega, h.2.symm, ?_, ?_⟩
  · rw [← h.1]
  · rw [← h.1]

lemma buildLeaf_contained (st : TriangleBvh) (tris : List (Tri ℕ))
    (verts : List VertexData) (box : Aabb) (st' : TriangleBvh) (link : NodeLink)
    (h : buildLeaf st tris verts box = some (st', link))
    (hin : ∀ t ∈ tris, ∀ p ∈ (triPositions verts t).toList, box.containsPoint p)
    (stF : TriangleBvh)
    (hlen : st'.triangleGeometry.length ≤ stF.triangleGeometry.length)
    (hagree : ∀ k, st.triangleGeometry.length ≤ k → k < st'.triangleGeometry.length →
      stF.triangleGeometry.getD k defaultPack = st'.triangleGeometry.getD k defaultPack) :
    SubtreeContained stF link box (tris.map (triPositions verts)) := by
  obtain ⟨hne, hpos, hpc1, hpc7, hlink, hinner, hgeom⟩ := buildLeaf_spec _ _ _ _ _ _ h
  have hvalid := size_pos_imp_valid hpos
  have hlen' : st'.triangleGeometry.length =
      st.triangleGeometry.length + leafPacketCount tris.length := by
    rw [hgeom]
    simp
  rw [hlink]
  refine SubtreeContained.leaf _ _ _ _ ?_ ?_ ?_
  · omega
  · intro t ht p hp
    rcases List.mem_map.mp ht with ⟨t0, ht0, rfl⟩
    exact hin t0 ht0 p hp
  · intro j hj1 hj2 lane p hp
    have hjlt : j < st'.triangleGeometry.length := by omega
    rw [hagree j hj1 hjlt, hgeom,
      getD_append_right _ _ j hj1,
      getD_range_map _ _ _ (by omega)] at hp
    exact buildLeafPackLane_decompress_in_frame _ box hvalid _ lane p hp

lemma scanRanges_length : ∀ (off : ℕ) (l : List (ℕ × Aabb)),
    (scanRanges off l).length = l.length := by
  intro off l
  induction l generalizing off with
  | nil => rfl
  | cons a rest ih =>
    obtain ⟨cnt, box⟩ := a
    simp [scanRanges, ih]

lemma finRange_get? (k : ℕ) (hk : k < 8) : (List.finRange 8).get? k = some ⟨k, hk⟩ := by
  rw [List.get?_eq_getElem?, List.getElem?_eq_getElem (by simpa using hk)]
  simp [List.getElem_finRange, Fin.cast]

lemma getD_set_ne {β : Type} (l : List β) (i k : ℕ) (a d : β) (h : i ≠ k) :
    (l.set i a).getD k d = l.getD k d := by
  rw [List.getD_eq_getElem?_getD, List.getD_eq_getElem?_getD, List.getElem?_set_ne h]

lemma getD_set_self {β : Type} (l : List β) (i : ℕ) (a d : β) (h : i < l.length) :
    (l.set i a).getD i d = a := by
  rw [List.getD_eq_getElem?_getD, List.getElem?_set_eq_of_lt _ h]
  rfl

lemma buildLeaf_arenaMono {st st' : TriangleBvh} {tris : List (Tri ℕ)}
    {verts : List VertexData} {box : Aabb} {link : NodeLink}
    (h : buildLeaf st tris verts box = some (st', link)) : ArenaPrefix st st' := by
  obtain ⟨-, -, -, -, -, hinner, hgeom⟩ := buildLeaf_spec _ _ _ _ _ _ h
  refine ⟨by rw [hinner], by intro k _; rw [hinner], by rw [hgeom]; simp, ?_⟩
  intro k hk
  rw [hgeom, List.getD_eq_getElem?_getD, List.getD_eq_getElem?_getD,
    List.getElem?_append_left hk]

/-- The success shape of the inner-node branch of `build_recursive`. -/
lemma buildRecursive_inner_spec (grid : BinGridM) (verts : List VertexData)
    (fuel : ℕ) (st : TriangleBvh) (tris : List (Tri ℕ)) (box : Aabb)
    (st' : TriangleBvh) (link : NodeLink)
    (h : buildRecursive grid verts (fuel + 1) st tris box = some (st', link))
    (htris : ¬ tris.length ≤ 56) :
    ∃ st2 links,
      Vec3.zero.lt box.toSized.size ∧
      1 ≤ (splitTriangles grid tris verts).2.length ∧
      (splitTriangles grid tris verts).2.length ≤ 8 ∧
      buildChildren grid verts fuel { st with innerNodes := st.innerNodes ++ [default] }
        (splitTriangles grid tris verts).1 (splitTriangles grid tris verts).2
        (innerDecompressedLane (splitTriangles grid tris verts).2 box.toSized)
        (List.finRange 8) = some (st2, links) ∧
      st' = { st2 with innerNodes :=
          st2.innerNodes.set st.innerNodes.length (innerNodeOf (splitTriangles grid tris verts).2 box.toSized links) } ∧
      link = NodeLink.inner st.innerNodes.length := by
  rw [buildRecursive] at h
  rw [if_neg htris] at h
  dsimp only at h
  split_ifs at h with h1 h2
  revert h
  cases hbc : buildChildren grid verts fuel { st with innerNodes := st.innerNodes ++ [default] }
      (splitTriangles grid tris verts).1 (splitTriangles grid tris verts).2
      (innerDecompressedLane (splitTriangles grid tris verts).2 box.toSized)
      (List.finRange 8) with
  | none => intro h; cases h
  | some out =>
    intro h
    obtain ⟨st2, links⟩ := out
    refine ⟨st2, links, h1, by omega, by omega, rfl, ?_, ?_⟩ <;>
      simp only [Option.some.injEq, Prod.mk.injEq] at h
    · exact h.1.symm
    · exact h.2.symm

/-- `buildChildren` only extends the arenas. -/
lemma buildChildren_arenaMono (grid : BinGridM) (verts : List VertexData) (fuel : ℕ)
    (hrec : ∀ (st : TriangleBvh) (tris : List (Tri ℕ)) (box : Aabb)
      (st' : TriangleBvh) (link : NodeLink),
      buildRecursive grid verts fuel st tris box = some (st', link) → ArenaPrefix st st') :
    ∀ (lanes : List (Fin 8)) (st : TriangleBvh) (sorted : List (Tri ℕ))
      (ranges : List (ℕ × ℕ × Aabb)) (boxes : Fin 8 → Aabb)
      (st' : TriangleBvh) (links : List NodeLink),
      buildChildren grid verts fuel st sorted ranges boxes lanes = some (st', links) →
      ArenaPrefix st st' := by
  intro lanes
  induction lanes with
  | nil =>
    intro st sorted ranges boxes st' links h
    simp only [buildChildren, Option.some.injEq, Prod.mk.injEq] at h
    rw [← h.1]
    exact ArenaPrefix.refl st
  | cons i rest ih =>
    intro st sorted ranges boxes st' links h
    rw [buildChildren] at h
    cases hr : ranges.get? i.val with
    | none =>
      rw [hr] at h
      dsimp only at h
      cases hrest : buildChildren grid verts fuel st sorted ranges boxes rest with
      | none => rw [hrest] at h; cases h
      | some out =>
        obtain ⟨stB, linksB⟩ := out
        rw [hrest] at h
        dsimp only at h
        simp only [Option.some.injEq, Prod.mk.injEq] at h
        rw [← h.1]
        exact ih st sorted ranges boxes stB linksB hrest
    | some r =>
      rw [hr] at h
      dsimp only at h
      cases hc : buildRecursive grid verts fuel st (rangeSlice sorted r.1 r.2.1) (boxes i) with
      | none => rw [hc] at h; cases h
      | some out1 =>
        obtain ⟨stA, linkA⟩ := out1
        rw [hc] at h
        dsimp only at h
        cases hrest : buildChildren grid verts fuel stA sorted ranges boxes rest with
        | none => rw [hrest] at h; cases h
        | some out2 =>
          obtain ⟨stB, linksB⟩ := out2
          rw [hrest] at h
          dsimp only at h
          simp only [Option.some.injEq, Prod.mk.injEq] at h
          rw [← h.1]
          exact (hrec st _ _ stA linkA hc).trans
            (ih stA sorted ranges boxes stB linksB hrest)

/-- `build_recursive` only extends the arenas (existing entries stay). -/
lemma buildRecursive_arenaMono (grid : BinGridM) (verts : List VertexData) :
    ∀ (fuel : ℕ) (st : TriangleBvh) (tris : List (Tri ℕ)) (box : Aabb)
      (st' : TriangleBvh) (link : NodeLink),
      buildRecursive grid verts fuel st tris box = some (st', link) → ArenaPrefix st st' := by
  intro fuel
  induction fuel with
  | zero =>
    intro st tris box st' link h
    simp [buildRecursive] at h
  | succ n ih =>
    intro st tris box st' link h
    by_cases htris : tris.length ≤ 56
    · rw [buildRecursive, if_pos htris] at h
      exact buildLeaf_arenaMono h
    · obtain ⟨st2, links, -, -, -, hbc, hst', -⟩ :=
        buildRecursive_inner_spec grid verts n st tris box st' link h htris
      have hpre1 : ArenaPrefix st { st with innerNodes := st.innerNodes ++ [default] } := by
        refine ⟨by simp, ?_, le_rfl, fun _ _ => rfl⟩
        intro k hk
        rw [List.getD_eq_getElem?_getD, List.getD_eq_getElem?_getD,
          List.getElem?_append_left hk]
      have hpre2 := buildChildren_arenaMono grid verts n ih (List.finRange 8) _ _ _ _ _ _ hbc
      have h12 := hpre1.trans hpre2
      rw [hst']
      refine ⟨?_, ?_, h12.2.2.1, h12.2.2.2⟩
      · simp only [List.length_set]
        exact le_trans (by simp) hpre2.1
      · intro k hk
        have hne : st.innerNodes.length ≠ k := by omega
        show (st2.innerNodes.set st.innerNodes.length _).getD k default = _
        rw [getD_set_ne _ _ _ _ _ hne]
        exact h12.2.1 k hk

/-- Agreement of a final state `stF` with `st'` on the arena window that a
recursive build call starting at `st` and ending at `st'` wrote (everything
the call created; later writes by parents and siblings fall outside it). -/
def WindowAgree (st st' stF : TriangleBvh) : Prop :=
  st'.innerNodes.length ≤ stF.innerNodes.length ∧
  (∀ k, st.innerNodes.length ≤ k → k < st'.innerNodes.length →
    stF.innerNodes.getD k default = st'.innerNodes.getD k default) ∧
  st'.triangleGeometry.length ≤ stF.triangleGeometry.length ∧
  (∀ k, st.triangleGeometry.length ≤ k → k < st'.triangleGeometry.length →
    stF.triangleGeometry.getD k defaultPack = st'.triangleGeometry.getD k defaultPack)

/-- Shrink a window agreement to a sub-window `[stA, stB] ⊆ [st, st']`,
given that the entries of `[stA, stB]` survive into `st'`. -/
lemma WindowAgree.sub {st st' stF stA stB : TriangleBvh}
    (h : WindowAgree st st' stF)
    (hiLo : st.innerNodes.length ≤ stA.innerNodes.length)
    (hiHi : stB.innerNodes.length ≤ st'.innerNodes.length)
    (hiAg : ∀ k, stA.innerNodes.length ≤ k → k < stB.innerNodes.length →
      st'.innerNodes.getD k default = stB.innerNodes.getD k default)
    (hgLo : st.triangleGeometry.length ≤ stA.triangleGeometry.length)
    (hgHi : stB.triangleGeometry.length ≤ st'.triangleGeometry.length)
    (hgAg : ∀ k, stA.triangleGeometry.length ≤ k → k < stB.triangleGeometry.length →
      st'.triangleGeometry.getD k defaultPack = stB.triangleGeometry.getD k defaultPack) :
    WindowAgree stA stB stF := by
  refine ⟨le_trans hiHi h.1, ?_, le_trans hgHi h.2.2.1, ?_⟩
  · intro k h1 h2
    rw [h.2.1 k (le_trans hiLo h1) (lt_of_lt_of_le h2 hiHi), hiAg k h1 h2]
  · intro k h1 h2
    rw [h.2.2.2 k (le_trans hgLo h1) (lt_of_lt_of_le h2 hgHi), hgAg k h1 h2]

/-- The containment facts delivered by `buildChildren` for each processed
lane. -/
lemma buildChildren_contained (grid : BinGridM) (verts : List VertexData) (fuel : ℕ)
    (hrec : ∀ (st : TriangleBvh) (tris : List (Tri ℕ)) (box : Aabb)
      (st' : TriangleBvh) (link : NodeLink),
      buildRecursive grid verts fuel st tris box = some (st', link) →
      (∀ t ∈ tris, ∀ p ∈ (triPositions verts t).toList, box.containsPoint p) →
      link ≠ NodeLink.null ∧
      ∀ stF, WindowAgree st st' stF →
        SubtreeContained stF link box (tris.map (triPositions verts))) :
    ∀ (lanes : List (Fin 8)) (st : TriangleBvh) (sorted : List (Tri ℕ))
      (ranges : List (ℕ × ℕ × Aabb)) (boxes : Fin 8 → Aabb)
      (st' : TriangleBvh) (links : List NodeLink),
      buildChildren grid verts fuel st sorted ranges boxes lanes = some (st', links) →
      (∀ i : Fin 8, i ∈ lanes → ∀ r, ranges.get? i.val = some r →
        ∀ t ∈ rangeSlice sorted r.1 r.2.1, ∀ p ∈ (triPositions verts t).toList,
          (boxes i).containsPoint p) →
      links.length = lanes.length ∧
      ∀ (k : ℕ) (i : Fin 8), lanes.get? k = some i →
        (ranges.get? i.val = none → links.getD k NodeLink.null = NodeLink.null) ∧
        (∀ r, ranges.get? i.val = some r →
          links.getD k NodeLink.null ≠ NodeLink.null ∧
          ∀ stF, WindowAgree st st' stF →
            SubtreeContained stF (links.getD k NodeLink.null) (boxes i)
              ((rangeSlice sorted r.1 r.2.1).map (triPositions verts))) := by
  intro lanes
  induction lanes with
  | nil =>
    intro st sorted ranges boxes st' links h hpre
    simp only [buildChildren, Option.some.injEq, Prod.mk.injEq] at h
    refine ⟨by simp [← h.2], ?_⟩
    intro k i hk
    simp at hk
  | cons i0 rest ih =>
    intro st sorted ranges boxes st' links h hpre
    rw [buildChildren] at h
    cases hr : ranges.get? i0.val with
    | none =>
      rw [hr] at h
      dsimp only at h
      cases hrest : buildChildren grid verts fuel st sorted ranges boxes rest with
      | none => rw [hrest] at h; cases h
      | some out =>
        obtain ⟨stB, linksB⟩ := out
        rw [hrest] at h
        dsimp only at h
        simp only [Option.some.injEq, Prod.mk.injEq] at h
        obtain ⟨hst, hlinks⟩ := h
        rw [← hst, ← hlinks]
        have hrest' := ih st sorted ranges boxes stB linksB hrest
          (fun i hi => hpre i (List.mem_cons_of_mem i0 hi))
        refine ⟨by simp [hrest'.1], ?_⟩
        intro k i hk
        cases k with
        | zero =>
          simp only [List.get?_cons_zero, Option.some.injEq] at hk
          subst hk
          refine ⟨fun _ => rfl, ?_⟩
          intro r hr'
          rw [hr] at hr'
          cases hr'
        | succ k' =>
          simp only [List.get?_cons_succ] at hk
          have := hrest'.2 k' i hk
          simpa using this
    | some r =>
      rw [hr] at h
      dsimp only at h
      cases hc : buildRecursive grid verts fuel st (rangeSlice sorted r.1 r.2.1) (boxes i0) with
      | none => rw [hc] at h; cases h
      | some out1 =>
        obtain ⟨stA, linkA⟩ := out1
        rw [hc] at h
        dsimp only at h
        cases hrest : buildChildren grid verts fuel stA sorted ranges boxes rest with
        | none => rw [hrest] at h; cases h
        | some out2 =>
          obtain ⟨stB, linksB⟩ := out2
          rw [hrest] at h
          dsimp only at h
          simp only [Option.some.injEq, Prod.mk.injEq] at h
          obtain ⟨hst, hlinks⟩ := h
          rw [← hst, ← hlinks]
          have hchild := hrec st _ _ stA linkA hc
            (hpre i0 (List.mem_cons_self i0 rest) r hr)
          have hprefA := buildRecursive_arenaMono grid verts fuel st _ _ stA linkA hc
          have hprefB := buildChildren_arenaMono grid verts fuel
            (buildRecursive_arenaMono grid verts fuel) rest stA sorted ranges boxes stB linksB hrest
          have hrest' := ih stA sorted ranges boxes stB linksB hrest
            (fun i hi => hpre i (List.mem_cons_of_mem i0 hi))
          refine ⟨by simp [hrest'.1], ?_⟩
          intro k i hk
          cases k with
          | zero =>
            simp only [List.get?_cons_zero, Option.some.injEq] at hk
            subst hk
            refine ⟨?_, ?_⟩
            · intro hnone
              rw [hr] at hnone
              cases hnone
            · intro r' hr'
              rw [hr] at hr'
              injection hr' with hr''
              subst hr''
              refine ⟨by simpa using hchild.1, ?_⟩
              intro stF hwin
              refine hchild.2 stF (hwin.sub le_rfl hprefB.1 ?_ le_rfl hprefB.2.2.1 ?_)
              · intro k h1 h2
                exact hprefB.2.1 k h2
              · intro k h1 h2
                exact hprefB.2.2.2 k h2
          | succ k' =>
            simp only [List.get?_cons_succ] at hk
            have hres := hrest'.2 k' i hk
            refine ⟨by simpa using hres.1, ?_⟩
            intro r' hr'
            have hres2 := hres.2 r' hr'
            refine ⟨by simpa using hres2.1, ?_⟩
            intro stF hwin
            have hwin' : WindowAgree stA stB stF := by
              refine ⟨hwin.1, ?_, hwin.2.2.1, ?_⟩
              · intro k h1 h2
                exact hwin.2.1 k (le_trans hprefA.1 h1) h2
              · intro k h1 h2
                exact hwin.2.2.2 k (le_trans hprefA.2.2.1 h1) h2
            simpa using hres2.2 stF hwin'

lemma Aabb.toSized_add_size (box : Aabb) :
    box.toSized.min.add box.toSized.size = box.max := by
  obtain ⟨⟨ax, ay, az⟩, ⟨bx, by', bz⟩⟩ := box
  simp only [Aabb.toSized, Vec3.add, Vec3.sub, Vec3.mk.injEq]
  refine ⟨by ring, by ring, by ring⟩

lemma fromPoints_containsPoint {ps : List Vec3} {b : Aabb}
    (h : Aabb.fromPoints ps = some b) : ∀ p ∈ ps, b.containsPoint p := by
  cases ps with
  | nil => cases h
  | cons q rest =>
    simp only [Aabb.fromPoints, Option.some.injEq] at h
    subst h
    intro p hp
    cases hp with
    | head => exact Aabb.extendPoints_mono ⟨Vec3.le_refl _, Vec3.le_refl _⟩ rest
    | tail _ hmem => exact Aabb.extendPoints_containsPoint _ _ p hmem

/-- `split_triangles` destructured: the sort key, the sorted list and the
scanned chunk ranges. -/
lemma splitTriangles_eq (grid : BinGridM) (tris : List (Tri ℕ))
    (verts : List VertexData) :
    ∃ key : Tri ℕ → ℕ,
      (splitTriangles grid tris verts).1 = tris.mergeSort (fun a b => key a ≤ key b) ∧
      (splitTriangles grid tris verts).2 = scanRanges 0
        ((chunkBy key (tris.mergeSort (fun a b => key a ≤ key b))).map
          (fun c => (c.length, chunkBox verts c))) := by
  exact ⟨_, rfl, rfl⟩

/-- The recursive build places every triangle inside the conservatively
compressed (then decompressed) child boxes, at every level. -/
lemma buildRecursive_contained (grid : BinGridM) (verts : List VertexData) :
    ∀ (fuel : ℕ) (st : TriangleBvh) (tris : List (Tri ℕ)) (box : Aabb)
      (st' : TriangleBvh) (link : NodeLink),
      buildRecursive grid verts fuel st tris box = some (st', link) →
      (∀ t ∈ tris, ∀ p ∈ (triPositions verts t).toList, box.containsPoint p) →
      link ≠ NodeLink.null ∧
      ∀ stF, WindowAgree st st' stF →
        SubtreeContained stF link box (tris.map (triPositions verts)) := by
  intro fuel
  induction fuel with
  | zero =>
    intro st tris box st' link h hin
    simp [buildRecursive] at h
  | succ n ihn =>
    intro st tris box st' link h hin
    by_cases htris : tris.length ≤ 56
    · rw [buildRecursive, if_pos htris] at h
      obtain ⟨-, -, -, -, hlink, -, -⟩ := buildLeaf_spec _ _ _ _ _ _ h
      refine ⟨by rw [hlink]; simp, ?_⟩
      intro stF hwin
      exact buildLeaf_contained _ _ _ _ _ _ h hin stF hwin.2.2.1 hwin.2.2.2
    · obtain ⟨st2, links, hpos, hr1, hr8, hbc, hst', hlink⟩ :=
        buildRecursive_inner_spec grid verts n st tris box st' link h htris
      obtain ⟨key, hkey1, hkey2⟩ := splitTriangles_eq grid tris verts
      refine ⟨by rw [hlink]; simp, ?_⟩
      intro stF hwin
      rw [hst'] at hwin
      rw [hlink]
      -- names
      have hsortmem : ∀ t : Tri ℕ, t ∈ (splitTriangles grid tris verts).1 ↔ t ∈ tris := by
        intro t
        rw [hkey1]
        exact (List.mergeSort_perm tris _).mem_iff
      have hflat : (chunkBy key (splitTriangles grid tris verts).1).flatten =
          (splitTriangles grid tris verts).1 := by
        exact chunkBy_flatten key _
      have hcslen : (splitTriangles grid tris verts).2.length =
          (chunkBy key (splitTriangles grid tris verts).1).length := by
        rw [hkey2, scanRanges_length, List.length_map, hkey1]
      -- slice/box description of each range
      have hslice : ∀ (j : ℕ) (r : ℕ × ℕ × Aabb),
          (splitTriangles grid tris verts).2.get? j = some r →
          rangeSlice (splitTriangles grid tris verts).1 r.1 r.2.1 =
            (chunkBy key (splitTriangles grid tris verts).1).getD j [] ∧
          r.2.2 = chunkBox verts ((chunkBy key (splitTriangles grid tris verts).1).getD j []) := by
        intro j r hr
        have h0 : (([] : List (Tri ℕ)).length) = 0 := rfl
        have := scanRanges_slice (chunkBox verts)
          (chunkBy key (splitTriangles grid tris verts).1) [] j r
          (by rw [h0, hkey1, ← hkey2]
              exact hr)
        rw [List.nil_append, hflat] at this
        exact this
      -- every chunk is a nonempty sub-collection of the input triangles
      have hchunk : ∀ (j : ℕ), j < (chunkBy key (splitTriangles grid tris verts).1).length →
          (chunkBy key (splitTriangles grid tris verts).1).getD j [] ≠ [] ∧
          ∀ t ∈ (chunkBy key (splitTriangles grid tris verts).1).getD j [], t ∈ tris := by
        intro j hj
        have hmemc : (chunkBy key (splitTriangles grid tris verts).1).getD j [] ∈
            chunkBy key (splitTriangles grid tris verts).1 := by
          rw [List.getD_eq_getElem _ _ hj]
          exact List.getElem_mem _
        refine ⟨chunkBy_ne_nil key _ _ hmemc, ?_⟩
        intro t ht
        rw [← hsortmem t, ← hflat]
        exact List.mem_flatten.mpr ⟨_, hmemc, ht⟩
      -- precondition for the children: slices lie in the decompressed boxes
      have hpre : ∀ i : Fin 8, ∀ r, (splitTriangles grid tris verts).2.get? i.val = some r →
          ∀ t ∈ rangeSlice (splitTriangles grid tris verts).1 r.1 r.2.1,
          ∀ p ∈ (triPositions verts t).toList,
            (innerDecompressedLane (splitTriangles grid tris verts).2 box.toSized i).containsPoint p := by
        intro i r hr t ht p hp
        have hj : i.val < (splitTriangles grid tris verts).2.length :=
          List.get?_eq_some.mp hr |>.1
        have hsl := hslice i.val r hr
        have hj' : i.val < (chunkBy key (splitTriangles grid tris verts).1).length := by
          rw [← hcslen]; exact hj
        obtain ⟨hne, hsub⟩ := hchunk i.val hj'
        have houter : ∀ t' ∈ (chunkBy key (splitTriangles grid tris verts).1).getD i.val [],
            ∀ q ∈ (triPositions verts t').toList, box.containsPoint q := by
          intro t' ht' q hq
          exact hin t' (hsub t' ht') q hq
        have hwithin := chunkBox_within verts _ box hne houter
        have hcorners := compressRoundOut_corners
          (chunkBox verts ((chunkBy key (splitTriangles grid tris verts).1).getD i.val []))
          box.toSized hpos hwithin.1 hwithin.2.2
          (by rw [Aabb.toSized_add_size]; exact hwithin.2.1)
        have hcb := chunkBox_containsPoint verts
          ((chunkBy key (splitTriangles grid tris verts).1).getD i.val []) t
          (by rw [← hsl.1]; exact ht) p hp
        have hlane : innerDecompressedLane (splitTriangles grid tris verts).2 box.toSized i =
            (RelativeBox.compressRoundOut
              (chunkBox verts ((chunkBy key (splitTriangles grid tris verts).1).getD i.val []))
              box.toSized true).decompress box.toSized := by
          unfold innerDecompressedLane innerCompressedLane
          rw [hr, ← hsl.2]
        rw [hlane]
        exact ⟨Vec3.le_trans hcorners.1 hcb.1, Vec3.le_trans hcb.2 hcorners.2⟩
      -- facts from the children traversal
      have haux := buildChildren_contained grid verts n ihn (List.finRange 8)
        { st with innerNodes := st.innerNodes ++ [default] }
        (splitTriangles grid tris verts).1 (splitTriangles grid tris verts).2
        (innerDecompressedLane (splitTriangles grid tris verts).2 box.toSized)
        st2 links hbc (fun i _ => hpre i)
      have hpref2 := buildChildren_arenaMono grid verts n
        (buildRecursive_arenaMono grid verts n) (List.finRange 8)
        { st with innerNodes := st.innerNodes ++ [default] }
        (splitTriangles grid tris verts).1 (splitTriangles grid tris verts).2
        (innerDecompressedLane (splitTriangles grid tris verts).2 box.toSized)
        st2 links hbc
      have hlen1 : st.innerNodes.length + 1 ≤ st2.innerNodes.length := by
        have := hpref2.1
        simpa using this
      -- the node as seen from the final state
      have hnodeF : stF.innerNodes.getD st.innerNodes.length default =
          innerNodeOf (splitTriangles grid tris verts).2 box.toSized links := by
        have h1 := hwin.2.1 st.innerNodes.length le_rfl (by simp; omega)
        rw [h1]
        show (st2.innerNodes.set st.innerNodes.length _).getD st.innerNodes.length default = _
        rw [getD_set_self _ _ _ _ (by omega)]
      have hlaneget : ∀ i : Fin 8, (List.finRange 8).get? i.val = some i := by
        intro i
        rw [finRange_get? i.val i.isLt]
      refine SubtreeContained.inner st.innerNodes.length box (tris.map (triPositions verts))
        (fun i => match (splitTriangles grid tris verts).2.get? i.val with
          | some r => (rangeSlice (splitTriangles grid tris verts).1 r.1 r.2.1).map
              (triPositions verts)
          | none => []) ?_ ?_ ?_ ?_ ?_
      · calc st.innerNodes.length < st2.innerNodes.length := by omega
          _ = (st2.innerNodes.set st.innerNodes.length (innerNodeOf (splitTriangles grid tris verts).2 box.toSized links)).length := by simp
          _ ≤ stF.innerNodes.length := hwin.1
      · intro i hnull
        rw [hnodeF] at hnull
        dsimp only
        cases hri : (splitTriangles grid tris verts).2.get? i.val with
        | none => rfl
        | some r =>
          have := ((haux.2 i.val i (hlaneget i)).2 r hri).1
          exact absurd hnull this
      · intro i hne'
        rw [hnodeF] at hne' ⊢
        dsimp only
        cases hri : (splitTriangles grid tris verts).2.get? i.val with
        | none =>
          have := (haux.2 i.val i (hlaneget i)).1 hri
          exact absurd this hne'
        | some r =>
          intro t ht p hp
          have hred : (innerNodeOf (splitTriangles grid tris verts).2 box.toSized
              links).childBounds i = innerCompressedLane (splitTriangles grid tris verts).2
              box.toSized i := rfl
          rw [hred]
          rcases List.mem_map.mp ht with ⟨t0, ht0, rfl⟩
          exact hpre i r hri t0 ht0 p hp
      · intro i hne'
        rw [hnodeF] at hne' ⊢
        dsimp only
        cases hri : (splitTriangles grid tris verts).2.get? i.val with
        | none =>
          have := (haux.2 i.val i (hlaneget i)).1 hri
          exact absurd this hne'
        | some r =>
          have hchild := ((haux.2 i.val i (hlaneget i)).2 r hri).2 stF ?hw
          case hw =>
            refine ⟨by simpa using hwin.1, ?_, by simpa using hwin.2.2.1, ?_⟩
            · intro k h1 h2
              have hk1 : st.innerNodes.length ≤ k := by
                simp at h1
                omega
              have hk2 : k < (st2.innerNodes.set st.innerNodes.length (innerNodeOf (splitTriangles grid tris verts).2 box.toSized links)).length := by
                simpa using h2
              rw [hwin.2.1 k hk1 hk2]
              show (st2.innerNodes.set st.innerNodes.length _).getD k default = _
              rw [getD_set_ne _ _ _ _ _ (by simp at h1; omega)]
            · intro k h1 h2
              have hk1 : st.triangleGeometry.length ≤ k := by simpa using h1
              rw [hwin.2.2.2 k hk1 (by simpa using h2)]
          exact hchild
      · intro t' ht'
        rcases List.mem_map.mp ht' with ⟨t0, ht0, rfl⟩
        have hmem : t0 ∈ (chunkBy key (splitTriangles grid tris verts).1).flatten := by
          rw [hflat, hsortmem]
          exact ht0
        rcases List.mem_flatten.mp hmem with ⟨c, hc, htc⟩
        rcases List.getElem_of_mem hc with ⟨j, hj, rfl⟩
        have hj8 : j < 8 := by
          rw [← hcslen] at hj
          omega
        refine ⟨⟨j, hj8⟩, ?_⟩
        have hjr : j < (splitTriangles grid tris verts).2.length := by rw [hcslen]; exact hj
        have hrj : (splitTriangles grid tris verts).2.get? j =
            some ((splitTriangles grid tris verts).2.get ⟨j, hjr⟩) := List.get?_eq_get hjr
        simp only [hrj]
        have hsl := hslice j _ hrj
        rw [hsl.1]
        rw [List.getD_eq_getElem _ _ hj]
        exact List.mem_map.mpr ⟨t0, htc, rfl⟩

lemma buildLeaf_boundingBox {st st' : TriangleBvh} {tris : List (Tri ℕ)}
    {verts : List VertexData} {box : Aabb} {link : NodeLink}
    (h : buildLeaf st tris verts box = some (st', link)) :
    st'.boundingBox = st.boundingBox := by
  unfold buildLeaf at h
  dsimp only at h
  split_ifs at h
  simp only [Option.some.injEq, Prod.mk.injEq] at h
  rw [← h.1]

lemma buildChildren_boundingBox (grid : BinGridM) (verts : List VertexData) (fuel : ℕ)
    (hrec : ∀ (st : TriangleBvh) (tris : List (Tri ℕ)) (box : Aabb)
      (st' : TriangleBvh) (link : NodeLink),
      buildRecursive grid verts fuel st tris box = some (st', link) →
      st'.boundingBox = st.boundingBox) :
    ∀ (lanes : List (Fin 8)) (st : TriangleBvh) (sorted : List (Tri ℕ))
      (ranges : List (ℕ × ℕ × Aabb)) (boxes : Fin 8 → Aabb)
      (st' : TriangleBvh) (links : List NodeLink),
      buildChildren grid verts fuel st sorted ranges boxes lanes = some (st', links) →
      st'.boundingBox = st.boundingBox := by
  intro lanes
  induction lanes with
  | nil =>
    intro st sorted ranges boxes st' links h
    simp only [buildChildren, Option.some.injEq, Prod.mk.injEq] at h
    rw [← h.1]
  | cons i rest ih =>
    intro st sorted ranges boxes st' links h
    rw [buildChildren] at h
    cases hr : ranges.get? i.val with
    | none =>
      rw [hr] at h
      dsimp only at h
      cases hrest : buildChildren grid verts fuel st sorted ranges boxes rest with
      | none => rw [hrest] at h; cases h
      | some out =>
        obtain ⟨stB, linksB⟩ := out
        rw [hrest] at h
        dsimp only at h
        simp only [Option.some.injEq, Prod.mk.injEq] at h
        rw [← h.1]
        exact ih st sorted ranges boxes stB linksB hrest
    | some r =>
      rw [hr] at h
      dsimp only at h
      cases hc : buildRecursive grid verts fuel st (rangeSlice sorted r.1 r.2.1) (boxes i) with
      | none => rw [hc] at h; cases h
      | some out1 =>
        obtain ⟨stA, linkA⟩ := out1
        rw [hc] at h
        dsimp only at h
        cases hrest : buildChildren grid verts fuel stA sorted ranges boxes rest with
        | none => rw [hrest] at h; cases h
        | some out2 =>
          obtain ⟨stB, linksB⟩ := out2
          rw [hrest] at h
          dsimp only at h
          simp only [Option.some.injEq, Prod.mk.injEq] at h
          rw [← h.1]
          rw [ih stA sorted ranges boxes stB linksB hrest]
          exact hrec st _ _ stA linkA hc

lemma buildRecursive_boundingBox (grid : BinGridM) (verts : List VertexData) :
    ∀ (fuel : ℕ) (st : TriangleBvh) (tris : List (Tri ℕ)) (box : Aabb)
      (st' : TriangleBvh) (link : NodeLink),
      buildRecursive grid verts fuel st tris box = some (st', link) →
      st'.boundingBox = st.boundingBox := by
  intro fuel
  induction fuel with
  | zero =>
    intro st tris box st' link h
    simp [buildRecursive] at h
  | succ n ih =>
    intro st tris box st' link h
    by_cases htris : tris.length ≤ 56
    · rw [buildRecursive, if_pos htris] at h
      exact buildLeaf_boundingBox h
    · obtain ⟨st2, links, -, -, -, hbc, hst', -⟩ :=
        buildRecursive_inner_spec grid verts n st tris box st' link h htris
      rw [hst']
      show st2.boundingBox = st.boundingBox
      rw [buildChildren_boundingBox grid verts n ih (List.finRange 8) _ _ _ _ _ _ hbc]

/-- **C2.** In every BVH produced by `build`, the containment invariant holds
recursively from the root: at every inner node and every non-null child lane,
the child's compressed relative box decompressed in the parent's enclosing
frame (exactly the box the traversal uses) contains every triangle reachable
through that child, the lanes cover all triangles of the subtree, and leaves
contain their triangles in their frame. -/
theorem buildChildBoxes_contain (grid : BinGridM) (tris : List (Tri ℕ))
    (verts : List VertexData) (fuel : ℕ) (bvh : TriangleBvh)
    (h : buildTriangleBvh grid tris verts fuel = some bvh) :
    SubtreeContained bvh bvh.root bvh.boundingBox (tris.map (triPositions verts)) := by
  unfold buildTriangleBvh at h
  cases hfp : Aabb.fromPoints (verticesIter tris verts) with
  | none => rw [hfp] at h; cases h
  | some boundingBox =>
    rw [hfp] at h
    dsimp only at h
    cases hrec : buildRecursive grid verts fuel
        ⟨boundingBox, NodeLink.null, [], [], [], []⟩ tris boundingBox with
    | none => rw [hrec] at h; cases h
    | some out =>
      obtain ⟨st, root⟩ := out
      rw [hrec] at h
      dsimp only at h
      simp only [Option.some.injEq] at h
      have hpre : ∀ t ∈ tris, ∀ p ∈ (triPositions verts t).toList,
          boundingBox.containsPoint p := by
        intro t ht p hp
        refine fromPoints_containsPoint hfp p ?_
        exact List.mem_flatMap.mpr ⟨t, ht, by exact hp⟩
      have hmain := buildRecursive_contained grid verts fuel _ tris boundingBox st root
        hrec hpre
      have hbb := buildRecursive_boundingBox grid verts fuel _ tris boundingBox st root hrec
      have hroot : bvh.root = root := by rw [← h]
      have hbvbb : bvh.boundingBox = boundingBox := by rw [← h]; exact hbb
      rw [hroot, hbvbb]
      refine hmain.2 bvh ?_
      rw [← h]
      exact ⟨le_rfl, fun k _ _ => rfl, le_rfl, fun k _ _ => rfl⟩

/-- Witness scene: one triangle spanning a box of strictly positive size. -/
def wverts : List VertexData :=
  [⟨⟨0, 0, 0⟩, (0, 0), ⟨0, 0, 1⟩⟩, ⟨⟨1, 1, 0⟩, (0, 0), ⟨0, 0, 1⟩⟩,
    ⟨⟨0, 1, 1⟩, (0, 0), ⟨0, 0, 1⟩⟩]

/-- The BVH the builder produces on the witness scene. -/
def wbvh : TriangleBvh :=
  (buildTriangleBvh trivialGrid [⟨0, 1, 2⟩] wverts 1).getD
    ⟨⟨Vec3.zero, Vec3.zero⟩, NodeLink.null, [], [], [], []⟩

/-- Closed witness for the C2 theorem at a concrete successful build. -/
theorem buildChildBoxes_contain_witness :
    SubtreeContained wbvh wbvh.root wbvh.boundingBox
      ([⟨0, 1, 2⟩].map (triPositions wverts)) :=
  buildChildBoxes_contain trivialGrid [⟨0, 1, 2⟩] wverts 1 wbvh
    (by with_unfolding_all rfl)

/-! ## Nearest-hit correctness of the traversal (C1)

The candidate hits of a (sub)tree are the lanes whose Möller-Trumbore test
accepts the ray with `t >= 0`, decompressed in exactly the nested frames the
traversal uses.  The pruning argument rests on: an accepted hit point is a
convex combination of the decompressed triangle's corners (Cramer), those
corners lie inside every enclosing frame box on the path (quantized
coordinates are at most `65535`), and the slab test of a box bounds the ray
parameter of any contained point from below and above. -/

namespace FloatV

lemma leB_fin_fin {a b : ℚ} : leB (.fin a) (.fin b) = true ↔ a ≤ b := by
  simp [leB]

lemma ltB_fin_fin {a b : ℚ} : ltB (.fin a) (.fin b) = true ↔ a < b := by
  simp [ltB]

lemma leB_trans_fin {a b : FloatV} {q : ℚ} (h1 : leB a (.fin q) = true)
    (h2 : leB (.fin q) b = true) : leB a b = true := by
  cases a <;> cases b <;> simp_all [leB] <;> linarith

lemma ltB_fin_of_ltB_leB {b : ℚ} {x : FloatV} {t : ℚ}
    (h1 : ltB (.fin b) x = true) (h2 : leB x (.fin t) = true) : b < t := by
  cases x <;> simp_all [ltB, leB] <;> linarith

lemma fastMax_leB {a b c : FloatV} (ha : leB a c = true) (hb : leB b c = true) :
    leB (fastMax a b) c = true := by
  cases a <;> cases b <;> simp_all [fastMax] <;> split_ifs <;> simp_all

lemma leB_fastMin {a b c : FloatV} (ha : leB c a = true) (hb : leB c b = true) :
    leB c (fastMin a b) = true := by
  cases a <;> cases b <;> simp_all [fastMin] <;> split_ifs <;> simp_all

end FloatV

/-- The barycentric combination `(1-u-v) p0 + u p1 + v p2`. -/
def baryPoint (u v : ℚ) (tri : Tri Vec3) : Vec3 :=
  (Vec3.smul (1 - u - v) tri.p0).add ((Vec3.smul u tri.p1).add (Vec3.smul v tri.p2))

/-- The Cramer identity behind Möller-Trumbore with exact arithmetic: the
ray point at the solved `t` is the barycentric combination of the corners. -/
lemma mt_cramer (tri : Tri Vec3) (ray : Ray)
    (hdet : (tri.p1.sub tri.p0).dot (ray.direction.cross (tri.p2.sub tri.p0)) ≠ 0) :
    ray.pointAt (((tri.p1.sub tri.p0).dot (ray.direction.cross (tri.p2.sub tri.p0)))⁻¹ *
        ((tri.p2.sub tri.p0).dot ((ray.origin.sub tri.p0).cross (tri.p1.sub tri.p0)))) =
      baryPoint
        (((tri.p1.sub tri.p0).dot (ray.direction.cross (tri.p2.sub tri.p0)))⁻¹ *
          ((ray.origin.sub tri.p0).dot (ray.direction.cross (tri.p2.sub tri.p0))))
        (((tri.p1.sub tri.p0).dot (ray.direction.cross (tri.p2.sub tri.p0)))⁻¹ *
          (ray.direction.dot ((ray.origin.sub tri.p0).cross (tri.p1.sub tri.p0))))
        tri := by
  obtain ⟨⟨p0x, p0y, p0z⟩, ⟨p1x, p1y, p1z⟩, ⟨p2x, p2y, p2z⟩⟩ := tri
  obtain ⟨⟨ox, oy, oz⟩, ⟨dx, dy, dz⟩⟩ := ray
  simp only [Vec3.sub, Vec3.cross, Vec3.dot] at hdet ⊢
  simp only [Ray.pointAt, baryPoint, Vec3.add, Vec3.sub, Vec3.smul, Vec3.mk.injEq]
  refine ⟨?_, ?_, ?_⟩ <;> field_simp <;> ring

/-- A Möller-Trumbore acceptance has a finite, genuinely barycentric
solution: the mask forces the determinant away from zero, so `u`, `v`, `t`
are the exact Cramer solutions and the ray point at `t` is the barycentric
combination of the triangle corners. -/
lemma mtIntersect_mask_spec (tri : Tri Vec3) (ray : Ray)
    (h : (mtIntersect tri ray).mask = true) :
    ∃ u v t : ℚ, (mtIntersect tri ray).u = .fin u ∧
      (mtIntersect tri ray).v = .fin v ∧ (mtIntersect tri ray).t = .fin t ∧
      0 ≤ u ∧ 0 ≤ v ∧ u + v ≤ 1 ∧
      ray.pointAt t = baryPoint u v tri := by
  unfold mtIntersect at h ⊢
  dsimp only at h ⊢
  by_cases hdet : (tri.p1.sub tri.p0).dot (ray.direction.cross (tri.p2.sub tri.p0)) = 0
  · exfalso
    have hrec : FloatV.recipFin
        ((tri.p1.sub tri.p0).dot (ray.direction.cross (tri.p2.sub tri.p0))) = .inf true := by
      rw [hdet]
      simp [FloatV.recipFin]
    rw [hrec] at h
    set du := (ray.origin.sub tri.p0).dot (ray.direction.cross (tri.p2.sub tri.p0)) with hdu
    set dv := ray.direction.dot ((ray.origin.sub tri.p0).cross (tri.p1.sub tri.p0)) with hdv
    rcases lt_trichotomy du 0 with hdu0 | hdu0 | hdu0
    · have hmu : FloatV.mul (.inf true) (.fin du) = .inf false := by
        simp [FloatV.mul, hdu0.ne, hdu0.not_lt]
      rw [hmu] at h
      simp [FloatV.leB] at h
    · rw [hdu0] at h
      simp [FloatV.mul, FloatV.leB] at h
    · have hmu : FloatV.mul (.inf true) (.fin du) = .inf true := by
        simp [FloatV.mul, hdu0.ne.symm, hdu0]
      rw [hmu] at h
      rcases lt_trichotomy dv 0 with hdv0 | hdv0 | hdv0
      · have hmv : FloatV.mul (.inf true) (.fin dv) = .inf false := by
          simp [FloatV.mul, hdv0.ne, hdv0.not_lt]
        rw [hmv] at h
        simp [FloatV.leB] at h
      · rw [hdv0] at h
        simp [FloatV.mul, FloatV.leB] at h
      · have hmv : FloatV.mul (.inf true) (.fin dv) = .inf true := by
          simp [FloatV.mul, hdv0.ne.symm, hdv0]
        rw [hmv] at h
        simp [FloatV.add, FloatV.leB] at h
  · have hrec : FloatV.recipFin
        ((tri.p1.sub tri.p0).dot (ray.direction.cross (tri.p2.sub tri.p0))) =
        .fin ((tri.p1.sub tri.p0).dot (ray.direction.cross (tri.p2.sub tri.p0)))⁻¹ := by
      simp [FloatV.recipFin, hdet]
    rw [hrec] at h ⊢
    simp only [FloatV.mul, FloatV.add] at h ⊢
    simp only [Bool.and_eq_true, FloatV.leB_fin_fin, decide_eq_true_eq] at h
    obtain ⟨⟨hu0, hv0⟩, huv⟩ := h
    exact ⟨_, _, _, rfl, rfl, rfl, hu0, hv0, huv, mt_cramer tri ray hdet⟩

/-- Per-axis slab bound: if the hit coordinate at parameter `t` lies inside
the axis slab `[m, M]`, the blended near distance is `<= t` and the blended
far distance is `>= t` (with the source's `+inf` inverse for a zero
direction component and the NaN blends). -/
lemma slabAxis_bounds (m M o d t : ℚ) (hm : m ≤ o + t * d) (hM : o + t * d ≤ M) :
    FloatV.leB
      (FloatV.fastMin
        (nanBlend (mulQF (m - o) (if d = 0 then .inf true else .fin d⁻¹)) (.inf false))
        (nanBlend (mulQF (M - o) (if d = 0 then .inf true else .fin d⁻¹)) (.inf true)))
      (.fin t) = true ∧
    FloatV.leB (.fin t)
      (FloatV.fastMax
        (nanBlend (mulQF (m - o) (if d = 0 then .inf true else .fin d⁻¹)) (.inf false))
        (nanBlend (mulQF (M - o) (if d = 0 then .inf true else .fin d⁻¹)) (.inf true))) =
      true := by
  by_cases hd : d = 0
  · subst hd
    rw [mul_zero, add_zero] at hm hM
    have h1 : nanBlend (mulQF (m - o) (.inf true)) (.inf false) = .inf false := by
      rcases lt_or_eq_of_le (sub_nonpos.mpr hm) with h | h
      · simp [mulQF, FloatV.mul, nanBlend, FloatV.isNan, h.ne, h.not_lt]
      · simp [mulQF, FloatV.mul, nanBlend, FloatV.isNan, h]
    have h2 : nanBlend (mulQF (M - o) (.inf true)) (.inf true) = .inf true := by
      rcases lt_or_eq_of_le (sub_nonneg.mpr hM) with h | h
      · simp [mulQF, FloatV.mul, nanBlend, FloatV.isNan, h.ne.symm, h]
      · simp [mulQF, FloatV.mul, nanBlend, FloatV.isNan, ← h]
    rw [if_pos rfl, h1, h2]
    exact ⟨by simp [FloatV.fastMin, FloatV.leB], by simp [FloatV.fastMax, FloatV.leB]⟩
  · rw [if_neg hd]
    have hinv : d * d⁻¹ = 1 := mul_inv_cancel₀ hd
    have h1 : nanBlend (mulQF (m - o) (.fin d⁻¹)) (.inf false) = .fin ((m - o) * d⁻¹) := by
      simp [mulQF, FloatV.mul, nanBlend, FloatV.isNan]
    have h2 : nanBlend (mulQF (M - o) (.fin d⁻¹)) (.inf true) = .fin ((M - o) * d⁻¹) := by
      simp [mulQF, FloatV.mul, nanBlend, FloatV.isNan]
    rw [h1, h2]
    rcases lt_or_gt_of_ne hd with hneg | hpos
    · have hq2 : (M - o) * d⁻¹ ≤ t := by
        rw [← div_eq_mul_inv, div_le_iff_of_neg hneg]
        linarith
      have hq1 : t ≤ (m - o) * d⁻¹ := by
        rw [← div_eq_mul_inv, le_div_iff_of_neg hneg]
        linarith
      constructor
      · simp only [FloatV.fastMin]
        split_ifs with h
        · rw [FloatV.leB_fin_fin] at h ⊢
          linarith
        · rw [FloatV.leB_fin_fin]
          linarith
      · simp only [FloatV.fastMax]
        split_ifs with h
        · rw [FloatV.leB_fin_fin]
          linarith
        · rw [FloatV.leB_fin_fin] at h ⊢
          push_neg at h
          linarith
    · have hq1 : (m - o) * d⁻¹ ≤ t := by
        rw [← div_eq_mul_inv, div_le_iff₀ hpos]
        linarith
      have hq2 : t ≤ (M - o) * d⁻¹ := by
        rw [← div_eq_mul_inv, le_div_iff₀ hpos]
        linarith
      constructor
      · simp only [FloatV.fastMin]
        split_ifs with h
        · rw [FloatV.leB_fin_fin]
          linarith
        · rw [FloatV.leB_fin_fin] at h ⊢
          push_neg at h
          linarith
      · simp only [FloatV.fastMax]
        split_ifs with h
        · rw [FloatV.leB_fin_fin] at h ⊢
          linarith
        · rw [FloatV.leB_fin_fin]
          linarith

/-- Slab soundness: the slab interval of a box contains the ray parameter of
any contained point. -/
lemma slabIntersect_bounds (box : Aabb) (ray : Ray) (t : ℚ)
    (hp : box.containsPoint (ray.pointAt t)) :
    FloatV.leB (slabIntersect box ray).1 (.fin t) = true ∧
      FloatV.leB (.fin t) (slabIntersect box ray).2 = true := by
  obtain ⟨hlo, hhi⟩ := hp
  simp only [Ray.pointAt, Vec3.add, Vec3.smul] at hlo hhi
  obtain ⟨hm1, hm2, hm3⟩ := hlo
  obtain ⟨hM1, hM2, hM3⟩ := hhi
  have hx := slabAxis_bounds box.min.x box.max.x ray.origin.x ray.direction.x t hm1 hM1
  have hy := slabAxis_bounds box.min.y box.max.y ray.origin.y ray.direction.y t hm2 hM2
  have hz := slabAxis_bounds box.min.z box.max.z ray.origin.z ray.direction.z t hm3 hM3
  unfold slabIntersect Ray.invDirection
  dsimp only
  exact ⟨FloatV.fastMax_leB hx.1 (FloatV.fastMax_leB hy.1 hz.1),
    FloatV.leB_fastMin hx.2 (FloatV.leB_fastMin hy.2 hz.2)⟩

/-- A barycentric combination of three points of a box stays in the box. -/
lemma baryPoint_in_box {box : Aabb} {tri : Tri Vec3}
    (h0 : box.containsPoint tri.p0) (h1 : box.containsPoint tri.p1)
    (h2 : box.containsPoint tri.p2) {u v : ℚ} (hu : 0 ≤ u) (hv : 0 ≤ v)
    (huv : u + v ≤ 1) : box.containsPoint (baryPoint u v tri) := by
  obtain ⟨h0a, h0b⟩ := h0
  obtain ⟨h1a, h1b⟩ := h1
  obtain ⟨h2a, h2b⟩ := h2
  unfold baryPoint Vec3.smul Vec3.add
  constructor
  · refine ⟨?_, ?_, ?_⟩ <;>
    · simp only []
      nlinarith [h0a.1, h0a.2.1, h0a.2.2, h1a.1, h1a.2.1, h1a.2.2,
        h2a.1, h2a.2.1, h2a.2.2]
  · refine ⟨?_, ?_, ?_⟩ <;>
    · simp only []
      nlinarith [h0b.1, h0b.2.1, h0b.2.2, h1b.1, h1b.2.1, h1b.2.2,
        h2b.1, h2b.2.1, h2b.2.2]

/-- The box described by a sized box. -/
def AabbSized.toBox (E : AabbSized) : Aabb := ⟨E.min, E.min.add E.size⟩

lemma AabbSized.toBox_toSized (E : AabbSized) : E.toBox.toSized = E := by
  obtain ⟨⟨mx, my, mz⟩, ⟨sx, sy, sz⟩⟩ := E
  simp only [AabbSized.toBox, Aabb.toSized, Vec3.add, Vec3.sub, AabbSized.mk.injEq,
    Vec3.mk.injEq]
  refine ⟨trivial, by ring, by ring, by ring⟩

lemma Aabb.toSized_toBox (box : Aabb) : box.toSized.toBox = box := by
  obtain ⟨⟨ax, ay, az⟩, ⟨bx, by', bz⟩⟩ := box
  simp only [AabbSized.toBox, Aabb.toSized, Vec3.add, Vec3.sub, Aabb.mk.injEq, Vec3.mk.injEq]
  refine ⟨trivial, by ring, by ring, by ring⟩

/-- 16-bit-representable quantized coordinates: what `compress` produces and
what the stored `u16` lanes guarantee. -/
def RelativePoint.Bounded (rp : RelativePoint) : Prop :=
  rp.x ≤ 65535 ∧ rp.y ≤ 65535 ∧ rp.z ≤ 65535

/-- A stored child box has ordered corners. -/
def RelativeBox.Mono (rb : RelativeBox) : Prop :=
  rb.min.x ≤ rb.max.x ∧ rb.min.y ≤ rb.max.y ∧ rb.min.z ≤ rb.max.z

/-- Well-formedness of the stored BVH data the traversal relies on: all
quantized coordinates fit `u16`, stored child boxes have ordered corners, and
the triangle arena is small enough that a packed triangle index never
collides with the `usize::MAX` no-hit sentinel. -/
def BvhBounded (bvh : TriangleBvh) : Prop :=
  (∀ pack ∈ bvh.triangleGeometry, ∀ lane : Fin 8,
    (pack lane).p0.Bounded ∧ (pack lane).p1.Bounded ∧ (pack lane).p2.Bounded) ∧
  (∀ node ∈ bvh.innerNodes, ∀ i : Fin 8,
    (node.childBounds i).min.Bounded ∧ (node.childBounds i).max.Bounded ∧
    (node.childBounds i).Mono) ∧
  8 * bvh.triangleGeometry.length < triangleIdxSentinel

lemma bounded_pack_getD {bvh : TriangleBvh} (hB : BvhBounded bvh) (j : ℕ)
    (lane : Fin 8) :
    (bvh.triangleGeometry.getD j defaultPack lane).p0.Bounded ∧
      (bvh.triangleGeometry.getD j defaultPack lane).p1.Bounded ∧
      (bvh.triangleGeometry.getD j defaultPack lane).p2.Bounded := by
  by_cases hj : j < bvh.triangleGeometry.length
  · rw [List.getD_eq_getElem _ _ hj]
    exact hB.1 _ (List.getElem_mem _) lane
  · rw [List.getD_eq_default _ _ (by omega)]
    exact ⟨⟨by norm_num [defaultPack], by norm_num [defaultPack], by norm_num [defaultPack]⟩,
      ⟨by norm_num [defaultPack], by norm_num [defaultPack], by norm_num [defaultPack]⟩,
      ⟨by norm_num [defaultPack], by norm_num [defaultPack], by norm_num [defaultPack]⟩⟩

lemma bounded_node_getD {bvh : TriangleBvh} (hB : BvhBounded bvh) (idx : ℕ)
    (i : Fin 8) :
    ((bvh.innerNodes.getD idx default).childBounds i).min.Bounded ∧
      ((bvh.innerNodes.getD idx default).childBounds i).max.Bounded ∧
      ((bvh.innerNodes.getD idx default).childBounds i).Mono := by
  by_cases hj : idx < bvh.innerNodes.length
  · rw [List.getD_eq_getElem _ _ hj]
    exact hB.2.1 _ (List.getElem_mem _) i
  · rw [List.getD_eq_default _ _ (by omega)]
    refine ⟨⟨?_, ?_, ?_⟩, ⟨?_, ?_, ?_⟩, ?_, ?_, ?_⟩ <;>
      norm_num [default, Inhabited.default]

/-- The candidate hits of a (sub)tree: the lanes whose Möller-Trumbore test
on the geometry decompressed in the traversal's nested frames accepts the
ray with `t >= 0`.  The claim's "the ray intersects a (decompressed)
triangle of the BVH at `t`" is this predicate at the root. -/
inductive RayCand (bvh : TriangleBvh) (ray : Ray) : NodeLink → AabbSized → ℚ → Prop
  | leaf (first last : ℕ) (E : AabbSized) (j : ℕ) (lane : Fin 8) (t : ℚ)
      (hj1 : first ≤ j) (hj2 : j < last)
      (hmask : (mtIntersect ((bvh.triangleGeometry.getD j defaultPack lane).decompress E)
        ray).mask = true)
      (ht : (mtIntersect ((bvh.triangleGeometry.getD j defaultPack lane).decompress E)
        ray).t = .fin t)
      (ht0 : 0 ≤ t) :
      RayCand bvh ray (NodeLink.leaf first last) E t
  | inner (index : ℕ) (E : AabbSized) (i : Fin 8) (t : ℚ)
      (hne : (bvh.innerNodes.getD index default).childLinks i ≠ NodeLink.null)
      (hsub : RayCand bvh ray ((bvh.innerNodes.getD index default).childLinks i)
        (((bvh.innerNodes.getD index default).childBounds i).decompress E).toSized t) :
      RayCand bvh ray (NodeLink.inner index) E t

lemma decompress_coord_in_sized (m s : ℚ) (hs : 0 ≤ s) (u : ℕ) (hu : u ≤ 65535) :
    m ≤ s * decompressUnitInterval u + m ∧ s * decompressUnitInterval u + m ≤ m + s := by
  unfold decompressUnitInterval
  have h0 : (0 : ℚ) ≤ (u : ℚ) * (1 / 65535) := by positivity
  have h1 : (u : ℚ) * (1 / 65535) ≤ 1 := by
    rw [mul_one_div, div_le_one (by norm_num : (0 : ℚ) < 65535)]
    exact_mod_cast hu
  constructor
  · nlinarith
  · nlinarith

/-- A bounded quantized point decompressed in a nonnegatively sized frame
lies in the frame's box. -/
lemma decompress_in_sized (E : AabbSized) (hs : Vec3.zero.le E.size)
    (rp : RelativePoint) (hb : rp.Bounded) :
    E.toBox.containsPoint (rp.decompress E) := by
  obtain ⟨hsx, hsy, hsz⟩ := hs
  obtain ⟨hbx, hby, hbz⟩ := hb
  have hx := decompress_coord_in_sized E.min.x E.size.x (by simpa [Vec3.zero] using hsx) rp.x hbx
  have hy := decompress_coord_in_sized E.min.y E.size.y (by simpa [Vec3.zero] using hsy) rp.y hby
  have hz := decompress_coord_in_sized E.min.z E.size.z (by simpa [Vec3.zero] using hsz) rp.z hbz
  unfold RelativePoint.decompress AabbSized.toBox Aabb.containsPoint Vec3.le Vec3.add
  exact ⟨⟨hx.1, hy.1, hz.1⟩, ⟨hx.2, hy.2, hz.2⟩⟩

/-- Decompressing an ordered quantized box in a nonnegatively sized frame
gives ordered corners. -/
lemma decompress_box_mono (E : AabbSized) (hs : Vec3.zero.le E.size)
    (rb : RelativeBox) (hm : rb.Mono) :
    (rb.decompress E).min.le (rb.decompress E).max := by
  obtain ⟨hsx, hsy, hsz⟩ := hs
  obtain ⟨hmx, hmy, hmz⟩ := hm
  unfold RelativeBox.decompress RelativePoint.decompress Vec3.le
  refine ⟨?_, ?_, ?_⟩ <;>
  · simp only []
    have : (0 : ℚ) ≤ 1 / 65535 := by norm_num
    unfold decompressUnitInterval
    first
    | nlinarith [mul_le_mul_of_nonneg_left
        (mul_le_mul_of_nonneg_right (show ((rb.min.x : ℚ)) ≤ (rb.max.x : ℚ) by
          exact_mod_cast hmx) this) (by simpa [Vec3.zero] using hsx)]
    | nlinarith [mul_le_mul_of_nonneg_left
        (mul_le_mul_of_nonneg_right (show ((rb.min.y : ℚ)) ≤ (rb.max.y : ℚ) by
          exact_mod_cast hmy) this) (by simpa [Vec3.zero] using hsy)]
    | nlinarith [mul_le_mul_of_nonneg_left
        (mul_le_mul_of_nonneg_right (show ((rb.min.z : ℚ)) ≤ (rb.max.z : ℚ) by
          exact_mod_cast hmz) this) (by simpa [Vec3.zero] using hsz)]

/-- The hit point of any candidate of a subtree lies inside the subtree's
frame box. -/
lemma rayCand_point_in_frame {bvh : TriangleBvh} {ray : Ray} (hB : BvhBounded bvh) :
    ∀ {link : NodeLink} {E : AabbSized} {t : ℚ}, RayCand bvh ray link E t →
      Vec3.zero.le E.size → E.toBox.containsPoint (ray.pointAt t) := by
  intro link E t hc
  induction hc with
  | leaf first last E j lane t hj1 hj2 hmask ht ht0 =>
    intro hE
    obtain ⟨u, v, t', hu, hv, ht', hu0, hv0, huv, hpt⟩ := mtIntersect_mask_spec _ _ hmask
    rw [ht] at ht'
    cases ht'
    rw [hpt]
    have hbp := bounded_pack_getD hB j lane
    have h0 := decompress_in_sized E hE _ hbp.1
    have h1 := decompress_in_sized E hE _ hbp.2.1
    have h2 := decompress_in_sized E hE _ hbp.2.2
    exact baryPoint_in_box h0 h1 h2 hu0 hv0 huv
  | inner index E i t hne hsub ih =>
    intro hE
    have hbn := bounded_node_getD hB index i
    set childBox := ((bvh.innerNodes.getD index default).childBounds i).decompress E with hcb
    have hmono : childBox.min.le childBox.max := decompress_box_mono E hE _ hbn.2.2
    have hsize : Vec3.zero.le childBox.toSized.size := by
      obtain ⟨h1, h2, h3⟩ := hmono
      exact ⟨by simpa [Aabb.toSized, Vec3.sub, Vec3.zero] using sub_nonneg.mpr h1,
        by simpa [Aabb.toSized, Vec3.sub, Vec3.zero] using sub_nonneg.mpr h2,
        by simpa [Aabb.toSized, Vec3.sub, Vec3.zero] using sub_nonneg.mpr h3⟩
    have hpt := ih hsize
    rw [Aabb.toSized_toBox] at hpt
    have hminIn : E.toBox.containsPoint childBox.min :=
      decompress_in_sized E hE _ hbn.1
    have hmaxIn : E.toBox.containsPoint childBox.max :=
      decompress_in_sized E hE _ hbn.2.1
    exact ⟨Vec3.le_trans hminIn.1 hpt.1, Vec3.le_trans hpt.2 hmaxIn.2⟩

/-- Soundness and completeness of a lane of `intersect_inner`: the clamped
entry distance bounds every candidate parameter of the lane's subtree from
below, and a candidate within the pruning budget forces the lane mask. -/
lemma innerLane_spec (node : InnerNodeE) (ray : Ray) (E : AabbSized)
    (maxT : FloatV) (i : Fin 8) (t : ℚ)
    (hp : ((node.childBounds i).decompress E).containsPoint (ray.pointAt t))
    (ht0 : 0 ≤ t) :
    FloatV.leB (innerLane node ray E maxT i).1 (.fin t) = true ∧
      (FloatV.leB (.fin t) maxT = true → (innerLane node ray E maxT i).2.2 = true) := by
  have hs := slabIntersect_bounds ((node.childBounds i).decompress E) ray t hp
  unfold innerLane
  dsimp only
  have hlo : FloatV.leB
      (FloatV.fastMax (slabIntersect ((node.childBounds i).decompress E) ray).1 (.fin 0))
      (.fin t) = true :=
    FloatV.fastMax_leB hs.1 (by rw [FloatV.leB_fin_fin]; exact ht0)
  refine ⟨hlo, fun hmax => ?_⟩
  have hhi : FloatV.leB (.fin t)
      (FloatV.fastMin (slabIntersect ((node.childBounds i).decompress E) ray).2 maxT) =
      true :=
    FloatV.leB_fastMin hs.2 hmax
  exact FloatV.leB_trans_fin hlo hhi

namespace FloatV

lemma ltB_to_leB {a b : FloatV} (h : ltB a b = true) : leB a b = true := by
  cases a <;> cases b <;> simp_all [ltB, leB] <;> linarith

lemma ltB_trans {a b c : FloatV} (h1 : ltB a b = true) (h2 : ltB b c = true) :
    ltB a c = true := by
  cases a <;> cases b <;> cases c <;> simp_all [ltB] <;> linarith

lemma leB_trans {a b c : FloatV} (h1 : leB a b = true) (h2 : leB b c = true) :
    leB a c = true := by
  cases a <;> cases b <;> cases c <;> simp_all [leB] <;>
    first
    | linarith
    | (rcases h1 with h1 | h1 <;> rcases h2 with h2 | h2 <;> simp_all)

lemma fin_leB_of_not_ltB {a : FloatV} {q : ℚ} (hn : a.isNan = false)
    (h : ltB a (.fin q) = false) : leB (.fin q) a = true := by
  cases a <;> simp_all [ltB, leB, isNan] <;> linarith

lemma ltB_leB_trans {a b c : FloatV} (h1 : ltB a b = true) (h2 : leB b c = true) :
    leB a c = true := by
  cases a <;> cases b <;> cases c <;> simp_all [ltB, leB] <;> linarith

lemma leB_of_not_ltB {a : FloatV} {q : ℚ} (hn : a.isNan = false)
    (h : ltB (.fin q) a = false) : leB a (.fin q) = true := by
  cases a <;> simp_all [ltB, leB, isNan] <;> linarith

lemma leB_refl {a : FloatV} (hn : a.isNan = false) : leB a a = true := by
  cases a <;> simp_all [leB, isNan]

end FloatV

/-- The Möller-Trumbore result of pair `(pack, lane)` of a leaf, in frame
`E` (the body of `intersect_leaf`'s doubly-nested loop). -/
def leafRes (bvh : TriangleBvh) (E : AabbSized) (ray : Ray) (p : ℕ × Fin 8) :
    MtResult :=
  mtIntersect ((bvh.triangleGeometry.getD p.1 defaultPack p.2).decompress E) ray

/-- The `mask & t >= 0 & t <= max_t` acceptance bit of a leaf pair. -/
def leafValidB (bvh : TriangleBvh) (E : AabbSized) (ray : Ray) (maxT : FloatV)
    (p : ℕ × Fin 8) : Bool :=
  (leafRes bvh E ray p).mask && FloatV.leB (.fin 0) (leafRes bvh E ray p).t &&
    FloatV.leB (leafRes bvh E ray p).t maxT

/-- `leafLaneStep` in terms of `leafRes`/`leafValidB`. -/
lemma leafLaneStep_eq (bvh : TriangleBvh) (E : AabbSized) (ray : Ray)
    (maxT : FloatV) (j : ℕ) (b : LeafHit) (i : Fin 8) :
    leafLaneStep bvh E ray maxT j b i =
      if leafValidB bvh E ray maxT (j, i) &&
          FloatV.ltB (leafRes bvh E ray (j, i)).t b.t then
        ⟨(leafRes bvh E ray (j, i)).t, (leafRes bvh E ray (j, i)).u,
          (leafRes bvh E ray (j, i)).v,
          (((bvh.triangleGeometry.getD j defaultPack i).decompress E).p1.sub
              ((bvh.triangleGeometry.getD j defaultPack i).decompress E).p0).cross
            (((bvh.triangleGeometry.getD j defaultPack i).decompress E).p2.sub
              ((bvh.triangleGeometry.getD j defaultPack i).decompress E).p0),
          j * 8 + i.val⟩
      else b := rfl

/-- The hit shape a leaf fold can return: the record of an accepted pair. -/
def LeafHitOf (bvh : TriangleBvh) (E : AabbSized) (ray : Ray) (maxT : FloatV)
    (p : ℕ × Fin 8) (r : LeafHit) : Prop :=
  leafValidB bvh E ray maxT p = true ∧ r.t = (leafRes bvh E ray p).t ∧
    r.u = (leafRes bvh E ray p).u ∧ r.v = (leafRes bvh E ray p).v ∧
    r.triangleIndex = p.1 * 8 + p.2.val

/-- Invariant of the flattened leaf fold: the result is the seed or the
record of an accepted pair strictly below the seed, it is never NaN, and it
is at most every accepted pair's distance. -/
lemma leafFold_spec (bvh : TriangleBvh) (E : AabbSized) (ray : Ray)
    (maxT : FloatV) :
    ∀ (pairs : List (ℕ × Fin 8)) (b0 : LeafHit), b0.t.isNan = false →
      (pairs.foldl (fun b p => leafLaneStep bvh E ray maxT p.1 b p.2) b0).t.isNan =
        false ∧
      ((pairs.foldl (fun b p => leafLaneStep bvh E ray maxT p.1 b p.2) b0) = b0 ∨
        (FloatV.ltB (pairs.foldl (fun b p => leafLaneStep bvh E ray maxT p.1 b p.2)
            b0).t b0.t = true ∧
          ∃ p ∈ pairs, LeafHitOf bvh E ray maxT p
            (pairs.foldl (fun b p => leafLaneStep bvh E ray maxT p.1 b p.2) b0))) ∧
      (∀ p ∈ pairs, ∀ q : ℚ, leafValidB bvh E ray maxT p = true →
        (leafRes bvh E ray p).t = .fin q →
        FloatV.leB (pairs.foldl (fun b p => leafLaneStep bvh E ray maxT p.1 b p.2)
          b0).t (.fin q) = true) := by
  intro pairs
  induction pairs with
  | nil =>
    intro b0 hb0
    refine ⟨hb0, Or.inl rfl, ?_⟩
    intro p hp
    cases hp
  | cons p ps ih =>
    intro b0 hb0
    rw [List.foldl_cons]
    by_cases hstep : (leafValidB bvh E ray maxT p &&
        FloatV.ltB (leafRes bvh E ray (p.1, p.2)).t b0.t) = true
    · have hb1 : leafLaneStep bvh E ray maxT p.1 b0 p.2 =
          ⟨(leafRes bvh E ray (p.1, p.2)).t, (leafRes bvh E ray (p.1, p.2)).u,
            (leafRes bvh E ray (p.1, p.2)).v,
            (((bvh.triangleGeometry.getD p.1 defaultPack p.2).decompress E).p1.sub
                ((bvh.triangleGeometry.getD p.1 defaultPack p.2).decompress E).p0).cross
              (((bvh.triangleGeometry.getD p.1 defaultPack p.2).decompress E).p2.sub
                ((bvh.triangleGeometry.getD p.1 defaultPack p.2).decompress E).p0),
            p.1 * 8 + p.2.val⟩ := by
        rw [leafLaneStep_eq, if_pos hstep]
      rw [Bool.and_eq_true] at hstep
      obtain ⟨hvalid, hlt⟩ := hstep
      have htfin : ∃ q : ℚ, (leafRes bvh E ray (p.1, p.2)).t = .fin q := by
        unfold leafValidB at hvalid
        simp only [Bool.and_eq_true] at hvalid
        obtain ⟨u, v, t', -, -, ht', -, -, -, -⟩ :=
          mtIntersect_mask_spec _ _ hvalid.1.1
        exact ⟨t', ht'⟩
      obtain ⟨q0, hq0⟩ := htfin
      have hb1nan : (leafLaneStep bvh E ray maxT p.1 b0 p.2).t.isNan = false := by
        rw [hb1]
        simp only [hq0, FloatV.isNan]
      obtain ⟨hnan, hshape, hmin⟩ :=
        ih (leafLaneStep bvh E ray maxT p.1 b0 p.2) hb1nan
      refine ⟨hnan, ?_, ?_⟩
      · rcases hshape with heq | ⟨hlt2, pp, hpp, hhit⟩
        · right
          rw [heq, hb1]
          refine ⟨by simpa [hb1] using hlt, p, List.mem_cons_self _ _, hvalid, rfl, rfl, rfl, rfl⟩
        · right
          refine ⟨?_, pp, List.mem_cons_of_mem _ hpp, hhit⟩
          have hb1t : (leafLaneStep bvh E ray maxT p.1 b0 p.2).t =
              (leafRes bvh E ray (p.1, p.2)).t := by rw [hb1]
          rw [hb1t] at hlt2
          exact FloatV.ltB_trans hlt2 hlt
      · intro pp hpp q hv hq
        rcases List.mem_cons.mp hpp with rfl | hmem
        · have hqq : q0 = q := by
            have hq' : (leafRes bvh E ray (pp.1, pp.2)).t = .fin q := hq
            rw [hq0] at hq'
            exact FloatV.fin.inj hq'
          subst hqq
          rcases hshape with heq | ⟨hlt2, _, _, _⟩
          · rw [heq, hb1]
            simp [hq0, FloatV.leB]
          · have hb1t : (leafLaneStep bvh E ray maxT pp.1 b0 pp.2).t = .fin q0 := by
              rw [hb1, hq0]
            rw [hb1t] at hlt2
            exact FloatV.ltB_to_leB hlt2
        · exact hmin pp hmem q hv hq
    · have hb1 : leafLaneStep bvh E ray maxT p.1 b0 p.2 = b0 := by
        rw [leafLaneStep_eq, if_neg (by simpa using hstep)]
      rw [hb1]
      obtain ⟨hnan, hshape, hmin⟩ := ih b0 hb0
      refine ⟨hnan, ?_, ?_⟩
      · rcases hshape with heq | ⟨hlt2, pp, hpp, hhit⟩
        · exact Or.inl heq
        · exact Or.inr ⟨hlt2, pp, List.mem_cons_of_mem _ hpp, hhit⟩
      · intro pp hpp q hv hq
        rcases List.mem_cons.mp hpp with rfl | hmem
        · rw [Bool.and_eq_true] at hstep
          push_neg at hstep
          have hlt : FloatV.ltB (leafRes bvh E ray (pp.1, pp.2)).t b0.t = false := by
            rcases Bool.eq_false_or_eq_true
              (FloatV.ltB (leafRes bvh E ray (pp.1, pp.2)).t b0.t) with ht | hf
            · exact absurd ht (hstep hv)
            · exact hf
          rw [hq] at hlt
          have hle := FloatV.leB_of_not_ltB hb0 hlt
          rcases hshape with heq | ⟨hlt2, _, _, _⟩
          · rw [heq]
            exact hle
          · exact FloatV.ltB_leB_trans hlt2 hle
        · exact hmin pp hmem q hv hq

/-- The `(pack, lane)` pairs `intersect_leaf` scans, in scan order. -/
def leafPairs (first last : ℕ) : List (ℕ × Fin 8) :=
  (List.range' first (last - first)).flatMap
    (fun j => (List.finRange 8).map (fun i => (j, i)))

lemma foldl_flatMap_pairs (bvh : TriangleBvh) (E : AabbSized) (ray : Ray)
    (maxT : FloatV) :
    ∀ (l : List ℕ) (b : LeafHit),
      ((l.flatMap (fun j => (List.finRange 8).map (fun i => ((j, i) : ℕ × Fin 8)))).foldl
        (fun b p => leafLaneStep bvh E ray maxT p.1 b p.2) b) =
      l.foldl (fun best j => (List.finRange 8).foldl (leafLaneStep bvh E ray maxT j) best)
        b := by
  intro l
  induction l with
  | nil => intro b; rfl
  | cons j js ih =>
    intro b
    rw [List.flatMap_cons, List.foldl_append, List.foldl_map, ih]
    rfl

lemma intersectLeaf_eq_fold (bvh : TriangleBvh) (first last : ℕ) (E : AabbSized)
    (ray : Ray) (maxT : FloatV) :
    intersectLeaf bvh first last E ray maxT =
      (leafPairs first last).foldl (fun b p => leafLaneStep bvh E ray maxT p.1 b p.2)
        (LeafHit.start (.inf true)) := by
  unfold intersectLeaf leafPairs
  rw [foldl_flatMap_pairs]

lemma leafPairs_mem {first last : ℕ} {p : ℕ × Fin 8} :
    p ∈ leafPairs first last ↔ first ≤ p.1 ∧ p.1 < last := by
  unfold leafPairs
  simp only [List.mem_flatMap, List.mem_map, List.mem_range'_1]
  constructor
  · rintro ⟨j, ⟨hj1, hj2⟩, i, -, rfl⟩
    exact ⟨hj1, by omega⟩
  · rintro ⟨h1, h2⟩
    exact ⟨p.1, ⟨h1, by omega⟩, p.2, List.mem_finRange _, rfl⟩

/-- What `intersect_leaf` guarantees: a NaN-free result that is either the
untouched seed (no accepted lane) or the record of a candidate of the leaf
within the pruning budget, and that is at most every candidate of the leaf
within the budget. -/
lemma intersectLeaf_spec (bvh : TriangleBvh) (first last : ℕ) (E : AabbSized)
    (ray : Ray) (maxT : FloatV) :
    ((intersectLeaf bvh first last E ray maxT).t.isNan = false) ∧
    ((intersectLeaf bvh first last E ray maxT) = LeafHit.start (.inf true) ∨
      ∃ (q : ℚ) (j : ℕ) (lane : Fin 8), first ≤ j ∧ j < last ∧
        (intersectLeaf bvh first last E ray maxT).t = .fin q ∧
        (intersectLeaf bvh first last E ray maxT).triangleIndex = j * 8 + lane.val ∧
        RayCand bvh ray (NodeLink.leaf first last) E q ∧
        FloatV.leB (.fin q) maxT = true) ∧
    (∀ q : ℚ, RayCand bvh ray (NodeLink.leaf first last) E q →
      FloatV.leB (.fin q) maxT = true →
      FloatV.leB (intersectLeaf bvh first last E ray maxT).t (.fin q) = true) := by
  rw [intersectLeaf_eq_fold]
  obtain ⟨hnan, hshape, hmin⟩ := leafFold_spec bvh E ray maxT (leafPairs first last)
    (LeafHit.start (.inf true)) (by simp [LeafHit.start, FloatV.isNan])
  refine ⟨hnan, ?_, ?_⟩
  · rcases hshape with heq | ⟨-, p, hp, hvalid, ht, hu, hv, hidx⟩
    · exact Or.inl heq
    · right
      have hmemb := leafPairs_mem.mp hp
      unfold leafValidB at hvalid
      simp only [Bool.and_eq_true] at hvalid
      obtain ⟨⟨hmask, ht0⟩, htmax⟩ := hvalid
      obtain ⟨u', v', t', -, -, ht', -, -, -, -⟩ := mtIntersect_mask_spec _ _ hmask
      have ht'' : (leafRes bvh E ray p).t = .fin t' := ht'
      refine ⟨t', p.1, p.2, hmemb.1, hmemb.2, by rw [ht, ht''], hidx, ?_, ?_⟩
      · refine RayCand.leaf first last E p.1 p.2 t' hmemb.1 hmemb.2 hmask ht'' ?_
        rw [ht''] at ht0
        rw [FloatV.leB_fin_fin] at ht0
        exact ht0
      · rw [ht''] at htmax
        exact htmax
  · intro q hcand hqmax
    cases hcand with
    | leaf _ _ _ j lane t hj1 hj2 hmask ht ht0 =>
      have hvalid : leafValidB bvh E ray maxT (j, lane) = true := by
        unfold leafValidB
        have hres : (leafRes bvh E ray (j, lane)).t = .fin q := ht
        simp only [Bool.and_eq_true, hres]
        exact ⟨⟨hmask, by rw [FloatV.leB_fin_fin]; exact ht0⟩, hqmax⟩
      exact hmin (j, lane) (leafPairs_mem.mpr ⟨hj1, hj2⟩) q hvalid ht

/-- Structural link validity: reachable leaf ranges stay inside the triangle
arena (the source indexes `triangle_geometry[range]`, which panics
otherwise). -/
inductive LinkWf (bvh : TriangleBvh) : NodeLink → Prop
  | null : LinkWf bvh NodeLink.null
  | leaf (first last : ℕ) (h : last ≤ bvh.triangleGeometry.length) :
      LinkWf bvh (NodeLink.leaf first last)
  | inner (index : ℕ)
      (h : ∀ i : Fin 8, LinkWf bvh ((bvh.innerNodes.getD index default).childLinks i)) :
      LinkWf bvh (NodeLink.inner index)

/-- Nonnegative size of a decompressed child box's sized form. -/
lemma childBox_toSized_nonneg {bvh : TriangleBvh} (hB : BvhBounded bvh)
    (nodeIndex : ℕ) (i : Fin 8) {encBox : AabbSized}
    (hEnc : Vec3.zero.le encBox.size) :
    Vec3.zero.le ((((bvh.innerNodes.getD nodeIndex default).childBounds i).decompress
      encBox).toSized).size := by
  have hbn := bounded_node_getD hB nodeIndex i
  have hmono := decompress_box_mono encBox hEnc _ hbn.2.2
  obtain ⟨h1, h2, h3⟩ := hmono
  exact ⟨by simpa [Aabb.toSized, Vec3.sub, Vec3.zero] using sub_nonneg.mpr h1,
    by simpa [Aabb.toSized, Vec3.sub, Vec3.zero] using sub_nonneg.mpr h2,
    by simpa [Aabb.toSized, Vec3.sub, Vec3.zero] using sub_nonneg.mpr h3⟩

/-- A candidate of a lane subtree hits inside the lane's decompressed box. -/
lemma laneCand_point_in_box {bvh : TriangleBvh} {ray : Ray} (hB : BvhBounded bvh)
    (nodeIndex : ℕ) (i : Fin 8) {encBox : AabbSized}
    (hEnc : Vec3.zero.le encBox.size) {q : ℚ}
    (hc : RayCand bvh ray ((bvh.innerNodes.getD nodeIndex default).childLinks i)
      ((((bvh.innerNodes.getD nodeIndex default).childBounds i).decompress
        encBox).toSized) q) :
    (((bvh.innerNodes.getD nodeIndex default).childBounds i).decompress
      encBox).containsPoint (ray.pointAt q) := by
  have h := rayCand_point_in_frame hB hc (childBox_toSized_nonneg hB nodeIndex i hEnc)
  rwa [Aabb.toSized_toBox] at h

/-- Every candidate parameter is nonnegative. -/
lemma rayCand_nonneg {bvh : TriangleBvh} {ray : Ray} :
    ∀ {link : NodeLink} {E : AabbSized} {q : ℚ}, RayCand bvh ray link E q → 0 ≤ q := by
  intro link E q h
  induction h with
  | leaf _ _ _ _ _ _ _ _ _ _ ht0 => exact ht0
  | inner _ _ _ _ _ _ ih => exact ih

/-- One lane of the leaf-children part of a loop iteration of
`intersect_recursive`: scan the lane's leaf (if masked in) with the running
best as budget and keep the strictly better hit. -/
def innerLeafStep (bvh : TriangleBvh) (ray : Ray) (nodeIndex : ℕ)
    (encBox : AabbSized) (b0t : FloatV) (bb : LeafHit) (i : Fin 8) : LeafHit :=
  match (bvh.innerNodes.getD nodeIndex default).childLinks i with
  | NodeLink.leaf first last =>
    if (innerLane (bvh.innerNodes.getD nodeIndex default) ray encBox b0t i).2.2 then
      let hit := intersectLeaf bvh first last
        (innerLane (bvh.innerNodes.getD nodeIndex default) ray encBox b0t i).2.1
        ray bb.t
      if FloatV.ltB hit.t bb.t then hit else bb
    else bb
  | _ => bb

/-- Invariant of the per-node fold over the 8 lanes: from a finite running
best `b ≤ b0` (`b0` the pop-time best used for the lane masks), the fold
result is finite and not larger, is the untouched input or the record of a
candidate of the node with an in-arena packed index, and is at most every
candidate of every leaf lane of the node. -/
lemma innerLanesFold_spec (bvh : TriangleBvh) (ray : Ray) (hB : BvhBounded bvh)
    (nodeIndex : ℕ) (encBox : AabbSized) (hEnc : Vec3.zero.le encBox.size)
    (b0 : ℚ)
    (hwfn : ∀ i : Fin 8,
      LinkWf bvh ((bvh.innerNodes.getD nodeIndex default).childLinks i)) :
    ∀ (L : List (Fin 8)) (best : LeafHit) (b : ℚ),
      best.t = .fin b → b ≤ b0 →
      ∃ br : ℚ,
        (L.foldl (innerLeafStep bvh ray nodeIndex encBox (.fin b0)) best).t = .fin br ∧
        br ≤ b ∧
        ((L.foldl (innerLeafStep bvh ray nodeIndex encBox (.fin b0)) best) = best ∨
          ((L.foldl (innerLeafStep bvh ray nodeIndex encBox (.fin b0))
              best).triangleIndex < 8 * bvh.triangleGeometry.length ∧
            0 ≤ br ∧ RayCand bvh ray (NodeLink.inner nodeIndex) encBox br)) ∧
        (∀ i ∈ L, ∀ first last,
          (bvh.innerNodes.getD nodeIndex default).childLinks i =
            NodeLink.leaf first last →
          ∀ q : ℚ, RayCand bvh ray (NodeLink.leaf first last)
            ((((bvh.innerNodes.getD nodeIndex default).childBounds i).decompress
              encBox).toSized) q →
          br ≤ q) := by
  intro L
  induction L with
  | nil =>
    intro best b hbt hble
    refine ⟨b, hbt, le_rfl, Or.inl rfl, ?_⟩
    intro i hi
    cases hi
  | cons i L ih =>
    intro best b hbt hble
    rw [List.foldl_cons]
    cases hlink : (bvh.innerNodes.getD nodeIndex default).childLinks i with
    | null =>
      have hsame : innerLeafStep bvh ray nodeIndex encBox (.fin b0) best i = best := by
        unfold innerLeafStep
        rw [hlink]
      rw [hsame]
      obtain ⟨br, h1, h2, h3, h4⟩ := ih best b hbt hble
      refine ⟨br, h1, h2, h3, ?_⟩
      intro i' hi' first last hl q hq
      rcases List.mem_cons.mp hi' with rfl | hmem
      · rw [hlink] at hl
        cases hl
      · exact h4 i' hmem first last hl q hq
    | inner idx =>
      have hsame : innerLeafStep bvh ray nodeIndex encBox (.fin b0) best i = best := by
        unfold innerLeafStep
        rw [hlink]
      rw [hsame]
      obtain ⟨br, h1, h2, h3, h4⟩ := ih best b hbt hble
      refine ⟨br, h1, h2, h3, ?_⟩
      intro i' hi' first last hl q hq
      rcases List.mem_cons.mp hi' with rfl | hmem
      · rw [hlink] at hl
        cases hl
      · exact h4 i' hmem first last hl q hq
    | leaf first last =>
      by_cases hmask : (innerLane (bvh.innerNodes.getD nodeIndex default) ray encBox
          (.fin b0) i).2.2 = true
      · -- scanned lane
        obtain ⟨hLnan, hLshape, hLmin⟩ := intersectLeaf_spec bvh first last
          (innerLane (bvh.innerNodes.getD nodeIndex default) ray encBox
            (.fin b0) i).2.1 ray best.t
        have hstep : innerLeafStep bvh ray nodeIndex encBox (.fin b0) best i =
            (if FloatV.ltB (intersectLeaf bvh first last
                (innerLane (bvh.innerNodes.getD nodeIndex default) ray encBox
                  (.fin b0) i).2.1 ray best.t).t best.t then
              intersectLeaf bvh first last
                (innerLane (bvh.innerNodes.getD nodeIndex default) ray encBox
                  (.fin b0) i).2.1 ray best.t
            else best) := by
          unfold innerLeafStep
          rw [hlink]
          simp only [hmask, if_true]
        by_cases hupd : FloatV.ltB (intersectLeaf bvh first last
            (innerLane (bvh.innerNodes.getD nodeIndex default) ray encBox
              (.fin b0) i).2.1 ray best.t).t best.t = true
        · -- the leaf produced a strictly better hit
          rw [hstep, if_pos hupd]
          rcases hLshape with heq | ⟨q1, j, lane, hj1, hj2, hq1t, hq1idx, hq1cand, hq1max⟩
          · rw [heq] at hupd
            rw [hbt] at hupd
            simp [LeafHit.start, FloatV.ltB] at hupd
          · have hb1 : (intersectLeaf bvh first last
                (innerLane (bvh.innerNodes.getD nodeIndex default) ray encBox
                  (.fin b0) i).2.1 ray best.t).t = .fin q1 := hq1t
            have hq1b : q1 < b := by
              rw [hb1, hbt] at hupd
              rwa [FloatV.ltB_fin_fin] at hupd
            have hq10 : 0 ≤ q1 := rayCand_nonneg hq1cand
            obtain ⟨br, h1, h2, h3, h4⟩ := ih _ q1 hb1 (le_trans hq1b.le hble)
            have hcandInner : RayCand bvh ray (NodeLink.inner nodeIndex) encBox q1 := by
              refine RayCand.inner nodeIndex encBox i q1 (by rw [hlink]; simp) ?_
              rw [hlink]
              exact hq1cand
            refine ⟨br, h1, le_trans h2 hq1b.le, ?_, ?_⟩
            · rcases h3 with heq2 | ⟨hidx, hbr0, hcand⟩
              · right
                rw [heq2]
                have hidxlt : j * 8 + lane.val < 8 * bvh.triangleGeometry.length := by
                  have hwf := hwfn i
                  rw [hlink] at hwf
                  cases hwf with
                  | leaf _ _ harena =>
                    have hl8 := lane.isLt
                    omega
                have hbrq1 : br = q1 := by
                  rw [heq2] at h1
                  rw [hb1] at h1
                  exact (FloatV.fin.inj h1).symm
                rw [hq1idx]
                subst hbrq1
                exact ⟨hidxlt, hq10, hcandInner⟩
              · exact Or.inr ⟨hidx, hbr0, hcand⟩
            · intro i' hi' first' last' hl q hq
              rcases List.mem_cons.mp hi' with rfl | hmem
              · rw [hlink] at hl
                cases hl
                rcases le_or_lt q b with hqb | hqb
                · have hmin := hLmin q hq (by rw [hbt, FloatV.leB_fin_fin]; exact hqb)
                  rw [hb1, FloatV.leB_fin_fin] at hmin
                  linarith
                · linarith [le_trans h2 hq1b.le]
              · exact h4 i' hmem first' last' hl q hq
        · -- the leaf found nothing strictly better: state unchanged
          rw [hstep, if_neg (by simpa using hupd)]
          obtain ⟨br, h1, h2, h3, h4⟩ := ih best b hbt hble
          refine ⟨br, h1, h2, h3, ?_⟩
          intro i' hi' first' last' hl q hq
          rcases List.mem_cons.mp hi' with rfl | hmem
          · rw [hlink] at hl
            cases hl
            rcases le_or_lt q b with hqb | hqb
            · have hmin := hLmin q hq (by rw [hbt, FloatV.leB_fin_fin]; exact hqb)
              have hnotlt : FloatV.ltB (intersectLeaf bvh first last
                  (innerLane (bvh.innerNodes.getD nodeIndex default) ray encBox
                    (.fin b0) i').2.1 ray best.t).t best.t = false := by
                rcases Bool.eq_false_or_eq_true (FloatV.ltB (intersectLeaf bvh first last
                    (innerLane (bvh.innerNodes.getD nodeIndex default) ray encBox
                      (.fin b0) i').2.1 ray best.t).t best.t) with ht | hf
                · exact absurd ht hupd
                · exact hf
              have hble2 := FloatV.fin_leB_of_not_ltB hLnan
                (show FloatV.ltB _ (.fin b) = false by rw [← hbt]; exact hnotlt)
              have hbq := FloatV.leB_trans hble2 hmin
              rw [FloatV.leB_fin_fin] at hbq
              linarith
            · linarith
          · exact h4 i' hmem first' last' hl q hq
      · -- masked-out lane: any candidate is beyond the pop-time best
        have hsame : innerLeafStep bvh ray nodeIndex encBox (.fin b0) best i = best := by
          unfold innerLeafStep
          rw [hlink]
          simp only [Bool.not_eq_true] at hmask
          simp only [hmask, Bool.false_eq_true, if_false]
        rw [hsame]
        obtain ⟨br, h1, h2, h3, h4⟩ := ih best b hbt hble
        refine ⟨br, h1, h2, h3, ?_⟩
        intro i' hi' first' last' hl q hq
        rcases List.mem_cons.mp hi' with rfl | hmem
        · rw [hlink] at hl
          cases hl
          have hcand' : RayCand bvh ray
              ((bvh.innerNodes.getD nodeIndex default).childLinks i')
              ((((bvh.innerNodes.getD nodeIndex default).childBounds i').decompress
                encBox).toSized) q := by
            rw [hlink]
            exact hq
          have hpoint := laneCand_point_in_box hB nodeIndex i' hEnc hcand'
          have hq0 := rayCand_nonneg hq
          have hspec := innerLane_spec (bvh.innerNodes.getD nodeIndex default) ray
            encBox (.fin b0) i' q hpoint hq0
          rcases le_or_lt q b0 with hqb0 | hqb0
          · exact absurd (hspec.2 (by rw [FloatV.leB_fin_fin]; exact hqb0)) (by
              simpa using hmask)
          · linarith
        · exact h4 i' hmem first' last' hl q hq

/-- The inner-child stack entry a loop iteration pushes for lane `i` (if the
lane holds an inner link and its mask is set). -/
def innerChildEntry (bvh : TriangleBvh) (ray : Ray) (nodeIndex : ℕ)
    (encBox : AabbSized) (b0t : FloatV) (i : Fin 8) : Option StackEntry :=
  match (bvh.innerNodes.getD nodeIndex default).childLinks i with
  | NodeLink.inner index =>
    if (innerLane (bvh.innerNodes.getD nodeIndex default) ray encBox b0t i).2.2 then
      some ((index,
        (innerLane (bvh.innerNodes.getD nodeIndex default) ray encBox b0t i).2.1,
        (innerLane (bvh.innerNodes.getD nodeIndex default) ray encBox b0t i).1) :
          StackEntry)
    else none
  | _ => none

/-- Invariant of a pending stack entry, relative to the universe `U` of
root candidates: its link tree is well formed, its frame has nonnegative
size, and every candidate of its subtree is a `U`-candidate bounded below by
the entry's pruning distance. -/
def EntryInv (bvh : TriangleBvh) (ray : Ray) (U : ℚ → Prop) (e : StackEntry) : Prop :=
  LinkWf bvh (NodeLink.inner e.1) ∧
  Vec3.zero.le e.2.1.size ∧
  ∀ t : ℚ, RayCand bvh ray (NodeLink.inner e.1) e.2.1 t →
    U t ∧ FloatV.leB e.2.2 (.fin t) = true

/-- Main loop invariant of `intersect_recursive`: starting from a finite
best `b` and a stack of well-formed entries, the loop returns a finite best
`bO <= b` that is a `U`-candidate unless it still carries the no-hit
sentinel (in which case the best is untouched), and `bO` is at most every
candidate of every subtree pending on the stack — the pop-time pruning and
the lane masks never lose a better candidate. -/
lemma intersectRecLoop_spec (bvh : TriangleBvh) (ray : Ray) (hB : BvhBounded bvh)
    (U : ℚ → Prop) :
    ∀ (fuel : ℕ) (best : LeafHit) (b : ℚ) (stack : List StackEntry)
      (out : LeafHit × List StackEntry),
      intersectRecLoop bvh ray fuel best stack = some out →
      best.t = .fin b →
      (best.triangleIndex ≠ triangleIdxSentinel → 0 ≤ b ∧ U b) →
      (∀ e ∈ stack, EntryInv bvh ray U e) →
      ∃ bO : ℚ, out.1.t = .fin bO ∧ bO ≤ b ∧
        (out.1.triangleIndex ≠ triangleIdxSentinel → 0 ≤ bO ∧ U bO) ∧
        (out.1.triangleIndex = triangleIdxSentinel → out.1 = best) ∧
        (∀ e ∈ stack, ∀ t : ℚ,
          RayCand bvh ray (NodeLink.inner e.1) e.2.1 t → bO ≤ t) := by
  intro fuel
  induction fuel with
  | zero =>
    intro best b stack out h
    simp [intersectRecLoop] at h
  | succ n ih =>
    intro best b stack out h hbt hbest hstack
    cases stack with
    | nil =>
      simp only [intersectRecLoop, Option.some.injEq] at h
      refine ⟨b, ?_, le_rfl, ?_, ?_, ?_⟩
      · rw [← h]
        exact hbt
      · rw [← h]
        exact hbest
      · rw [← h]
        intro
        rfl
      · intro e he
        cases he
    | cons e rest =>
      obtain ⟨nodeIndex, encBox, nodeT1⟩ := e
      have hinv := hstack _ (List.mem_cons_self _ _)
      have hrest : ∀ e ∈ rest, EntryInv bvh ray U e :=
        fun e he => hstack e (List.mem_cons_of_mem _ he)
      have hwfn : ∀ i : Fin 8,
          LinkWf bvh ((bvh.innerNodes.getD nodeIndex default).childLinks i) := by
        cases hinv.1 with
        | inner _ hch => exact hch
      simp only [intersectRecLoop] at h
      split at h
      · -- pruned: the node's entry distance already exceeds the best
        rename_i hprune
        obtain ⟨bO, h1, h2, h3, h4, h5⟩ := ih best b rest out h hbt hbest hrest
        refine ⟨bO, h1, h2, h3, h4, ?_⟩
        intro e' he' t hc
        rcases List.mem_cons.mp he' with heq | hmem
        · rw [heq] at hc
          have hU := hinv.2.2 t hc
          have hbp : b < t := by
            rw [hbt] at hprune
            exact FloatV.ltB_fin_of_ltB_leB hprune hU.2
          linarith
        · exact h5 e' hmem t hc
      · -- process the node
        rename_i hnoprune
        rw [hbt] at h
        obtain ⟨br, hbr1, hbr2, hbr3, hbr4⟩ :=
          innerLanesFold_spec bvh ray hB nodeIndex encBox hinv.2.1 b hwfn
            (List.finRange 8) best b hbt le_rfl
        have hbest' : ((List.finRange 8).foldl
            (innerLeafStep bvh ray nodeIndex encBox (.fin b)) best).triangleIndex ≠
              triangleIdxSentinel → 0 ≤ br ∧ U br := by
          intro hne
          rcases hbr3 with heq | ⟨hidx, hbr0, hcand⟩
          · rw [heq] at hne hbr1
            rw [hbt] at hbr1
            have : br = b := (FloatV.fin.inj hbr1).symm
            subst this
            exact hbest hne
          · exact ⟨hbr0, (hinv.2.2 br hcand).1⟩
        have hsorted : ∀ e' ∈ (((List.finRange 8).filterMap
            (innerChildEntry bvh ray nodeIndex encBox (.fin b))).mergeSort
              (fun a b => FloatV.leB a.2.2 b.2.2)) ++ rest,
            EntryInv bvh ray U e' := by
          intro e' he'
          rcases List.mem_append.mp he' with hnew | hold
          · have hmem := (List.mergeSort_perm _ _).mem_iff.mp hnew
            obtain ⟨i, -, hfi⟩ := List.mem_filterMap.mp hmem
            unfold innerChildEntry at hfi
            revert hfi
            cases hlink : (bvh.innerNodes.getD nodeIndex default).childLinks i with
            | null => intro hfi; cases hfi
            | leaf _ _ => intro hfi; cases hfi
            | inner idx =>
              intro hfi
              dsimp only at hfi
              by_cases hmask : (innerLane (bvh.innerNodes.getD nodeIndex default) ray
                  encBox (.fin b) i).2.2 = true
              · rw [if_pos hmask] at hfi
                injection hfi with hfi
                subst hfi
                refine ⟨?_, ?_, ?_⟩
                · have hwf := hwfn i
                  rwa [hlink] at hwf
                · exact childBox_toSized_nonneg hB nodeIndex i hinv.2.1
                · intro t hc
                  have hc' : RayCand bvh ray
                      ((bvh.innerNodes.getD nodeIndex default).childLinks i)
                      ((((bvh.innerNodes.getD nodeIndex default).childBounds
                        i).decompress encBox).toSized) t := by
                    rw [hlink]
                    exact hc
                  have hlift : RayCand bvh ray (NodeLink.inner nodeIndex) encBox t :=
                    RayCand.inner nodeIndex encBox i t (by rw [hlink]; simp) hc'
                  refine ⟨(hinv.2.2 t hlift).1, ?_⟩
                  exact (innerLane_spec _ ray encBox (.fin b) i t
                    (laneCand_point_in_box hB nodeIndex i hinv.2.1 hc')
                    (rayCand_nonneg hc)).1
              · rw [if_neg hmask] at hfi
                cases hfi
          · exact hrest e' hold
        obtain ⟨bO, h1, h2, h3, h4, h5⟩ := ih _ br _ out h hbr1 hbest' hsorted
        refine ⟨bO, h1, le_trans h2 hbr2, h3, ?_, ?_⟩
        · intro hsent
          have hfold : out.1 = List.foldl
              (innerLeafStep bvh ray nodeIndex encBox (.fin b)) best
              (List.finRange 8) := h4 hsent
          rcases hbr3 with heq | ⟨hidx, -, -⟩
          · rw [hfold, heq]
          · exfalso
            rw [hfold] at hsent
            have hlt := lt_trans hidx hB.2.2
            rw [hsent] at hlt
            exact lt_irrefl _ hlt
        · intro e' he' t hc
          rcases List.mem_cons.mp he' with heq | hmem
          · rw [heq] at hc
            cases hc with
            | inner _ _ i t hne hsub =>
              cases hlink : (bvh.innerNodes.getD nodeIndex default).childLinks i with
              | null =>
                rw [hlink] at hne
                exact absurd rfl hne
              | leaf first last =>
                have hmin := hbr4 i (List.mem_finRange i) first last hlink t
                  (by rw [← hlink]; exact hsub)
                linarith
              | inner idx =>
                by_cases hmask : (innerLane (bvh.innerNodes.getD nodeIndex default)
                    ray encBox (.fin b) i).2.2 = true
                · have hentry : ((idx,
                      (innerLane (bvh.innerNodes.getD nodeIndex default) ray encBox
                        (.fin b) i).2.1,
                      (innerLane (bvh.innerNodes.getD nodeIndex default) ray encBox
                        (.fin b) i).1) : StackEntry) ∈
                      (((List.finRange 8).filterMap
                        (innerChildEntry bvh ray nodeIndex encBox (.fin b))).mergeSort
                          (fun a b => FloatV.leB a.2.2 b.2.2)) ++ rest := by
                    refine List.mem_append.mpr (Or.inl ?_)
                    refine (List.mergeSort_perm _ _).mem_iff.mpr ?_
                    refine List.mem_filterMap.mpr ⟨i, List.mem_finRange i, ?_⟩
                    unfold innerChildEntry
                    rw [hlink]
                    dsimp only
                    rw [if_pos hmask]
                  refine h5 _ hentry t ?_
                  show RayCand bvh ray (NodeLink.inner idx) _ t
                  have hlane : (innerLane (bvh.innerNodes.getD nodeIndex default) ray
                      encBox (.fin b) i).2.1 =
                      ((((bvh.innerNodes.getD nodeIndex default).childBounds
                        i).decompress encBox).toSized) := rfl
                  rw [hlane]
                  rw [hlink] at hsub
                  exact hsub
                · -- masked-out inner lane: its candidates exceed the pop-time best
                  have hpoint := laneCand_point_in_box hB nodeIndex i hinv.2.1 hsub
                  have hspec := innerLane_spec (bvh.innerNodes.getD nodeIndex default)
                    ray encBox (.fin b) i t hpoint (rayCand_nonneg hsub)
                  rcases le_or_lt t b with htb | htb
                  · exact absurd (hspec.2 (by rw [FloatV.leB_fin_fin]; exact htb))
                      (by simpa using hmask)
                  · linarith [le_trans h2 hbr2]
          · exact h5 e' (List.mem_append.mpr (Or.inr hmem)) t hc

/-- **C1.** For every ray and every well-formed BVH (16-bit quantized
coordinates, ordered stored boxes, in-arena leaf ranges, an arena small
enough for the packed index sentinel, and a proper bounding box),
`intersect` returns the nearest hit: if it returns `Some(hit)`, then `hit.t`
is a candidate — the ray intersects a decompressed triangle of the BVH at
`hit.t >= 0` under the Möller-Trumbore test — and is minimal among all
candidates; if it returns `None`, no candidate below the `f32::MAX` seed
exists (every `f32` distance is below it).  The stack pruning (discarding a
popped node whose entry `t1` exceeds the current best) and the lane masks
never lose the nearest hit. -/
theorem intersectBvh_nearest_hit (bvh : TriangleBvh) (ray : Ray)
    (stack : List StackEntry) (fuel : ℕ) (res : Option HitRecord)
    (stackOut : List StackEntry) (hB : BvhBounded bvh)
    (hwf : LinkWf bvh bvh.root)
    (hbb : bvh.boundingBox.min.le bvh.boundingBox.max)
    (h : intersectBvh bvh ray stack fuel = some (res, stackOut)) :
    (∀ hit : HitRecord, res = some hit →
      ∃ q : ℚ, hit.t = .fin q ∧ 0 ≤ q ∧
        RayCand bvh ray bvh.root bvh.boundingBox.toSized q ∧
        ∀ t : ℚ, RayCand bvh ray bvh.root bvh.boundingBox.toSized t → q ≤ t) ∧
    (res = none →
      ∀ t : ℚ, RayCand bvh ray bvh.root bvh.boundingBox.toSized t → f32Max ≤ t) := by
  cases stack with
  | cons a l => simp [intersectBvh] at h
  | nil =>
  unfold intersectBvh at h
  rw [if_neg (by simp)] at h
  dsimp only at h
  have hsize : Vec3.zero.le bvh.boundingBox.toSized.size := by
    obtain ⟨h1, h2, h3⟩ := hbb
    exact ⟨by simpa [Aabb.toSized, Vec3.sub, Vec3.zero] using sub_nonneg.mpr h1,
      by simpa [Aabb.toSized, Vec3.sub, Vec3.zero] using sub_nonneg.mpr h2,
      by simpa [Aabb.toSized, Vec3.sub, Vec3.zero] using sub_nonneg.mpr h3⟩
  cases hroot : bvh.root with
  | null =>
    rw [hroot] at h
    dsimp only at h
    rw [if_pos (show (LeafHit.start (FloatV.fin f32Max)).triangleIndex =
      triangleIdxSentinel from rfl)] at h
    simp only [Option.some.injEq, Prod.mk.injEq] at h
    constructor
    · intro hit hhit
      rw [← h.1] at hhit
      cases hhit
    · intro _ t hc
      cases hc
  | leaf first last =>
    rw [hroot] at h
    dsimp only at h
    obtain ⟨hLnan, hLshape, hLmin⟩ := intersectLeaf_spec bvh first last
      bvh.boundingBox.toSized ray (.fin f32Max)
    have harena : last ≤ bvh.triangleGeometry.length := by
      rw [hroot] at hwf
      cases hwf with
      | leaf _ _ h => exact h
    by_cases hsent : (intersectLeaf bvh first last bvh.boundingBox.toSized ray
        (.fin f32Max)).triangleIndex = triangleIdxSentinel
    · -- sentinel: no accepted lane
      rw [if_pos hsent] at h
      simp only [Option.some.injEq, Prod.mk.injEq] at h
      constructor
      · intro hit hhit
        rw [← h.1] at hhit
        cases hhit
      · intro _ t hc
        rcases hLshape with heq | ⟨q1, j, lane, hj1, hj2, hq1t, hq1idx, hq1cand, hq1max⟩
        · rcases le_or_lt t f32Max with htm | htm
          · have hmin := hLmin t hc (by rw [FloatV.leB_fin_fin]; exact htm)
            rw [heq] at hmin
            simp [LeafHit.start, FloatV.leB] at hmin
          · exact htm.le
        · exfalso
          rw [hq1idx] at hsent
          have hlt : j * 8 + lane.val < 8 * bvh.triangleGeometry.length := by
            have := lane.isLt
            omega
          have := lt_trans hlt hB.2.2
          rw [hsent] at this
          exact lt_irrefl _ this
    · -- a hit is returned, with `t` the leaf's best
      rw [if_neg hsent] at h
      constructor
      · intro hit hhit
        simp only [Option.some.injEq, Prod.mk.injEq] at h
        rw [← h.1] at hhit
        injection hhit with hhit
        rcases hLshape with heq | ⟨q1, j, lane, hj1, hj2, hq1t, hq1idx, hq1cand, hq1max⟩
        · rw [heq] at hsent
          exact absurd rfl hsent
        · refine ⟨q1, ?_, rayCand_nonneg hq1cand, ?_, ?_⟩
          · rw [← hhit]
            exact hq1t
          · exact hq1cand
          · intro t hc
            rcases le_or_lt t f32Max with htm | htm
            · have hmin := hLmin t hc (by rw [FloatV.leB_fin_fin]; exact htm)
              rw [hq1t, FloatV.leB_fin_fin] at hmin
              exact hmin
            · rw [FloatV.leB_fin_fin] at hq1max
              linarith
      · intro hnone
        simp only [Option.some.injEq, Prod.mk.injEq] at h
        rw [← h.1] at hnone
        cases hnone
  | inner index =>
    rw [hroot] at h
    dsimp only at h
    cases hrun : intersectRecursive bvh index bvh.boundingBox.toSized ray [] fuel with
    | none =>
      rw [hrun] at h
      cases h
    | some out =>
      rw [hrun] at h
      obtain ⟨bestO, stkO⟩ := out
      unfold intersectRecursive at hrun
      obtain ⟨bO, h1, h2, h3, h4, h5⟩ := intersectRecLoop_spec bvh ray hB
        (fun t => RayCand bvh ray (NodeLink.inner index) bvh.boundingBox.toSized t)
        fuel (LeafHit.start (.fin f32Max)) f32Max
        [(index, bvh.boundingBox.toSized, FloatV.inf false)] (bestO, stkO) hrun rfl
        (fun hk => absurd rfl hk)
        (by
          intro e he
          rcases List.mem_cons.mp he with rfl | hmem
          · refine ⟨by rw [hroot] at hwf; exact hwf, hsize, ?_⟩
            intro t hc
            exact ⟨hc, rfl⟩
          · cases hmem)
      dsimp only at h
      by_cases hsent : bestO.triangleIndex = triangleIdxSentinel
      · rw [if_pos hsent] at h
        simp only [Option.some.injEq, Prod.mk.injEq] at h
        constructor
        · intro hit hhit
          rw [← h.1] at hhit
          cases hhit
        · intro _ t hc
          have hbO : bO = f32Max := by
            have hb := h4 hsent
            rw [hb] at h1
            exact (FloatV.fin.inj h1).symm
          have := h5 _ (List.mem_cons_self _ _) t hc
          rw [hbO] at this
          exact this
      · rw [if_neg hsent] at h
        constructor
        · intro hit hhit
          simp only [Option.some.injEq, Prod.mk.injEq] at h
          rw [← h.1] at hhit
          injection hhit with hhit
          obtain ⟨hbO0, hcand⟩ := h3 hsent
          refine ⟨bO, ?_, hbO0, ?_, ?_⟩
          · rw [← hhit]
            exact h1
          · exact hcand
          · intro t hc
            exact h5 _ (List.mem_cons_self _ _) t hc
        · intro hnone
          simp only [Option.some.injEq, Prod.mk.injEq] at h
          rw [← h.1] at hnone
          cases hnone

set_option maxRecDepth 10000

/-- Witness ray: hits the witness scene's triangle head-on. -/
def wray : Ray := ⟨⟨1/4, 1/2, -1⟩, ⟨0, 0, 1⟩⟩

/-- The hit record `intersect` returns on the witness scene. -/
def whit : HitRecord :=
  (((intersectBvh wbvh wray [] 1).getD (none, [])).1).getD
    ⟨.nan, Vec3.zero, Vec3.zero, 0, (0, 0)⟩

/-- Closed witness for C1: on the concrete witness BVH and ray the returned
hit distance is a candidate and minimal among all candidates. -/
theorem intersectBvh_nearest_hit_witness :
    ∃ q : ℚ, whit.t = .fin q ∧ 0 ≤ q ∧
      RayCand wbvh wray wbvh.root wbvh.boundingBox.toSized q ∧
      ∀ t : ℚ, RayCand wbvh wray wbvh.root wbvh.boundingBox.toSized t → q ≤ t :=
  (intersectBvh_nearest_hit wbvh wray [] 1 (some whit) []
    (by
      unfold BvhBounded RelativePoint.Bounded RelativeBox.Mono
      with_unfolding_all decide)
    (by
      rw [show wbvh.root = NodeLink.leaf 0 1 by with_unfolding_all rfl]
      exact LinkWf.leaf 0 1 (by with_unfolding_all decide))
    (by
      unfold Vec3.le
      with_unfolding_all decide)
    (by with_unfolding_all rfl)).1 whit rfl

end Minipath
